import Mathlib

/-!
A shallow embedding of `get_real_ip.go`, the traefik-get-real-ip plugin.

The middleware `GetRealIP.ServeHTTP` scans the configured proxy rules in order,
and for the first rule whose trust check passes and whose real-IP source holds a
parsable address it rewrites `X-Real-Ip` (and optionally `X-Forwarded-For` and
`RemoteAddr`) before handing the request to the next handler.

Conventions of the embedding.

* A Go `string` is a Lean `String`, read as a sequence of code points; the
  standard library routines the middleware calls only inspect ASCII bytes or
  decode runes, so on well-formed UTF-8 text the two views coincide.
* The Go standard library functions called by the source (`strings.Split`,
  `strings.TrimSpace`, `net.SplitHostPort`, `net.ParseIP`, `net.IP.String`,
  `http.Header.Get`, `http.Header.Set`) are not part of the repository; they are
  transcribed from the Go standard library (`net/netip` as of Go 1.22), keeping
  their names, with errors collapsed to `none` where the caller discards them.
* A nil `net.IP` is `none`; a non-nil one is the list of its bytes.
* `http.Header` is a finite map from keys to value lists, modelled as a
  function to `Option (List String)`.
-/

namespace traefik_get_real_ip

/-! ## `strings` -/

/-- Go `strings.Split(s, sep)` for a one-byte separator, on characters: the
pieces of `s` between the occurrences of `sep`, in order. -/
def strings.splitChars (sep : Char) : List Char → List (List Char)
  | [] => [[]]
  | c :: cs =>
    if c = sep then [] :: strings.splitChars sep cs
    else
      match strings.splitChars sep cs with
      | [] => [[c]]
      | t :: ts => (c :: t) :: ts

/-- Go `strings.Split(s, sep)` with `sep` a single character. -/
def strings.Split (s : String) (sep : Char) : List String :=
  (strings.splitChars sep s.data).map String.mk

/-- Go `unicode.IsSpace`: the Latin-1 spaces and the code points with the
Unicode White_Space property. -/
def unicode.IsSpace (c : Char) : Bool :=
  let n := c.toNat
  n = 9 || n = 10 || n = 11 || n = 12 || n = 13 || n = 32 || n = 0x85 || n = 0xA0 ||
  n = 0x1680 || (0x2000 ≤ n && n ≤ 0x200A) || n = 0x2028 || n = 0x2029 ||
  n = 0x202F || n = 0x205F || n = 0x3000

/-- Go `strings.TrimSpace` on characters: leading and trailing white space
removed. -/
def strings.trimChars (s : List Char) : List Char :=
  ((s.dropWhile unicode.IsSpace).reverse.dropWhile unicode.IsSpace).reverse

/-- Go `strings.TrimSpace`. -/
def strings.TrimSpace (s : String) : String :=
  String.mk (strings.trimChars s.data)

/-! ## `net/textproto` and `net/http` headers -/

/-- Go `textproto.validHeaderFieldByte`: the RFC 7230 token characters. -/
def textproto.validHeaderFieldByte (c : Char) : Bool :=
  let n := c.toNat
  n = 33 || (35 ≤ n && n ≤ 39) || n = 42 || n = 43 || n = 45 || n = 46 ||
  (48 ≤ n && n ≤ 57) || (65 ≤ n && n ≤ 90) || (94 ≤ n && n ≤ 122) ||
  n = 124 || n = 126

/-- The rewriting loop of Go `textproto.canonicalMIMEHeaderKey`: upper case
for the first letter and each letter after a dash, lower case elsewhere. -/
def textproto.canonicalLoop : Bool → List Char → List Char
  | _, [] => []
  | upper, c :: cs =>
    let n := c.toNat
    let c1 :=
      if upper && (97 ≤ n && n ≤ 122) then Char.ofNat (n - 32)
      else if !upper && (65 ≤ n && n ≤ 90) then Char.ofNat (n + 32)
      else c
    c1 :: textproto.canonicalLoop (c1 = '-') cs

/-- Go `textproto.CanonicalMIMEHeaderKey`: a key made of token characters only
is put in canonical case, any other key is returned unchanged. -/
def textproto.CanonicalMIMEHeaderKey (s : String) : String :=
  if s.data.all textproto.validHeaderFieldByte then
    String.mk (textproto.canonicalLoop true s.data)
  else s

/-- Go `http.Header`, a `map[string][]string`. -/
abbrev http.Header := String → Option (List String)

/-- Go `http.Header.Get`: the first value stored under the canonical form of
`key`, or the empty string when there is none. -/
def http.Header.Get (h : http.Header) (key : String) : String :=
  match h (textproto.CanonicalMIMEHeaderKey key) with
  | some (v :: _) => v
  | _ => ""

/-- Go `http.Header.Set`: the entry under the canonical form of `key` is
replaced by the single value `value`. -/
def http.Header.Set (h : http.Header) (key value : String) : http.Header :=
  fun k => if k = textproto.CanonicalMIMEHeaderKey key then some [value] else h k

/-! ## `net`: host/port splitting -/

/-- Go `bytealg.IndexByteString`: index of the first `c`, `none` for `-1`. -/
def bytealg.IndexByteString : List Char → Char → Option Nat
  | [], _ => none
  | x :: xs, c =>
    if x = c then some 0 else (bytealg.IndexByteString xs c).map (· + 1)

/-- Go `bytealg.LastIndexByteString`: index of the last `c`, `none` for `-1`. -/
def bytealg.LastIndexByteString : List Char → Char → Option Nat
  | [], _ => none
  | x :: xs, c =>
    match bytealg.LastIndexByteString xs c with
    | some i => some (i + 1)
    | none => if x = c then some 0 else none

/-- Go `net.SplitHostPort` on characters; `none` stands for a non-nil error
(in which case Go returns empty host and port). -/
def net.splitHostPortChars (hostport : List Char) : Option (List Char × List Char) :=
  match bytealg.LastIndexByteString hostport ':' with
  | none => none
  | some i =>
    if hostport.head? = some '[' then
      match bytealg.IndexByteString hostport ']' with
      | none => none
      | some e =>
        if e + 1 = hostport.length then none
        else if e + 1 = i then
          let host := (hostport.take e).drop 1
          if (bytealg.IndexByteString (hostport.drop 1) '[').isSome then none
          else if (bytealg.IndexByteString (hostport.drop (e + 1)) ']').isSome then none
          else some (host, hostport.drop (i + 1))
        else none
    else
      let host := hostport.take i
      if (bytealg.IndexByteString host ':').isSome then none
      else if (bytealg.IndexByteString hostport '[').isSome then none
      else if (bytealg.IndexByteString hostport ']').isSome then none
      else some (host, hostport.drop (i + 1))

/-- Go `net.SplitHostPort`: `(host, port, err)`, the error kept only as a
flag; on error host and port are empty. -/
def net.SplitHostPort (hostport : String) : String × String × Bool :=
  match net.splitHostPortChars hostport.data with
  | some (h, p) => (String.mk h, String.mk p, false)
  | none => ("", "", true)

/-! ## `net/netip`: parsing -/

/-- ASCII decimal digit test, `c >= '0' && c <= '9'`. -/
def netip.isDigit (c : Char) : Bool := 48 ≤ c.toNat && c.toNat ≤ 57

/-- The loop of Go `netip.parseIPv4Fields` over the remaining characters:
`prev` is the previous character (`none` at index 0), `val`, `pos`, `digLen`
and `fields` are the loop variables. `none` is an error. -/
def netip.parseIPv4Fields.loop :
    List Char → Option Char → Nat → Nat → Nat → List Nat → Option (Nat × Nat × List Nat)
  | [], _, val, pos, _, fields => some (val, pos, fields)
  | c :: rest, prev, val, pos, digLen, fields =>
    if netip.isDigit c then
      if digLen = 1 ∧ val = 0 then none
      else
        let val1 := val * 10 + (c.toNat - 48)
        if val1 > 255 then none
        else netip.parseIPv4Fields.loop rest (some c) val1 pos (digLen + 1) fields
    else if c = '.' then
      if prev = none ∨ rest = [] ∨ prev = some '.' then none
      else if pos = 3 then none
      else netip.parseIPv4Fields.loop rest (some c) 0 (pos + 1) 0 (fields.set pos val)
    else none

/-- Go `netip.parseIPv4Fields`: the four octets of a dotted-decimal text. -/
def netip.parseIPv4Fields (s : List Char) : Option (List Nat) :=
  match netip.parseIPv4Fields.loop s none 0 0 0 [0, 0, 0, 0] with
  | none => none
  | some (val, pos, fields) => if pos < 3 then none else some (fields.set 3 val)

/-- Go `netip.Addr`, as far as parsing needs it: an IPv4 address (4 bytes) or
an IPv6 address (16 bytes) with its zone. -/
inductive netip.Addr where
  | v4 (b : List Nat)
  | v6 (b : List Nat) (zone : List Char)
deriving DecidableEq, Repr

/-- Go `netip.Addr.Zone`. -/
def netip.Addr.Zone : netip.Addr → List Char
  | .v4 _ => []
  | .v6 _ z => z

/-- Go `netip.Addr.As16`: an IPv4 address is returned in its IPv4-mapped IPv6
form. -/
def netip.Addr.As16 : netip.Addr → List Nat
  | .v4 b => [0, 0, 0, 0, 0, 0, 0, 0, 0, 0, 0xff, 0xff] ++ b
  | .v6 b _ => b

/-- Go `netip.parseIPv4`. -/
def netip.parseIPv4 (s : List Char) : Option netip.Addr :=
  (netip.parseIPv4Fields s).map netip.Addr.v4

/-- Value of a hexadecimal digit, `none` for any other character. -/
def netip.hexVal (c : Char) : Option Nat :=
  let n := c.toNat
  if 48 ≤ n ∧ n ≤ 57 then some (n - 48)
  else if 97 ≤ n ∧ n ≤ 102 then some (n - 97 + 10)
  else if 65 ≤ n ∧ n ≤ 70 then some (n - 65 + 10)
  else none

/-- The inner loop of Go `netip.parseIPv6` reading one hexadecimal group:
returns the number of digits read, the accumulated value and the rest of the
text; `none` is an error (more than four digits, or a value over 16 bits). -/
def netip.parseIPv6.hexLoop : List Char → Nat → Nat → Option (Nat × Nat × List Char)
  | [], off, acc => some (off, acc, [])
  | c :: cs, off, acc =>
    match netip.hexVal c with
    | none => some (off, acc, c :: cs)
    | some d =>
      let acc1 := (acc * 16 + d) % 2 ^ 32
      if off > 3 then none
      else if acc1 > 65535 then none
      else netip.parseIPv6.hexLoop cs (off + 1) acc1

/-- Writes `vals` into `xs` from index `i` on (a slice assignment). -/
def netip.setRange (xs : List Nat) (i : Nat) (vals : List Nat) : List Nat :=
  xs.take i ++ vals ++ xs.drop (i + vals.length)

/-- The main loop `for i < 16` of Go `netip.parseIPv6`, with loop variables
`i`, `s`, `ip` and `ellipsis` (`none` for `-1`). Each round advances `i` by at
least two, so eight rounds of fuel cover every run. The result is the state at
loop exit, `none` an error. -/
def netip.parseIPv6.loop :
    Nat → Nat → List Char → List Nat → Option Nat →
      Option (Nat × List Char × List Nat × Option Nat)
  | 0, i, s, ip, ell => some (i, s, ip, ell)
  | fuel + 1, i, s, ip, ell =>
    if ¬ i < 16 then some (i, s, ip, ell)
    else
      match netip.parseIPv6.hexLoop s 0 0 with
      | none => none
      | some (off, acc, rest) =>
        if off = 0 then none
        else if rest.head? = some '.' then
          if ell = none ∧ i ≠ 12 then none
          else if i + 4 > 16 then none
          else
            match netip.parseIPv4Fields s with
            | none => none
            | some f => some (i + 4, [], netip.setRange ip i f, ell)
        else
          let ip1 := (ip.set i (acc / 256)).set (i + 1) (acc % 256)
          let i1 := i + 2
          if rest = [] then some (i1, rest, ip1, ell)
          else if rest.head? ≠ some ':' then none
          else if rest.length = 1 then none
          else
            let s1 := rest.tail
            if s1.head? = some ':' then
              if ell.isSome then none
              else if s1.tail = [] then some (i1, s1.tail, ip1, some i1)
              else netip.parseIPv6.loop fuel i1 s1.tail ip1 (some i1)
            else netip.parseIPv6.loop fuel i1 s1 ip1 ell

/-- The end of Go `netip.parseIPv6`, after the main loop: the whole text must
have been used, a short address needs an ellipsis, which is expanded to the
missing zero bytes, and a full address must not have one. -/
def netip.parseIPv6.finish (zone : List Char) :
    Option (Nat × List Char × List Nat × Option Nat) → Option netip.Addr
  | none => none
  | some (i, rest, ip, ell) =>
    if rest ≠ [] then none
    else if i < 16 then
      match ell with
      | none => none
      | some e =>
        some (.v6 (ip.take e ++ List.replicate (16 - i) 0 ++ (ip.drop e).take (i - e)) zone)
    else if ell.isSome then none
    else some (.v6 ip zone)

/-- Go `netip.parseIPv6`. -/
def netip.parseIPv6 (input : List Char) : Option netip.Addr :=
  let pct := bytealg.IndexByteString input '%'
  let s := match pct with
    | some i => input.take i
    | none => input
  let zone := match pct with
    | some i => input.drop (i + 1)
    | none => []
  if pct.isSome ∧ zone = [] then none
  else
    let lead := s.head? = some ':' ∧ (s.drop 1).head? = some ':'
    let s0 := if lead then s.drop 2 else s
    let ell0 : Option Nat := if lead then some 0 else none
    if lead ∧ s0 = [] then some (.v6 (List.replicate 16 0) zone)
    else netip.parseIPv6.finish zone (netip.parseIPv6.loop 8 0 s0 (List.replicate 16 0) ell0)

/-- The scan of Go `netip.ParseAddr` for the first `.`, `:` or `%` of `s`,
which decides how the whole text `s` is parsed. -/
def netip.ParseAddr.scan (s : List Char) : List Char → Option netip.Addr
  | [] => none
  | c :: rest =>
    if c = '.' then netip.parseIPv4 s
    else if c = ':' then netip.parseIPv6 s
    else if c = '%' then none
    else netip.ParseAddr.scan s rest

/-- Go `netip.ParseAddr`. -/
def netip.ParseAddr (s : List Char) : Option netip.Addr :=
  netip.ParseAddr.scan s s

/-! ## `net.IP` -/

/-- Go `net.IP`, a byte slice; the nil slice is `none` of `Option net.IP`. -/
abbrev net.IP := List Nat

/-- Go `net.ParseIP`: the 16-byte form of the address `s` denotes, `none`
(nil) when `s` is not a valid textual IP address or carries a zone. -/
def net.ParseIP (s : String) : Option net.IP :=
  match netip.ParseAddr s.data with
  | none => none
  | some a => if a.Zone ≠ [] then none else some a.As16

/-- Go `net.IP.To4`: the 4-byte form of an IPv4 address, `none` (nil) for
anything else. -/
def net.IP.To4 (ip : net.IP) : Option net.IP :=
  if ip.length = 4 then some ip
  else if ip.length = 16 ∧ (ip.take 10).all (· = 0) ∧ ip.get? 10 = some 0xff
      ∧ ip.get? 11 = some 0xff then
    some (ip.drop 12)
  else none

/-- The digit table `"0123456789abcdef"` of Go `net/netip`. -/
def netip.digit (n : Nat) : Char :=
  if n < 10 then Char.ofNat (48 + n) else Char.ofNat (87 + n)

/-- Go `netip.appendDecimal`: a byte in decimal without leading zeros. -/
def netip.appendDecimal (x : Nat) : List Char :=
  (if x ≥ 100 then [netip.digit (x / 100)] else []) ++
  (if x ≥ 10 then [netip.digit (x / 10 % 10)] else []) ++
  [netip.digit (x % 10)]

/-- Go `netip.appendHex`: a 16-bit group in lower-case hexadecimal without
leading zeros. -/
def netip.appendHex (x : Nat) : List Char :=
  (if x ≥ 0x1000 then [netip.digit (x / 0x1000)] else []) ++
  (if x ≥ 0x100 then [netip.digit (x / 0x100 % 16)] else []) ++
  (if x ≥ 0x10 then [netip.digit (x / 0x10 % 16)] else []) ++
  [netip.digit (x % 16)]

/-- Go `netip.Addr.string4`: dotted decimal of a 4-byte address. -/
def netip.string4 (b : List Nat) : List Char :=
  netip.appendDecimal (b.getD 0 0) ++ ['.'] ++ netip.appendDecimal (b.getD 1 0) ++ ['.'] ++
  netip.appendDecimal (b.getD 2 0) ++ ['.'] ++ netip.appendDecimal (b.getD 3 0)

/-- Go `netip.Addr.v6u16`: the `i`-th 16-bit group of a 16-byte address. -/
def netip.v6u16 (b : List Nat) (i : Nat) : Nat :=
  b.getD (2 * i) 0 * 256 + b.getD (2 * i + 1) 0

/-- Length of the run of zero groups starting at group `i`: the inner loop
`for j < 8 && ip.v6u16(j) == 0` of Go `netip.Addr.appendTo6`, returning `j`. -/
def netip.zeroRunEnd (b : List Nat) : Nat → Nat → Nat
  | 0, j => j
  | fuel + 1, j =>
    if j < 8 ∧ netip.v6u16 b j = 0 then netip.zeroRunEnd b fuel (j + 1) else j

/-- The first loop of Go `netip.Addr.appendTo6`, looking for the longest run
of at least two zero groups; `(zeroStart, zeroEnd)`, both 255 when none. -/
def netip.zeroSpan (b : List Nat) : Nat → Nat → Nat × Nat → Nat × Nat
  | 0, _, z => z
  | fuel + 1, i, (zeroStart, zeroEnd) =>
    let j := netip.zeroRunEnd b 8 i
    let l := j - i
    let z1 := if l ≥ 2 ∧ l > zeroEnd - zeroStart then (i, j) else (zeroStart, zeroEnd)
    netip.zeroSpan b fuel (i + 1) z1

/-- The second loop of Go `netip.Addr.appendTo6`, writing the groups from
group `i` on, with `::` in place of the zero span. -/
def netip.appendGroups (b : List Nat) (zeroStart zeroEnd : Nat) : Nat → Nat → List Char
  | 0, _ => []
  | fuel + 1, i =>
    if ¬ i < 8 then []
    else if i = zeroStart then
      if zeroEnd ≥ 8 then [':', ':']
      else
        [':', ':'] ++ netip.appendHex (netip.v6u16 b zeroEnd) ++
          netip.appendGroups b zeroStart zeroEnd fuel (zeroEnd + 1)
    else
      (if i > 0 then [':'] else []) ++ netip.appendHex (netip.v6u16 b i) ++
        netip.appendGroups b zeroStart zeroEnd fuel (i + 1)

/-- Go `netip.Addr.string6` for an address without zone. -/
def netip.string6 (b : List Nat) : List Char :=
  let z := netip.zeroSpan b 8 0 (255, 255)
  netip.appendGroups b z.1 z.2 8 0

/-- Go `net.hexString`: two lower-case hexadecimal digits per byte. -/
def net.hexString (b : List Nat) : List Char :=
  b.flatMap fun x => [netip.digit (x / 16), netip.digit (x % 16)]

/-- Go `net.IP.String`: dotted decimal for an IPv4 (or IPv4-mapped) address,
the RFC 5952 text for any other 16-byte address. -/
def net.IP.String (ip : net.IP) : String :=
  if ip.length = 0 then "<nil>"
  else if ip.length ≠ 4 ∧ ip.length ≠ 16 then String.mk ('?' :: net.hexString ip)
  else
    match net.IP.To4 ip with
    | some p4 => String.mk (netip.string4 p4)
    | none => String.mk (netip.string6 ip)

/-! ## The plugin: `get_real_ip.go` -/

/-- The constant `xRealIP`. -/
def xRealIP : String := "X-Real-Ip"

/-- The constant `xForwardedFor`. -/
def xForwardedFor : String := "X-Forwarded-For"

/-- The constant `remoteAddr`. -/
def remoteAddr : String := "RemoteAddr"

/-- The struct `Proxy`: one configured proxy rule. -/
structure Proxy where
  ProxyHeadername : String
  ProxyHeadervalue : String
  RealIP : String
  OverwriteXFF : Bool
  OverwriteRA : Bool
deriving DecidableEq, Repr

/-- The struct `Config`: the plugin configuration. -/
structure Config where
  Proxy : List Proxy

/-- The function `CreateConfig`: the default (empty) configuration. -/
def CreateConfig : Config := { Proxy := [] }

/-- The struct `GetRealIP` without its `next` handler, which the embedding
treats as the consumer of the request `ServeHTTP` produces. -/
structure GetRealIP where
  name : String
  proxy : List Proxy

/-- The function `New`. -/
def New (config : Config) (name : String) : GetRealIP :=
  { name := name, proxy := config.Proxy }

/-- The part of `*http.Request` the plugin reads and writes. -/
structure Request where
  Header : http.Header
  RemoteAddr : String

/-- The method `getIP`: the port is split off when `s` is a host:port text,
otherwise `s` is taken whole, and the host is parsed as an IP. -/
def GetRealIP.getIP (_g : GetRealIP) (s : String) : Option net.IP :=
  let r := net.SplitHostPort s
  let pureIP := if r.2.2 then s else r.1
  net.ParseIP pureIP

/-- The inner loop of `ServeHTTP` (lines 77-85) over the remaining entries of
`forwardedIPs`, threading the variable `realIPStr`: the first entry that
parses sets it and breaks. -/
def GetRealIP.scanForwardedIPs (g : GetRealIP) : List String → String → String
  | [], realIPStr => realIPStr
  | f :: rest, realIPStr =>
    let trimmedIP := strings.TrimSpace f
    match g.getIP trimmedIP with
    | some finalIP => net.IP.String finalIP
    | none => g.scanForwardedIPs rest realIPStr

/-- The condition of line 66: the rule is the wildcard or the request carries
the rule's header with the rule's value. -/
def GetRealIP.trusted (_g : GetRealIP) (proxy : Proxy) (req : Request) : Bool :=
  proxy.ProxyHeadername == "*" ||
    req.Header.Get proxy.ProxyHeadername == proxy.ProxyHeadervalue

/-- Lines 70-73: the raw value `nIP` of the rule's real-IP source. -/
def GetRealIP.sourceValue (_g : GetRealIP) (proxy : Proxy) (req : Request) : String :=
  let nIP := req.Header.Get proxy.RealIP
  if proxy.RealIP = remoteAddr then (net.SplitHostPort req.RemoteAddr).1 else nIP

/-- Lines 66-86: the value of `realIPStr` after the trust block of one loop
round. -/
def GetRealIP.resolve (g : GetRealIP) (proxy : Proxy) (req : Request)
    (realIPStr : String) : String :=
  if g.trusted proxy req then
    let forwardedIPs := strings.Split (g.sourceValue proxy req) ','
    g.scanForwardedIPs forwardedIPs realIPStr
  else realIPStr

/-- Lines 89-97: the header writes of a round in which `realIPStr` is set. -/
def GetRealIP.rewrite (_g : GetRealIP) (proxy : Proxy) (realIPStr : String)
    (h : http.Header) : http.Header :=
  let h1 := if proxy.OverwriteXFF then h.Set xForwardedFor realIPStr else h
  let h2 := if proxy.OverwriteRA then h1.Set remoteAddr realIPStr else h1
  h2.Set xRealIP realIPStr

/-- The loop of `ServeHTTP` over the remaining rules (lines 65-100), threading
`realIPStr` and the request; the result is the request at loop exit. -/
def GetRealIP.rulesLoop (g : GetRealIP) : List Proxy → String → Request → Request
  | [], _, req => req
  | proxy :: rest, realIPStr, req =>
    let realIPStr1 := g.resolve proxy req realIPStr
    if realIPStr1 ≠ "" then
      { req with Header := g.rewrite proxy realIPStr1 req.Header }
    else g.rulesLoop rest realIPStr1 req

/-- The method `ServeHTTP` on its normal path: the request handed to the next
handler at line 101. -/
def GetRealIP.ServeHTTP (g : GetRealIP) (req : Request) : Request :=
  g.rulesLoop g.proxy "" req

/-! ## Faults: the nil header map, `defer`/`recover` and the next handler

The definitions above describe `ServeHTTP` on its normal path. The ones below
add what the normal path leaves out: a request whose `Header` is the nil map
(reading it is allowed and finds nothing, writing to it panics), the deferred
function of lines 56-61, and the next handler, which may itself panic. -/

/-- A `*http.Request` as Go allows it: `Header` may be the nil map (`none`). -/
structure RawRequest where
  Header : Option http.Header
  RemoteAddr : String

/-- What reads of the request see: a nil map reads as the empty map. -/
def RawRequest.view (req : RawRequest) : Request :=
  { Header := req.Header.getD (fun _ => none), RemoteAddr := req.RemoteAddr }

/-- The result of running code that may panic: the state it ran to completion
in, or the state in which it panicked. -/
inductive Exec (σ : Type) where
  | done (s : σ)
  | panic (s : σ)

/-- Sequencing: the second piece runs only if the first ran to completion. -/
def Exec.andThen {σ : Type} (e : Exec σ) (f : σ → Exec σ) : Exec σ :=
  match e with
  | .done s => f s
  | .panic s => .panic s

/-- The statement `req.Header.Set(key, value)`: an assignment to an entry of a
nil map panics, leaving the request as it was. -/
def RawRequest.setHeader (req : RawRequest) (key value : String) : Exec RawRequest :=
  match req.Header with
  | none => .panic req
  | some m => .done { req with Header := some (m.Set key value) }

/-- Lines 89-97 as a sequence of statements, each of which may panic. -/
def GetRealIP.rewriteRaw (_g : GetRealIP) (proxy : Proxy) (realIPStr : String)
    (req : RawRequest) : Exec RawRequest :=
  ((if proxy.OverwriteXFF then req.setHeader xForwardedFor realIPStr
    else Exec.done req).andThen fun r1 =>
      if proxy.OverwriteRA then r1.setHeader remoteAddr realIPStr else Exec.done r1).andThen
    fun r2 => r2.setHeader xRealIP realIPStr

/-- The loop of `ServeHTTP` (lines 65-100) with its possible panic: the reads
of a round (lines 66-86) cannot panic, the writes (lines 89-97) can; a round
that writes ends the loop. -/
def GetRealIP.rulesLoopRaw (g : GetRealIP) : List Proxy → String → RawRequest → Exec RawRequest
  | [], _, req => .done req
  | proxy :: rest, realIPStr, req =>
    let realIPStr1 := g.resolve proxy req.view realIPStr
    if realIPStr1 ≠ "" then g.rewriteRaw proxy realIPStr1 req
    else g.rulesLoopRaw rest realIPStr1 req

/-- The next handler as the plugin meets it: whether its `n`-th invocation
(counted from 0) on a request panics. -/
structure Handler where
  panics : Nat → RawRequest → Bool

/-- What one call of `ServeHTTP` did: the requests handed to the next handler,
in order, and whether the call ended with a panic that reaches the caller. -/
structure Run where
  calls : List RawRequest
  panicked : Bool

/-- The method `ServeHTTP` with its deferred function. If the loop panics, the
deferred function recovers the panic and invokes the next handler (line 59);
a panic of that invocation reaches the caller. If the loop completes, line
101 invokes the next handler; if that invocation panics, the deferred function
recovers this panic too and invokes the next handler again. The request is
passed by pointer, so each invocation sees the plugin's writes so far. -/
def GetRealIP.ServeHTTPRun (g : GetRealIP) (next : Handler) (req : RawRequest) : Run :=
  match g.rulesLoopRaw g.proxy "" req with
  | .panic r => { calls := [r], panicked := next.panics 0 r }
  | .done r =>
    if next.panics 0 r then { calls := [r, r], panicked := next.panics 1 r }
    else { calls := [r], panicked := false }

/-- A request with a non-nil header map, as a `RawRequest`. -/
def Request.raw (req : Request) : RawRequest :=
  { Header := some req.Header, RemoteAddr := req.RemoteAddr }

/-! ## Auxiliary definitions used in proofs -/

/-- The dotted-decimal text of the octets of `f` from index `3 - n` to index 3:
the part of `netip.string4 f` that starts at that octet. -/
def netip.renderFrom (f : List Nat) : Nat → List Char
  | 0 => netip.appendDecimal (f.getD 3 0)
  | n + 1 => netip.appendDecimal (f.getD (3 - (n + 1)) 0) ++ '.' :: netip.renderFrom f n

/-- The rendered groups `gs`, each preceded by a colon. -/
def netip.colonHex (gs : List Nat) : List Char :=
  gs.flatMap fun g => ':' :: netip.appendHex g

/-- The rendered groups `gs` joined by colons, as `appendTo6` writes a run of
groups. -/
def netip.joinHex : List Nat → List Char
  | [] => []
  | g :: gs => netip.appendHex g ++ netip.colonHex gs

/-- The bytes `ip` after the main loop of `parseIPv6` has stored the groups
`gs` from byte `i` on. -/
def netip.writeGroups : List Nat → Nat → List Nat → List Nat
  | ip, _, [] => ip
  | ip, i, g :: gs =>
    netip.writeGroups ((ip.set i (g / 256)).set (i + 1) (g % 256)) (i + 2) gs

/-- The big-endian bytes of the 16-bit groups `gs`. -/
def netip.groupBytes (gs : List Nat) : List Nat :=
  gs.flatMap fun g => [g / 256, g % 256]

/-- The groups `a, a+1, ..., a+n-1` of the address `b`. -/
def netip.groupsFrom (b : List Nat) (a n : Nat) : List Nat :=
  (List.range' a n).map (netip.v6u16 b)

/-! ## Concrete configurations and requests used by the witnesses -/

/-- A plugin instance with the given rules. -/
def exPlugin (rules : List Proxy) : GetRealIP := { name := "real-ip", proxy := rules }

/-- A header map holding the single entry `key: value`. -/
def exHeader (key value : String) : http.Header :=
  fun k => if k = key then some [value] else none

/-- The empty header map. -/
def exNoHeader : http.Header := fun _ => none

/-- A wildcard rule reading `X-Forwarded-For`, overwriting nothing else. -/
def exRuleXFF : Proxy :=
  { ProxyHeadername := "*", ProxyHeadervalue := "", RealIP := "X-Forwarded-For",
    OverwriteXFF := false, OverwriteRA := false }

/-- A rule trusting requests marked `X-From-Cdn: cdn-1`, reading
`Cf-Connecting-Ip` and overwriting both optional headers. -/
def exRuleCDN : Proxy :=
  { ProxyHeadername := "X-From-Cdn", ProxyHeadervalue := "cdn-1", RealIP := "Cf-Connecting-Ip",
    OverwriteXFF := true, OverwriteRA := true }

/-- A non-wildcard rule whose configured header value is empty, reading the
transport peer address. -/
def exRuleEmptyValue : Proxy :=
  { ProxyHeadername := "X-From-Cdn", ProxyHeadervalue := "", RealIP := "RemoteAddr",
    OverwriteXFF := false, OverwriteRA := false }

/-- A wildcard rule reading the transport peer address. -/
def exRulePeer : Proxy :=
  { ProxyHeadername := "*", ProxyHeadervalue := "", RealIP := "RemoteAddr",
    OverwriteXFF := false, OverwriteRA := false }

/-- A rule that trusts requests whose `X-Real-Ip` already reads
`203.0.113.9`, reading `X-Client-Ip`. -/
def exRuleTrustRealIP : Proxy :=
  { ProxyHeadername := "X-Real-Ip", ProxyHeadervalue := "203.0.113.9", RealIP := "X-Client-Ip",
    OverwriteXFF := false, OverwriteRA := false }

/-- A request carrying `X-Client-Ip: 198.51.100.1` and
`X-Forwarded-For: 203.0.113.9`. -/
def exRequestTwoSources : Request :=
  { Header := fun k =>
      if k = "X-Client-Ip" then some ["198.51.100.1"]
      else if k = "X-Forwarded-For" then some ["203.0.113.9"]
      else none,
    RemoteAddr := "192.0.2.1:1234" }

/-- A request without headers whose peer address is the unbracketed IPv6
text `::1` followed by `:8080`. -/
def exRequestBareV6 : Request := { Header := exNoHeader, RemoteAddr := "::1" ++ ":" ++ "8080" }

/-- A request whose peer is `198.51.100.7:54321` and which carries a
client-supplied header named `RemoteAddr`. -/
def exRequestPeer : Request :=
  { Header := exHeader "Remoteaddr" "10.66.66.66", RemoteAddr := "198.51.100.7" ++ ":" ++ "54321" }

/-- A wildcard rule reading `X-Real-Ip` itself and overwriting
`X-Forwarded-For`. -/
def exRuleReadRealIP : Proxy :=
  { ProxyHeadername := "*", ProxyHeadervalue := "", RealIP := "X-Real-Ip",
    OverwriteXFF := true, OverwriteRA := false }

/-- A wildcard rule reading the transport peer address and overwriting both
optional headers. -/
def exRulePeerOverwrite : Proxy :=
  { ProxyHeadername := "*", ProxyHeadervalue := "", RealIP := "RemoteAddr",
    OverwriteXFF := true, OverwriteRA := true }

/-- A request carrying a client-supplied header named `RemoteAddr` with the
given value, from the peer `198.51.100.7:54321`. -/
def exRequestSpoof (v : String) : Request :=
  { Header := exHeader "Remoteaddr" v, RemoteAddr := "198.51.100.7:54321" }

/-- A rule whose trust header is the header named `RemoteAddr` and whose
source is the peer address. -/
def exRuleTrustRA : Proxy :=
  { ProxyHeadername := "RemoteAddr", ProxyHeadervalue := "10.0.0.1", RealIP := "RemoteAddr",
    OverwriteXFF := false, OverwriteRA := false }

/-- A next handler that never panics. -/
def exNextOk : Handler := { panics := fun _ _ => false }

/-- A next handler whose first invocation panics (as a handler aborting with
`http.ErrAbortHandler` does) and whose later invocations return. -/
def exNextAborts : Handler := { panics := fun n _ => n == 0 }

/-- A request with the nil header map from the peer `198.51.100.7:54321`. -/
def exRequestNilHeader : RawRequest := { Header := none, RemoteAddr := "198.51.100.7:54321" }

/-- A request with an `X-Forwarded-For` chain and a non-nil header map. -/
def exRequestRawXFF : RawRequest :=
  { Header := some (exHeader "X-Forwarded-For" "203.0.113.5, 10.0.0.1"),
    RemoteAddr := "192.0.2.1:1234" }

/-! ## Rendering never yields the empty string -/

theorem netip.appendHex_ne_nil (x : Nat) : netip.appendHex x ≠ [] := by
  unfold netip.appendHex
  simp

theorem netip.appendDecimal_ne_nil (x : Nat) : netip.appendDecimal x ≠ [] := by
  unfold netip.appendDecimal
  simp

theorem netip.string4_ne_nil (b : List Nat) : netip.string4 b ≠ [] := by
  unfold netip.string4
  simp

theorem netip.string6_ne_nil (b : List Nat) : netip.string6 b ≠ [] := by
  unfold netip.string6
  rw [show (8 : Nat) = 7 + 1 from rfl, netip.appendGroups]
  have := netip.appendHex_ne_nil (netip.v6u16 b 0)
  split
  · omega
  · split
    · split <;> simp
    · simp [this]

theorem string_mk_ne_empty {l : List Char} (h : l ≠ []) : String.mk l ≠ "" := by
  intro e
  apply h
  have := congrArg String.data e
  simpa using this

/-- The text of an address is never empty, so `realIPStr != ""` at line 88
holds exactly when a candidate parsed. -/
theorem net.IP.String_ne_empty (ip : net.IP) : net.IP.String ip ≠ "" := by
  unfold net.IP.String
  split
  · decide
  · split
    · exact string_mk_ne_empty (by simp)
    · split
      · exact string_mk_ne_empty (netip.string4_ne_nil _)
      · exact string_mk_ne_empty (netip.string6_ne_nil _)

/-! ## The candidate scan -/

theorem GetRealIP.scanForwardedIPs_eq_findSome (g : GetRealIP) (toks : List String)
    (cur : String) :
    g.scanForwardedIPs toks cur =
      match toks.findSome? (fun t => g.getIP (strings.TrimSpace t)) with
      | some ip => net.IP.String ip
      | none => cur := by
  induction toks with
  | nil => simp [GetRealIP.scanForwardedIPs]
  | cons t ts ih =>
    simp only [GetRealIP.scanForwardedIPs, List.findSome?]
    cases h : g.getIP (strings.TrimSpace t) with
    | none => simpa using ih
    | some ip => simp

theorem GetRealIP.scanForwardedIPs_first (g : GetRealIP) (pre : List String) (tok : String)
    (post : List String) (ip : net.IP) (cur : String)
    (hpre : ∀ t ∈ pre, g.getIP (strings.TrimSpace t) = none)
    (htok : g.getIP (strings.TrimSpace tok) = some ip) :
    g.scanForwardedIPs (pre ++ tok :: post) cur = net.IP.String ip := by
  induction pre with
  | nil => simp [GetRealIP.scanForwardedIPs, htok]
  | cons t ts ih =>
    have ht : g.getIP (strings.TrimSpace t) = none := hpre t (by simp)
    simp only [List.cons_append, GetRealIP.scanForwardedIPs, ht]
    exact ih (fun u hu => hpre u (by simp [hu]))

theorem GetRealIP.scanForwardedIPs_none (g : GetRealIP) (toks : List String) (cur : String)
    (h : ∀ t ∈ toks, g.getIP (strings.TrimSpace t) = none) :
    g.scanForwardedIPs toks cur = cur := by
  induction toks with
  | nil => simp [GetRealIP.scanForwardedIPs]
  | cons t ts ih =>
    have ht : g.getIP (strings.TrimSpace t) = none := h t (by simp)
    simp only [GetRealIP.scanForwardedIPs, ht]
    exact ih (fun u hu => h u (by simp [hu]))

/-- Every candidate list either has a first entry that parses, all entries
before it failing, or consists of entries that all fail. -/
theorem GetRealIP.first_valid_split (g : GetRealIP) (toks : List String) :
    (∃ pre tok post ip, toks = pre ++ tok :: post ∧
        (∀ t ∈ pre, g.getIP (strings.TrimSpace t) = none) ∧
        g.getIP (strings.TrimSpace tok) = some ip) ∨
      (∀ t ∈ toks, g.getIP (strings.TrimSpace t) = none) := by
  induction toks with
  | nil => right; simp
  | cons t ts ih =>
    cases h : g.getIP (strings.TrimSpace t) with
    | some ip => exact Or.inl ⟨[], t, ts, ip, by simp, by simp, h⟩
    | none =>
      rcases ih with ⟨pre, tok, post, ip, e, hp, ht⟩ | hn
      · refine Or.inl ⟨t :: pre, tok, post, ip, by simp [e], ?_, ht⟩
        intro u hu
        rcases List.mem_cons.1 hu with rfl | hu
        · exact h
        · exact hp u hu
      · right
        intro u hu
        rcases List.mem_cons.1 hu with rfl | hu
        · exact h
        · exact hn u hu

/-! ## One round of the rule loop -/

theorem GetRealIP.resolve_untrusted (g : GetRealIP) (proxy : Proxy) (req : Request)
    (cur : String) (h : g.trusted proxy req = false) : g.resolve proxy req cur = cur := by
  simp [GetRealIP.resolve, h]

theorem GetRealIP.resolve_none (g : GetRealIP) (proxy : Proxy) (req : Request)
    (cur : String)
    (h : ∀ t ∈ strings.Split (g.sourceValue proxy req) ',',
      g.getIP (strings.TrimSpace t) = none) : g.resolve proxy req cur = cur := by
  unfold GetRealIP.resolve
  split
  · exact GetRealIP.scanForwardedIPs_none g _ cur h
  · rfl

theorem GetRealIP.resolve_loser (g : GetRealIP) (proxy : Proxy) (req : Request)
    (cur : String)
    (h : g.trusted proxy req = false ∨
      ∀ t ∈ strings.Split (g.sourceValue proxy req) ',',
        g.getIP (strings.TrimSpace t) = none) : g.resolve proxy req cur = cur :=
  h.elim (GetRealIP.resolve_untrusted g proxy req cur) (GetRealIP.resolve_none g proxy req cur)

theorem GetRealIP.resolve_winner (g : GetRealIP) (proxy : Proxy) (req : Request)
    (cur : String) (ip : net.IP) (ht : g.trusted proxy req = true)
    (hip : (strings.Split (g.sourceValue proxy req) ',').findSome?
      (fun t => g.getIP (strings.TrimSpace t)) = some ip) :
    g.resolve proxy req cur = net.IP.String ip := by
  simp only [GetRealIP.resolve, ht, if_true]
  rw [GetRealIP.scanForwardedIPs_eq_findSome, hip]

theorem GetRealIP.rulesLoop_skip (g : GetRealIP) (proxy : Proxy) (rest : List Proxy)
    (req : Request) (h : g.resolve proxy req "" = "") :
    g.rulesLoop (proxy :: rest) "" req = g.rulesLoop rest "" req := by
  simp [GetRealIP.rulesLoop, h]

theorem GetRealIP.rulesLoop_win (g : GetRealIP) (proxy : Proxy) (rest : List Proxy)
    (req : Request) (v : String) (h : g.resolve proxy req "" = v) (hv : v ≠ "") :
    g.rulesLoop (proxy :: rest) "" req =
      { req with Header := g.rewrite proxy v req.Header } := by
  simp [GetRealIP.rulesLoop, h, hv]

theorem GetRealIP.rulesLoop_losers (g : GetRealIP) (pre rest : List Proxy) (req : Request)
    (h : ∀ p ∈ pre, g.resolve p req "" = "") :
    g.rulesLoop (pre ++ rest) "" req = g.rulesLoop rest "" req := by
  induction pre with
  | nil => rfl
  | cons p ps ih =>
    rw [List.cons_append, GetRealIP.rulesLoop_skip g p _ req (h p (by simp))]
    exact ih (fun q hq => h q (by simp [hq]))

/-- The request produced when rule `proxy` is the first to yield an address:
the rules before it leave the request alone and the rules after it are not
reached. -/
theorem GetRealIP.rulesLoop_first_winner (g : GetRealIP) (pre : List Proxy) (proxy : Proxy)
    (post : List Proxy) (req : Request) (ip : net.IP)
    (hpre : ∀ p ∈ pre, g.trusted p req = false ∨
      ∀ t ∈ strings.Split (g.sourceValue p req) ',', g.getIP (strings.TrimSpace t) = none)
    (ht : g.trusted proxy req = true)
    (hip : (strings.Split (g.sourceValue proxy req) ',').findSome?
      (fun t => g.getIP (strings.TrimSpace t)) = some ip) :
    g.rulesLoop (pre ++ proxy :: post) "" req =
      { req with Header := g.rewrite proxy (net.IP.String ip) req.Header } := by
  rw [GetRealIP.rulesLoop_losers g pre _ req
    (fun p hp => GetRealIP.resolve_loser g p req "" (hpre p hp))]
  exact GetRealIP.rulesLoop_win g proxy post req _
    (GetRealIP.resolve_winner g proxy req "" ip ht hip) (net.IP.String_ne_empty ip)

/-- The rule loop does not depend on the receiver's fields, only on the rules
it is run over. -/
theorem GetRealIP.scanForwardedIPs_receiver (g g1 : GetRealIP) (toks : List String)
    (cur : String) : g.scanForwardedIPs toks cur = g1.scanForwardedIPs toks cur := by
  induction toks with
  | nil => rfl
  | cons t ts ih =>
    simp only [GetRealIP.scanForwardedIPs]
    rw [ih]
    rfl

theorem GetRealIP.rulesLoop_receiver (g g1 : GetRealIP) (rules : List Proxy) (cur : String)
    (req : Request) : g.rulesLoop rules cur req = g1.rulesLoop rules cur req := by
  induction rules generalizing cur with
  | nil => rfl
  | cons p ps ih =>
    have hres : ∀ c, g.resolve p req c = g1.resolve p req c := by
      intro c
      simp only [GetRealIP.resolve]
      rw [GetRealIP.scanForwardedIPs_receiver g g1]
      rfl
    simp only [GetRealIP.rulesLoop, hres]
    rw [ih]
    rfl

/-! ## The header writes -/

theorem canonical_xRealIP : textproto.CanonicalMIMEHeaderKey xRealIP = "X-Real-Ip" := by
  decide

theorem canonical_xForwardedFor :
    textproto.CanonicalMIMEHeaderKey xForwardedFor = "X-Forwarded-For" := by
  decide

theorem canonical_remoteAddr : textproto.CanonicalMIMEHeaderKey remoteAddr = "Remoteaddr" := by
  decide

theorem http.Header.Set_apply (h : http.Header) (key value k : String) :
    h.Set key value k =
      if k = textproto.CanonicalMIMEHeaderKey key then some [value] else h k := rfl

/-- The header map after the writes of lines 89-97, key by key. -/
theorem GetRealIP.rewrite_apply (g : GetRealIP) (proxy : Proxy) (v : String)
    (h : http.Header) (k : String) :
    g.rewrite proxy v h k =
      if k = "X-Real-Ip" then some [v]
      else if k = "Remoteaddr" ∧ proxy.OverwriteRA = true then some [v]
      else if k = "X-Forwarded-For" ∧ proxy.OverwriteXFF = true then some [v]
      else h k := by
  by_cases h1 : k = "X-Real-Ip" <;> by_cases h2 : k = "Remoteaddr" <;>
    by_cases h3 : k = "X-Forwarded-For" <;>
    cases hra : proxy.OverwriteRA <;> cases hxff : proxy.OverwriteXFF <;>
    simp [GetRealIP.rewrite, http.Header.Set_apply, canonical_xRealIP,
      canonical_xForwardedFor, canonical_remoteAddr, h1, h2, h3, hra, hxff]

/-! ## Dotted-decimal texts -/

theorem netip.string4_eq_renderFrom (f : List Nat) : netip.string4 f = netip.renderFrom f 3 := by
  simp [netip.string4, netip.renderFrom]

theorem netip.isDigit_eq_digit (c : Char) (h : netip.isDigit c = true) :
    c = netip.digit (c.toNat - 48) ∧ c.toNat - 48 < 10 := by
  simp only [netip.isDigit, Bool.and_eq_true, decide_eq_true_eq] at h
  refine ⟨?_, by omega⟩
  have h1 : c.toNat - 48 < 10 := by omega
  simp only [netip.digit, h1, if_true]
  have : 48 + (c.toNat - 48) = c.toNat := by omega
  rw [this]
  exact (Char.ofNat_toNat c).symm

theorem netip.appendDecimal_digit (d : Nat) (h : d < 10) :
    netip.appendDecimal d = [netip.digit d] := by
  have h1 : ¬ d ≥ 100 := by omega
  have h2 : ¬ d ≥ 10 := by omega
  have h3 : d % 10 = d := Nat.mod_eq_of_lt h
  simp [netip.appendDecimal, h1, h2, h3]

theorem netip.appendDecimal_snoc_aux :
    ∀ v < 26, ∀ d < 10, 1 ≤ v → v * 10 + d ≤ 255 →
      netip.appendDecimal (v * 10 + d) = netip.appendDecimal v ++ [netip.digit d] := by
  decide


theorem netip.appendDecimal_snoc (v d : Nat) (hv : 1 ≤ v) (hd : d < 10)
    (h : v * 10 + d ≤ 255) :
    netip.appendDecimal (v * 10 + d) = netip.appendDecimal v ++ [netip.digit d] :=
  netip.appendDecimal_snoc_aux v (by omega) d hd hv h

theorem netip.parseIPv4Fields.loop_pos_le :
    ∀ (s : List Char) (prev : Option Char) (val pos digLen : Nat) (fields : List Nat)
      (r : Nat × Nat × List Nat),
      netip.parseIPv4Fields.loop s prev val pos digLen fields = some r → pos ≤ 3 →
      r.2.1 ≤ 3 := by
  intro s
  induction s with
  | nil =>
    intro prev val pos digLen fields r h hpos
    simp only [netip.parseIPv4Fields.loop, Option.some.injEq] at h
    subst h
    exact hpos
  | cons c rest ih =>
    intro prev val pos digLen fields r h hpos
    simp only [netip.parseIPv4Fields.loop] at h
    split at h
    · split at h
      · exact absurd h (by simp)
      · split at h
        · exact absurd h (by simp)
        · exact ih _ _ _ _ _ _ h hpos
    · split at h
      · split at h
        · exact absurd h (by simp)
        · split at h
          · exact absurd h (by simp)
          · exact ih _ _ _ _ _ _ h (by omega)
      · exact absurd h (by simp)

theorem netip.parseIPv4Fields.loop_render :
    ∀ (s : List Char) (prev : Option Char) (val pos digLen : Nat) (fields : List Nat)
      (val1 : Nat) (fields1 : List Nat),
      netip.parseIPv4Fields.loop s prev val pos digLen fields = some (val1, 3, fields1) →
      fields.length = 4 → pos ≤ 3 →
      (digLen = 0 → val = 0) → (val = 0 → digLen ≤ 1) →
      (digLen = 0 → prev = none ∨ prev = some '.') →
      (digLen = 0 → s ≠ []) →
      fields1.length = 4 ∧ (∀ k, k < pos → fields1.getD k 0 = fields.getD k 0) ∧
      (if digLen = 0 then [] else netip.appendDecimal val) ++ s =
        netip.renderFrom (fields1.set 3 val1) (3 - pos) := by
  intro s
  induction s with
  | nil =>
    intro prev val pos digLen fields val1 fields1 h hlen hpos h0 h1 hprev hs
    simp only [netip.parseIPv4Fields.loop, Option.some.injEq, Prod.mk.injEq] at h
    obtain ⟨rfl, rfl, rfl⟩ := h
    have hd : digLen ≠ 0 := fun e => hs e rfl
    refine ⟨hlen, fun _ _ => rfl, ?_⟩
    simp [hd, netip.renderFrom, List.getD_eq_getElem?_getD, hlen]
  | cons c rest ih =>
    intro prev val pos digLen fields val1 fields1 h hlen hpos h0 h1 hprev hs
    simp only [netip.parseIPv4Fields.loop] at h
    split at h
    · rename_i hdig
      split at h
      · exact absurd h (by simp)
      · rename_i hlead
        split at h
        · exact absurd h (by simp)
        · rename_i hle
          obtain ⟨hc, hlt⟩ := netip.isDigit_eq_digit c hdig
          have hv0 : val * 10 + (c.toNat - 48) = 0 → digLen + 1 ≤ 1 := by
            intro e
            have hval : val = 0 := by omega
            have := h1 hval
            have : digLen ≠ 1 := fun e1 => hlead ⟨e1, hval⟩
            omega
          obtain ⟨hl, hk, hr⟩ := ih (some c) _ pos (digLen + 1) fields val1 fields1 h hlen hpos
            (by omega) hv0 (by omega) (by omega)
          refine ⟨hl, hk, ?_⟩
          rw [← hr]
          simp only [Nat.add_one_ne_zero, if_false]
          by_cases hd : digLen = 0
          · have hval := h0 hd
            subst hval
            simp only [hd, if_true, Nat.zero_mul, Nat.zero_add, List.nil_append]
            rw [netip.appendDecimal_digit _ hlt, ← hc]
            rfl
          · have hval : 1 ≤ val := by
              rcases Nat.eq_zero_or_pos val with e | e
              · have := h1 e
                exact absurd ⟨by omega, e⟩ hlead
              · exact e
            simp only [hd, if_false]
            rw [netip.appendDecimal_snoc val _ hval hlt (by omega), ← hc]
            simp
    · split at h
      · rename_i hdot
        split at h
        · exact absurd h (by simp)
        · rename_i hcond
          split at h
          · exact absurd h (by simp)
          · rename_i hp3
            simp only [not_or] at hcond
            obtain ⟨hpn, hrest, hpd⟩ := hcond
            have hd : digLen ≠ 0 := by
              intro e
              rcases hprev e with e1 | e1
              · exact hpn e1
              · exact hpd e1
            have hpos1 : pos < 3 := by omega
            obtain ⟨hl, hk, hr⟩ := ih (some c) 0 (pos + 1) 0 (fields.set pos val) val1 fields1 h
              (by simp [hlen]) (by omega) (by simp) (by simp) (by simp [hdot]) (fun _ => hrest)
            refine ⟨hl, ?_, ?_⟩
            · intro k hkp
              rw [hk k (by omega)]
              simp [List.getD_eq_getElem?_getD, List.getElem?_set_ne (show pos ≠ k by omega)]
            · have hn : 3 - pos = (3 - (pos + 1)) + 1 := by omega
              rw [hn, netip.renderFrom]
              simp only [if_true, List.nil_append] at hr
              rw [← hr]
              have hidx : 3 - (3 - (pos + 1) + 1) = pos := by omega
              rw [hidx]
              have hget : (fields1.set 3 val1).getD pos 0 = val := by
                have e1 : (fields1.set 3 val1).getD pos 0 = fields1.getD pos 0 := by
                  simp [List.getD_eq_getElem?_getD,
                    List.getElem?_set_ne (show 3 ≠ pos by omega)]
                rw [e1, hk pos (by omega)]
                simp [List.getD_eq_getElem?_getD, List.getElem?_set_self, hlen, hpos1,
                  show pos < 4 by omega]
              rw [hget]
              simp [hd, hdot]
      · exact absurd h (by simp)


theorem netip.parseIPv4Fields.loop_chars :
    ∀ (s : List Char) (prev : Option Char) (val pos digLen : Nat) (fields : List Nat)
      (r : Nat × Nat × List Nat),
      netip.parseIPv4Fields.loop s prev val pos digLen fields = some r →
      ∀ c ∈ s, netip.isDigit c = true ∨ c = '.' := by
  intro s
  induction s with
  | nil => intro _ _ _ _ _ _ _ c hc; simp at hc
  | cons x rest ih =>
    intro prev val pos digLen fields r h c hc
    simp only [netip.parseIPv4Fields.loop] at h
    split at h
    · rename_i hdig
      split at h
      · exact absurd h (by simp)
      · split at h
        · exact absurd h (by simp)
        · rcases List.mem_cons.1 hc with rfl | hc
          · exact Or.inl hdig
          · exact ih _ _ _ _ _ _ h c hc
    · split at h
      · rename_i hdot
        split at h
        · exact absurd h (by simp)
        · split at h
          · exact absurd h (by simp)
          · rcases List.mem_cons.1 hc with rfl | hc
            · exact Or.inr hdot
            · exact ih _ _ _ _ _ _ h c hc
      · exact absurd h (by simp)

/-- A text accepted by `parseIPv4Fields` is the dotted-decimal rendering of
the four octets it yields, and consists of digits and dots. -/
theorem netip.parseIPv4Fields_text (s : List Char) (f : List Nat)
    (h : netip.parseIPv4Fields s = some f) :
    f.length = 4 ∧ s = netip.string4 f ∧ ∀ c ∈ s, netip.isDigit c = true ∨ c = '.' := by
  unfold netip.parseIPv4Fields at h
  split at h
  · exact absurd h (by simp)
  · rename_i val1 pos1 fields1 hloop
    split at h
    · exact absurd h (by simp)
    · rename_i hpos
      simp only [Option.some.injEq] at h
      have hle := netip.parseIPv4Fields.loop_pos_le s none 0 0 0 [0, 0, 0, 0] _ hloop (by omega)
      simp only at hle
      have hp3 : pos1 = 3 := by omega
      subst hp3
      have hs : s ≠ [] := by
        intro e
        subst e
        simp [netip.parseIPv4Fields.loop] at hloop
      obtain ⟨hl, _, hr⟩ := netip.parseIPv4Fields.loop_render s none 0 0 0 [0, 0, 0, 0] val1
        fields1 hloop rfl (by omega) (fun _ => rfl) (fun _ => by omega) (fun _ => Or.inl rfl)
        (fun _ => hs)
      subst h
      refine ⟨by simp [hl], ?_, netip.parseIPv4Fields.loop_chars s _ _ _ _ _ _ hloop⟩
      rw [netip.string4_eq_renderFrom]
      simpa using hr

theorem netip.ParseAddr.scan_no_colon (s : List Char) :
    ∀ (t : List Char) (a : netip.Addr), ':' ∉ t → netip.ParseAddr.scan s t = some a →
      netip.parseIPv4 s = some a := by
  intro t
  induction t with
  | nil => intro a _ h; simp [netip.ParseAddr.scan] at h
  | cons c rest ih =>
    intro a hc h
    simp only [List.mem_cons, not_or] at hc
    simp only [netip.ParseAddr.scan] at h
    split at h
    · exact h
    · split at h
      · rename_i hcolon
        exact absurd hcolon.symm hc.1
      · split at h
        · exact absurd h (by simp)
        · exact ih a hc.2 h

/-- The 16-byte form of an IPv4 address is rendered in dotted decimal. -/
theorem net.IP.String_v4 (f : List Nat) (hf : f.length = 4) :
    net.IP.String ([0, 0, 0, 0, 0, 0, 0, 0, 0, 0, 0xff, 0xff] ++ f) =
      String.mk (netip.string4 f) := by
  match f, hf with
  | [a, b, c, d], _ => simp [net.IP.String, net.IP.To4]

/-- A colon-free text that `net.ParseIP` accepts is a dotted-decimal IPv4
address: it is made of digits and dots and is its own canonical text. -/
theorem net.ParseIP_v4_text (a : String) (ip : net.IP) (h : net.ParseIP a = some ip)
    (hc : ':' ∉ a.data) :
    net.IP.String ip = a ∧ ∀ c ∈ a.data, netip.isDigit c = true ∨ c = '.' := by
  unfold net.ParseIP at h
  split at h
  · exact absurd h (by simp)
  · rename_i addr haddr
    split at h
    · exact absurd h (by simp)
    · simp only [Option.some.injEq] at h
      have h4 := netip.ParseAddr.scan_no_colon a.data a.data addr hc haddr
      unfold netip.parseIPv4 at h4
      cases hf : netip.parseIPv4Fields a.data with
      | none => simp [hf] at h4
      | some f =>
        simp only [hf, Option.map_some', Option.some.injEq] at h4
        obtain ⟨hl, htext, hchars⟩ := netip.parseIPv4Fields_text a.data f hf
        subst h4
        subst h
        refine ⟨?_, hchars⟩
        simp only [netip.Addr.As16]
        rw [net.IP.String_v4 f hl, ← htext]


theorem bytealg.IndexByteString_eq_none (s : List Char) (c : Char) (h : c ∉ s) :
    bytealg.IndexByteString s c = none := by
  induction s with
  | nil => rfl
  | cons x xs ih =>
    simp only [List.mem_cons, not_or] at h
    simp [bytealg.IndexByteString, Ne.symm h.1, ih h.2]

theorem bytealg.LastIndexByteString_eq_none (s : List Char) (c : Char) (h : c ∉ s) :
    bytealg.LastIndexByteString s c = none := by
  induction s with
  | nil => rfl
  | cons x xs ih =>
    simp only [List.mem_cons, not_or] at h
    simp [bytealg.LastIndexByteString, Ne.symm h.1, ih h.2]

theorem bytealg.LastIndexByteString_append (a p : List Char) (c : Char) (h : c ∉ p) :
    bytealg.LastIndexByteString (a ++ c :: p) c = some a.length := by
  induction a with
  | nil => simp [bytealg.LastIndexByteString, bytealg.LastIndexByteString_eq_none p c h]
  | cons x xs ih => simp [bytealg.LastIndexByteString, ih]

/-- `net.SplitHostPort` on `host:port` with a host and a port free of colons
and brackets returns that host and that port. -/
theorem net.splitHostPortChars_host_port (a p : List Char)
    (ha : ∀ c ∈ a, c ≠ ':' ∧ c ≠ '[' ∧ c ≠ ']')
    (hp : ∀ c ∈ p, c ≠ ':' ∧ c ≠ '[' ∧ c ≠ ']') :
    net.splitHostPortChars (a ++ ':' :: p) = some (a, p) := by
  have hpc : ':' ∉ p := fun h => (hp _ h).1 rfl
  have hac : ':' ∉ a := fun h => (ha _ h).1 rfl
  have hall : ∀ c ∈ a ++ ':' :: p, c ≠ '[' ∧ c ≠ ']' := by
    intro c hc
    rcases List.mem_append.1 hc with h | h
    · exact (ha c h).2
    · rcases List.mem_cons.1 h with rfl | h
      · decide
      · exact (hp c h).2
  have hlb : '[' ∉ a ++ ':' :: p := fun h => (hall _ h).1 rfl
  have hrb : ']' ∉ a ++ ':' :: p := fun h => (hall _ h).2 rfl
  have hhead : (a ++ ':' :: p).head? ≠ some '[' := by
    intro e
    exact hlb (List.mem_of_mem_head? e)
  unfold net.splitHostPortChars
  rw [bytealg.LastIndexByteString_append a p ':' hpc]
  simp only [hhead, if_false]
  simp [bytealg.IndexByteString_eq_none _ _ hac, bytealg.IndexByteString_eq_none _ _ hlb,
    bytealg.IndexByteString_eq_none _ _ hrb]

/-- `net.SplitHostPort` reports an error on a text without a colon. -/
theorem net.splitHostPortChars_no_colon (s : List Char) (h : ':' ∉ s) :
    net.splitHostPortChars s = none := by
  unfold net.splitHostPortChars
  rw [bytealg.LastIndexByteString_eq_none s ':' h]

theorem strings.splitChars_no_sep (sep : Char) (s : List Char) (h : sep ∉ s) :
    strings.splitChars sep s = [s] := by
  induction s with
  | nil => rfl
  | cons x xs ih =>
    simp only [List.mem_cons, not_or] at h
    simp [strings.splitChars, Ne.symm h.1, ih h.2]

theorem strings.trimChars_no_space (s : List Char) (h : ∀ c ∈ s, unicode.IsSpace c = false) :
    strings.trimChars s = s := by
  have h1 : ∀ l : List Char, (∀ c ∈ l, unicode.IsSpace c = false) →
      l.dropWhile unicode.IsSpace = l := by
    intro l hl
    cases l with
    | nil => rfl
    | cons x xs => simp [List.dropWhile, hl x (by simp)]
  unfold strings.trimChars
  rw [h1 s h, h1 s.reverse (fun c hc => h c (List.mem_reverse.1 hc)), List.reverse_reverse]

/-- Digits and dots are none of the characters the plugin treats specially. -/
theorem netip.digit_or_dot_plain (c : Char) (h : netip.isDigit c = true ∨ c = '.') :
    c ≠ ':' ∧ c ≠ '[' ∧ c ≠ ']' ∧ c ≠ ',' ∧ unicode.IsSpace c = false := by
  rcases h with h | rfl
  · simp only [netip.isDigit, Bool.and_eq_true, decide_eq_true_eq] at h
    refine ⟨?_, ?_, ?_, ?_, ?_⟩
    · rintro rfl; revert h; decide
    · rintro rfl; revert h; decide
    · rintro rfl; revert h; decide
    · rintro rfl; revert h; decide
    · simp only [unicode.IsSpace]
      simp only [Bool.or_eq_false_iff, Bool.and_eq_false_iff, decide_eq_false_iff_not]
      omega
  · decide

/-- `getIP` on a dotted-decimal IPv4 text parses the text itself. -/
theorem GetRealIP.getIP_v4_text (g : GetRealIP) (a : String) (hc : ':' ∉ a.data) :
    g.getIP a = net.ParseIP a := by
  simp [GetRealIP.getIP, net.SplitHostPort, net.splitHostPortChars_no_colon a.data hc]

/-! ## Reading back rendered IPv6 groups -/

theorem netip.hexVal_digit : ∀ d < 16, netip.hexVal (netip.digit d) = some d := by
  decide

theorem netip.digit_hex_plain : ∀ d < 16,
    netip.digit d ≠ ':' ∧ netip.digit d ≠ '.' ∧ netip.digit d ≠ '%' ∧ netip.digit d ≠ '[' ∧
    netip.digit d ≠ ']' ∧ netip.digit d ≠ ',' ∧ unicode.IsSpace (netip.digit d) = false := by
  decide

theorem netip.parseIPv6.hexLoop_stop (rest : List Char) (off acc : Nat)
    (h : ∀ c, rest.head? = some c → netip.hexVal c = none) :
    netip.parseIPv6.hexLoop rest off acc = some (off, acc, rest) := by
  cases rest with
  | nil => rfl
  | cons c cs => simp [netip.parseIPv6.hexLoop, h c rfl]

theorem netip.parseIPv6.hexLoop_digit (d : Nat) (hd : d < 16) (r : List Char) (off acc : Nat)
    (hoff : off ≤ 3) (hacc : acc * 16 + d ≤ 65535) :
    netip.parseIPv6.hexLoop (netip.digit d :: r) off acc =
      netip.parseIPv6.hexLoop r (off + 1) (acc * 16 + d) := by
  have h32 : (acc * 16 + d) % 2 ^ 32 = acc * 16 + d := Nat.mod_eq_of_lt (by omega)
  simp only [netip.parseIPv6.hexLoop, netip.hexVal_digit d hd, h32]
  simp [show ¬ off > 3 by omega, show ¬ acc * 16 + d > 65535 by omega]

/-- Reading back a rendered group: the hexadecimal reader consumes exactly the
digits `appendHex` wrote and returns the group. -/
theorem netip.parseIPv6.hexLoop_appendHex (x : Nat) (hx : x < 65536) (rest : List Char)
    (h : ∀ c, rest.head? = some c → netip.hexVal c = none) :
    netip.parseIPv6.hexLoop (netip.appendHex x ++ rest) 0 0 =
      some ((netip.appendHex x).length, x, rest) := by
  unfold netip.appendHex
  by_cases h3 : x ≥ 0x1000
  · have h2 : x ≥ 0x100 := by omega
    have h1 : x ≥ 0x10 := by omega
    simp only [h3, h2, h1, if_true, List.cons_append, List.nil_append, List.append_assoc]
    rw [netip.parseIPv6.hexLoop_digit _ (by omega) _ _ _ (by omega) (by omega),
      netip.parseIPv6.hexLoop_digit _ (by omega) _ _ _ (by omega) (by omega),
      netip.parseIPv6.hexLoop_digit _ (by omega) _ _ _ (by omega) (by omega),
      netip.parseIPv6.hexLoop_digit _ (by omega) _ _ _ (by omega) (by omega),
      netip.parseIPv6.hexLoop_stop _ _ _ h]
    simp only [List.length_cons, List.length_nil, Option.some.injEq, Prod.mk.injEq, and_true,
      true_and]
    omega
  · by_cases h2 : x ≥ 0x100
    · have h1 : x ≥ 0x10 := by omega
      simp only [h3, h2, h1, if_true, if_false, List.cons_append, List.nil_append,
        List.append_assoc]
      rw [netip.parseIPv6.hexLoop_digit _ (by omega) _ _ _ (by omega) (by omega),
        netip.parseIPv6.hexLoop_digit _ (by omega) _ _ _ (by omega) (by omega),
        netip.parseIPv6.hexLoop_digit _ (by omega) _ _ _ (by omega) (by omega),
        netip.parseIPv6.hexLoop_stop _ _ _ h]
      simp only [List.length_cons, List.length_nil, Option.some.injEq, Prod.mk.injEq, and_true,
        true_and]
      omega
    · by_cases h1 : x ≥ 0x10
      · simp only [h3, h2, h1, if_true, if_false, List.cons_append, List.nil_append,
          List.append_assoc]
        rw [netip.parseIPv6.hexLoop_digit _ (by omega) _ _ _ (by omega) (by omega),
          netip.parseIPv6.hexLoop_digit _ (by omega) _ _ _ (by omega) (by omega),
          netip.parseIPv6.hexLoop_stop _ _ _ h]
        simp only [List.length_cons, List.length_nil, Option.some.injEq, Prod.mk.injEq,
          and_true, true_and]
        omega
      · simp only [h3, h2, h1, if_false, List.cons_append, List.nil_append,
          List.append_assoc]
        rw [netip.parseIPv6.hexLoop_digit _ (by omega) _ _ _ (by omega) (by omega),
          netip.parseIPv6.hexLoop_stop _ _ _ h]
        simp only [List.length_cons, List.length_nil, Option.some.injEq, Prod.mk.injEq,
          and_true, true_and]
        omega

/-- The digits of a rendered group are hexadecimal digits. -/
theorem netip.appendHex_chars (x : Nat) (hx : x < 65536) :
    ∀ c ∈ netip.appendHex x, ∃ d, d < 16 ∧ c = netip.digit d := by
  intro c hc
  unfold netip.appendHex at hc
  simp only [List.mem_append, List.mem_singleton] at hc
  rcases hc with ((hc | hc) | hc) | hc
  · split at hc
    · exact ⟨x / 0x1000, by omega, by simpa using hc⟩
    · simp at hc
  · split at hc
    · exact ⟨x / 0x100 % 16, by omega, by simpa using hc⟩
    · simp at hc
  · split at hc
    · exact ⟨x / 0x10 % 16, by omega, by simpa using hc⟩
    · simp at hc
  · exact ⟨x % 16, by omega, hc⟩

theorem netip.appendHex_head (x : Nat) (hx : x < 65536) :
    ∃ d tl, d < 16 ∧ netip.appendHex x = netip.digit d :: tl := by
  cases h : netip.appendHex x with
  | nil => exact absurd h (netip.appendHex_ne_nil x)
  | cons c tl =>
    obtain ⟨d, hd, hc⟩ := netip.appendHex_chars x hx c (by simp [h])
    exact ⟨d, tl, hd, by rw [hc]⟩

theorem netip.hexVal_colon : netip.hexVal ':' = none := by decide

theorem netip.colonHex_head (gs : List Nat) :
    ∀ c, (netip.colonHex gs).head? = some c → netip.hexVal c = none := by
  intro c hc
  cases gs with
  | nil => simp [netip.colonHex] at hc
  | cons g gs =>
    simp only [netip.colonHex, List.flatMap_cons, List.cons_append, List.head?_cons,
      Option.some.injEq] at hc
    subst hc
    exact netip.hexVal_colon

theorem netip.colonHex_cons (g : Nat) (gs : List Nat) :
    netip.colonHex (g :: gs) = ':' :: netip.joinHex (g :: gs) := by
  simp [netip.colonHex, netip.joinHex]

/-- The group loop of `parseIPv6` over colon-joined rendered groups that end
the text: every group is stored and the loop exits at the end of the text. -/
theorem netip.parseIPv6.loop_joinHex :
    ∀ (gs : List Nat) (g : Nat) (k i : Nat) (ip : List Nat) (ell : Option Nat),
      (∀ x ∈ g :: gs, x < 65536) → i + 2 * (gs.length + 1) ≤ 16 →
      netip.parseIPv6.loop (gs.length + 1 + k) i (netip.joinHex (g :: gs)) ip ell =
        some (i + 2 * (gs.length + 1), [], netip.writeGroups ip i (g :: gs), ell) := by
  intro gs
  induction gs with
  | nil =>
    intro g k i ip ell hx hi
    have hg : g < 65536 := hx g (by simp)
    simp only [List.length_nil, Nat.zero_add]
    rw [show 1 + k = k + 1 by omega, netip.parseIPv6.loop]
    have hread := netip.parseIPv6.hexLoop_appendHex g hg [] (by simp)
    simp only [List.append_nil] at hread
    simp only [netip.joinHex, netip.colonHex, List.flatMap_nil, List.append_nil, hread]
    have hlen : (netip.appendHex g).length ≠ 0 := by
      simp [netip.appendHex_ne_nil]
    simp [show i < 16 by omega, hlen, netip.writeGroups]
  | cons g1 gs ih =>
    intro g k i ip ell hx hi
    have hg : g < 65536 := hx g (by simp)
    have hx1 : ∀ x ∈ g1 :: gs, x < 65536 := fun x h => hx x (by simp at h ⊢; tauto)
    simp only [List.length_cons] at hi ⊢
    rw [show gs.length + 1 + 1 + k = (gs.length + 1 + k) + 1 by omega, netip.parseIPv6.loop]
    have hread := netip.parseIPv6.hexLoop_appendHex g hg (netip.colonHex (g1 :: gs))
      (netip.colonHex_head _)
    have hj : netip.joinHex (g :: g1 :: gs) = netip.appendHex g ++ netip.colonHex (g1 :: gs) :=
      rfl
    rw [hj, hread]
    have hlen : (netip.appendHex g).length ≠ 0 := by
      simp [netip.appendHex_ne_nil]
    obtain ⟨d, tl, hd, htl⟩ := netip.appendHex_head g1 (hx1 g1 (by simp))
    have hne : netip.digit d ≠ ':' := (netip.digit_hex_plain d hd).1
    have hih := ih g1 k (i + 2) ((ip.set i (g / 256)).set (i + 1) (g % 256)) ell hx1 (by omega)
    rw [netip.colonHex_cons]
    simp only [show i < 16 by omega, not_true_eq_false, if_false, hlen, List.head?_cons,
      Option.some.injEq, List.tail_cons, List.length_cons]
    have hjl : netip.joinHex (g1 :: gs) = netip.digit d :: (tl ++ netip.colonHex gs) := by
      simp [netip.joinHex, htl]
    rw [hih]
    simp [hjl, hne, netip.writeGroups]
    omega

/-- The group loop of `parseIPv6` over colon-joined rendered groups followed
by `::`: every group is stored, the ellipsis is recorded after them and the
loop goes on with what follows the `::`. -/
theorem netip.parseIPv6.loop_joinHex_ellipsis :
    ∀ (gs : List Nat) (g : Nat) (k i : Nat) (ip : List Nat) (rest : List Char),
      (∀ x ∈ g :: gs, x < 65536) → i + 2 * (gs.length + 1) ≤ 16 →
      netip.parseIPv6.loop (gs.length + 1 + k) i
          (netip.joinHex (g :: gs) ++ ':' :: ':' :: rest) ip none =
        if rest = [] then
          some (i + 2 * (gs.length + 1), [], netip.writeGroups ip i (g :: gs),
            some (i + 2 * (gs.length + 1)))
        else
          netip.parseIPv6.loop k (i + 2 * (gs.length + 1)) rest
            (netip.writeGroups ip i (g :: gs)) (some (i + 2 * (gs.length + 1))) := by
  intro gs
  induction gs with
  | nil =>
    intro g k i ip rest hx hi
    have hg : g < 65536 := hx g (by simp)
    simp only [List.length_nil, Nat.zero_add]
    rw [show 1 + k = k + 1 by omega, netip.parseIPv6.loop]
    have hread := netip.parseIPv6.hexLoop_appendHex g hg (':' :: ':' :: rest)
      (by intro c hc; simp at hc; subst hc; exact netip.hexVal_colon)
    simp only [netip.joinHex, netip.colonHex, List.flatMap_nil, List.append_nil, hread]
    have hlen : (netip.appendHex g).length ≠ 0 := by
      simp [netip.appendHex_ne_nil]
    by_cases hr : rest = []
    · simp [show i < 16 by omega, hlen, netip.writeGroups, hr]
    · simp [show i < 16 by omega, hlen, netip.writeGroups, hr]
  | cons g1 gs ih =>
    intro g k i ip rest hx hi
    have hg : g < 65536 := hx g (by simp)
    have hx1 : ∀ x ∈ g1 :: gs, x < 65536 := fun x h => hx x (by simp at h ⊢; tauto)
    simp only [List.length_cons] at hi ⊢
    rw [show gs.length + 1 + 1 + k = (gs.length + 1 + k) + 1 by omega, netip.parseIPv6.loop]
    have hj : netip.joinHex (g :: g1 :: gs) ++ ':' :: ':' :: rest =
        netip.appendHex g ++ (':' :: (netip.joinHex (g1 :: gs) ++ ':' :: ':' :: rest)) := by
      simp [netip.joinHex, netip.colonHex]
    have hread := netip.parseIPv6.hexLoop_appendHex g hg
      (':' :: (netip.joinHex (g1 :: gs) ++ ':' :: ':' :: rest))
      (by intro c hc; simp at hc; subst hc; exact netip.hexVal_colon)
    rw [hj, hread]
    have hlen : (netip.appendHex g).length ≠ 0 := by
      simp [netip.appendHex_ne_nil]
    obtain ⟨d, tl, hd, htl⟩ := netip.appendHex_head g1 (hx1 g1 (by simp))
    have hne : netip.digit d ≠ ':' := (netip.digit_hex_plain d hd).1
    have hih := ih g1 k (i + 2) ((ip.set i (g / 256)).set (i + 1) (g % 256)) rest hx1
      (by omega)
    have hjl : netip.joinHex (g1 :: gs) ++ ':' :: ':' :: rest =
        netip.digit d :: (tl ++ netip.colonHex gs ++ ':' :: ':' :: rest) := by
      simp [netip.joinHex, htl]
    simp only [show i < 16 by omega, not_true_eq_false, if_false, hlen, List.head?_cons,
      Option.some.injEq, List.tail_cons, List.length_cons]
    rw [hih]
    have e1 : i + 2 + 2 * (gs.length + 1) = i + 2 * (gs.length + 1 + 1) := by omega
    simp [hjl, hne, netip.writeGroups, e1]

theorem netip.groupBytes_length (gs : List Nat) :
    (netip.groupBytes gs).length = 2 * gs.length := by
  induction gs with
  | nil => rfl
  | cons g gs ih =>
    simp only [netip.groupBytes, List.flatMap_cons, List.length_append, List.length_cons,
      List.length_nil] at ih ⊢
    omega

theorem netip.groupBytes_cons (g : Nat) (gs : List Nat) :
    netip.groupBytes (g :: gs) = g / 256 :: g % 256 :: netip.groupBytes gs := by
  simp [netip.groupBytes]

theorem netip.set_set_eq (ip : List Nat) (i a b : Nat) (h : i + 2 ≤ ip.length) :
    (ip.set i a).set (i + 1) b = ip.take i ++ a :: b :: ip.drop (i + 2) := by
  induction ip generalizing i with
  | nil => simp at h
  | cons x xs ih =>
    cases i with
    | zero =>
      cases xs with
      | nil => simp at h
      | cons y ys => simp
    | succ j =>
      simp only [List.length_cons] at h
      simp [ih j (by omega)]

/-- Storing groups from byte `i` on replaces the bytes they cover. -/
theorem netip.writeGroups_eq (gs : List Nat) :
    ∀ (ip : List Nat) (i : Nat), i + 2 * gs.length ≤ ip.length →
      netip.writeGroups ip i gs =
        ip.take i ++ netip.groupBytes gs ++ ip.drop (i + 2 * gs.length) := by
  induction gs with
  | nil => intro ip i _; simp [netip.writeGroups, netip.groupBytes]
  | cons g gs ih =>
    intro ip i h
    simp only [List.length_cons] at h
    rw [netip.writeGroups, netip.set_set_eq ip i _ _ (by omega)]
    have hlen : (ip.take i ++ g / 256 :: g % 256 :: ip.drop (i + 2)).length = ip.length := by
      simp only [List.length_append, List.length_take, List.length_cons, List.length_drop]
      omega
    rw [ih _ (i + 2) (by rw [hlen]; omega)]
    have htake : (ip.take i ++ g / 256 :: g % 256 :: ip.drop (i + 2)).take (i + 2) =
        ip.take i ++ [g / 256, g % 256] := by
      have hl : (ip.take i ++ [g / 256, g % 256]).length = i + 2 := by
        simp only [List.length_append, List.length_take, List.length_cons, List.length_nil]
        omega
      have := @List.take_left' _ (ip.take i ++ [g / 256, g % 256]) (ip.drop (i + 2)) (i + 2) hl
      simpa using this
    have hdrop : (ip.take i ++ g / 256 :: g % 256 :: ip.drop (i + 2)).drop
        (i + 2 + 2 * gs.length) = ip.drop (i + 2 * (gs.length + 1)) := by
      have hl : (ip.take i ++ [g / 256, g % 256]).length = i + 2 := by
        simp only [List.length_append, List.length_take, List.length_cons, List.length_nil]
        omega
      have e : ip.take i ++ g / 256 :: g % 256 :: ip.drop (i + 2) =
          (ip.take i ++ [g / 256, g % 256]) ++ ip.drop (i + 2) := by simp
      rw [e, ← List.drop_drop, List.drop_left' hl, List.drop_drop]
      congr 1
      omega
    rw [htake, hdrop, netip.groupBytes_cons]
    simp

theorem netip.colonHex_chars (gs : List Nat) (h : ∀ x ∈ gs, x < 65536) :
    ∀ c ∈ netip.colonHex gs, c = ':' ∨ ∃ d, d < 16 ∧ c = netip.digit d := by
  intro c hc
  simp only [netip.colonHex, List.mem_flatMap, List.mem_cons] at hc
  obtain ⟨g, hg, hc⟩ := hc
  rcases hc with hc | hc
  · exact Or.inl hc
  · exact Or.inr (netip.appendHex_chars g (h g hg) c hc)

theorem netip.joinHex_chars (gs : List Nat) (h : ∀ x ∈ gs, x < 65536) :
    ∀ c ∈ netip.joinHex gs, c = ':' ∨ ∃ d, d < 16 ∧ c = netip.digit d := by
  intro c hc
  cases gs with
  | nil => simp [netip.joinHex] at hc
  | cons g gs =>
    simp only [netip.joinHex, List.mem_append] at hc
    rcases hc with hc | hc
    · exact Or.inr (netip.appendHex_chars g (h g (by simp)) c hc)
    · exact netip.colonHex_chars gs (fun x hx => h x (by simp [hx])) c hc

/-- Colons and hexadecimal digits are none of `.`, `%`, `[`, `]`, `,` or
white space. -/
theorem netip.colon_or_hex_plain (c : Char) (h : c = ':' ∨ ∃ d, d < 16 ∧ c = netip.digit d) :
    c ≠ '.' ∧ c ≠ '%' ∧ c ≠ '[' ∧ c ≠ ']' ∧ c ≠ ',' ∧ unicode.IsSpace c = false := by
  rcases h with rfl | ⟨d, hd, rfl⟩
  · decide
  · have := netip.digit_hex_plain d hd
    exact ⟨this.2.1, this.2.2.1, this.2.2.2.1, this.2.2.2.2.1, this.2.2.2.2.2.1,
      this.2.2.2.2.2.2⟩

theorem netip.joinHex_head_ne_colon (g : Nat) (gs : List Nat) (hg : g < 65536)
    (rest : List Char) : (netip.joinHex (g :: gs) ++ rest).head? ≠ some ':' := by
  obtain ⟨d, tl, hd, htl⟩ := netip.appendHex_head g hg
  simp only [netip.joinHex, htl, List.cons_append, List.head?_cons, ne_eq, Option.some.injEq]
  exact (netip.digit_hex_plain d hd).1

theorem netip.joinHex_eq_nil (gs : List Nat) : netip.joinHex gs = [] ↔ gs = [] := by
  cases gs with
  | nil => simp [netip.joinHex]
  | cons g gs => simp [netip.joinHex, netip.appendHex_ne_nil]

theorem netip.parseIPv6_lead (s0 : List Char) (h : '%' ∉ s0) :
    netip.parseIPv6 (':' :: ':' :: s0) =
      if s0 = [] then some (.v6 (List.replicate 16 0) [])
      else netip.parseIPv6.finish []
        (netip.parseIPv6.loop 8 0 s0 (List.replicate 16 0) (some 0)) := by
  have hpct : bytealg.IndexByteString (':' :: ':' :: s0) '%' = none :=
    bytealg.IndexByteString_eq_none _ _ (by simp [h])
  unfold netip.parseIPv6
  simp only [hpct, Option.isSome_none, Bool.false_eq_true, false_and, if_false,
    List.head?_cons, List.drop_succ_cons, List.drop_zero, and_self, if_true, true_and]

theorem netip.parseIPv6_nolead (s : List Char) (h : '%' ∉ s) (hhead : s.head? ≠ some ':') :
    netip.parseIPv6 s =
      netip.parseIPv6.finish [] (netip.parseIPv6.loop 8 0 s (List.replicate 16 0) none) := by
  have hpct : bytealg.IndexByteString s '%' = none :=
    bytealg.IndexByteString_eq_none _ _ h
  unfold netip.parseIPv6
  simp only [hpct, Option.isSome_none, Bool.false_eq_true, false_and, if_false, hhead]

theorem netip.parseIPv6.finish_ellipsis (i e : Nat) (ip : List Nat) (hi : i < 16) :
    netip.parseIPv6.finish [] (some (i, [], ip, some e)) =
      some (.v6 (ip.take e ++ List.replicate (16 - i) 0 ++ (ip.drop e).take (i - e)) []) := by
  simp [netip.parseIPv6.finish, hi]

theorem netip.parseIPv6.finish_full (ip : List Nat) :
    netip.parseIPv6.finish [] (some (16, [], ip, none)) = some (.v6 ip []) := by
  simp [netip.parseIPv6.finish]

/-- Reading back a text with an ellipsis: the groups before and after `::`
are stored at both ends and the gap is filled with zeros. -/
theorem netip.parseIPv6_ellipsis (gsA gsB : List Nat)
    (hA : ∀ x ∈ gsA, x < 65536) (hB : ∀ x ∈ gsB, x < 65536)
    (hlen : gsA.length + gsB.length ≤ 7) :
    netip.parseIPv6 (netip.joinHex gsA ++ ':' :: ':' :: netip.joinHex gsB) =
      some (.v6 (netip.groupBytes gsA ++
        List.replicate (16 - 2 * (gsA.length + gsB.length)) 0 ++ netip.groupBytes gsB) []) := by
  have hpB : '%' ∉ netip.joinHex gsB := fun hm =>
    (netip.colon_or_hex_plain _ (netip.joinHex_chars gsB hB _ hm)).2.1 rfl
  have hpA : '%' ∉ netip.joinHex gsA := fun hm =>
    (netip.colon_or_hex_plain _ (netip.joinHex_chars gsA hA _ hm)).2.1 rfl
  cases gsA with
  | nil =>
    rw [show netip.joinHex [] ++ ':' :: ':' :: netip.joinHex gsB =
      ':' :: ':' :: netip.joinHex gsB from rfl, netip.parseIPv6_lead _ hpB]
    cases gsB with
    | nil => simp [netip.joinHex, netip.groupBytes]
    | cons g gs =>
      have hne : netip.joinHex (g :: gs) ≠ [] := by
        simp [netip.joinHex_eq_nil]
      simp only [List.length_cons] at hlen
      have hloop := netip.parseIPv6.loop_joinHex gs g (7 - gs.length) 0
        (List.replicate 16 0) (some 0) hB (by omega)
      rw [show gs.length + 1 + (7 - gs.length) = 8 by omega, Nat.zero_add] at hloop
      have hw := netip.writeGroups_eq (g :: gs) (List.replicate 16 0) 0 (by simp; omega)
      simp only [List.take_zero, List.nil_append, Nat.zero_add, List.length_cons,
        List.drop_replicate] at hw
      have hl : (netip.groupBytes (g :: gs)).length = 2 * (gs.length + 1) - 0 := by
        rw [netip.groupBytes_length]; simp
      rw [if_neg hne, hloop, netip.parseIPv6.finish_ellipsis _ _ _ (by omega), hw,
        List.take_zero, List.drop_zero, List.take_left' hl]
      simp [netip.groupBytes]
  | cons g gs =>
    have hhead := netip.joinHex_head_ne_colon g gs (hA g (by simp))
      (':' :: ':' :: netip.joinHex gsB)
    have hp : '%' ∉ netip.joinHex (g :: gs) ++ ':' :: ':' :: netip.joinHex gsB := by
      intro hm
      simp only [List.mem_append, List.mem_cons] at hm
      rcases hm with hm | hm | hm | hm
      · exact hpA hm
      · exact absurd hm (by decide)
      · exact absurd hm (by decide)
      · exact hpB hm
    rw [netip.parseIPv6_nolead _ hp hhead]
    simp only [List.length_cons] at hlen ⊢
    have hloop := netip.parseIPv6.loop_joinHex_ellipsis gs g (7 - gs.length) 0
      (List.replicate 16 0) (netip.joinHex gsB) hA (by omega)
    rw [show gs.length + 1 + (7 - gs.length) = 8 by omega, Nat.zero_add] at hloop
    have hw := netip.writeGroups_eq (g :: gs) (List.replicate 16 0) 0 (by simp; omega)
    simp only [List.take_zero, List.nil_append, Nat.zero_add, List.length_cons,
      List.drop_replicate] at hw
    have hlA : (netip.groupBytes (g :: gs)).length = 2 * (gs.length + 1) := by
      rw [netip.groupBytes_length]; simp
    have hlw : (netip.writeGroups (List.replicate 16 0) 0 (g :: gs)).length = 16 := by
      rw [hw, List.length_append, hlA, List.length_replicate]
      omega
    rw [hloop]
    cases gsB with
    | nil =>
      rw [if_pos (by rfl), netip.parseIPv6.finish_ellipsis _ _ _ (by omega), hw,
        List.take_left' hlA, Nat.sub_self, List.take_zero]
      simp [netip.groupBytes]
    | cons g1 gs1 =>
      have hne : netip.joinHex (g1 :: gs1) ≠ [] := by
        simp [netip.joinHex_eq_nil]
      simp only [List.length_cons] at hlen ⊢
      have hloop2 := netip.parseIPv6.loop_joinHex gs1 g1 (7 - gs.length - (gs1.length + 1))
        (2 * (gs.length + 1)) (netip.writeGroups (List.replicate 16 0) 0 (g :: gs))
        (some (2 * (gs.length + 1))) hB (by omega)
      rw [show gs1.length + 1 + (7 - gs.length - (gs1.length + 1)) = 7 - gs.length by omega]
        at hloop2
      have hw2 := netip.writeGroups_eq (g1 :: gs1)
        (netip.writeGroups (List.replicate 16 0) 0 (g :: gs)) (2 * (gs.length + 1))
        (by rw [hlw]; simp only [List.length_cons]; omega)
      rw [hw, List.take_left' hlA] at hw2
      have hlB : (netip.groupBytes (g1 :: gs1)).length =
          2 * (gs.length + 1) + 2 * (gs1.length + 1) - 2 * (gs.length + 1) := by
        rw [netip.groupBytes_length]; simp
      rw [if_neg hne, hloop2, netip.parseIPv6.finish_ellipsis _ _ _ (by omega), hw, hw2,
        List.append_assoc (netip.groupBytes (g :: gs)), List.take_left' hlA,
        List.drop_left' hlA, List.take_left' hlB]
      simp only [List.append_assoc, Option.some.injEq, netip.Addr.v6.injEq, and_true,
        List.append_cancel_left_eq, List.append_cancel_right_eq]
      congr 1
      omega

/-- Reading back eight colon-joined rendered groups. -/
theorem netip.parseIPv6_full (gs : List Nat) (h : ∀ x ∈ gs, x < 65536)
    (hlen : gs.length = 8) :
    netip.parseIPv6 (netip.joinHex gs) = some (.v6 (netip.groupBytes gs) []) := by
  cases gs with
  | nil => simp at hlen
  | cons g gs =>
    simp only [List.length_cons] at hlen
    have hhead := netip.joinHex_head_ne_colon g gs (h g (by simp)) []
    rw [List.append_nil] at hhead
    have hp : '%' ∉ netip.joinHex (g :: gs) := fun hm =>
      (netip.colon_or_hex_plain _ (netip.joinHex_chars _ h _ hm)).2.1 rfl
    rw [netip.parseIPv6_nolead _ hp hhead]
    have hloop := netip.parseIPv6.loop_joinHex gs g 0 0 (List.replicate 16 0) none h
      (by omega)
    have h16 : 2 * (gs.length + 1) = 16 := by omega
    rw [show gs.length + 1 + 0 = gs.length + 1 by omega, Nat.zero_add, h16, hlen] at hloop
    have hw := netip.writeGroups_eq (g :: gs) (List.replicate 16 0) 0 (by simp; omega)
    simp only [List.take_zero, List.nil_append, Nat.zero_add, List.length_cons,
      List.drop_replicate, show 16 - 2 * (gs.length + 1) = 0 by omega, List.replicate_zero,
      List.append_nil] at hw
    rw [hloop, netip.parseIPv6.finish_full, hw]

/-! ## The RFC 5952 text of an address parses back to the address -/

theorem netip.groupsFrom_succ (b : List Nat) (a n : Nat) :
    netip.groupsFrom b a (n + 1) = netip.v6u16 b a :: netip.groupsFrom b (a + 1) n := by
  simp [netip.groupsFrom, List.range'_succ]

theorem netip.groupsFrom_zero (b : List Nat) (a : Nat) : netip.groupsFrom b a 0 = [] := rfl

/-- After the zero span (or without one) `appendTo6` writes each remaining
group preceded by a colon. -/
theorem netip.appendGroups_tail (b : List Nat) (zs ze : Nat) :
    ∀ (fuel i : Nat), 0 < i → i ≤ 8 → 8 - i ≤ fuel → (zs < i ∨ 8 ≤ zs) →
      netip.appendGroups b zs ze fuel i = netip.colonHex (netip.groupsFrom b i (8 - i)) := by
  intro fuel
  induction fuel with
  | zero =>
    intro i _ hi hf _
    have : i = 8 := by omega
    subst this
    simp [netip.appendGroups, netip.groupsFrom, netip.colonHex]
  | succ fuel ih =>
    intro i h0 hi hf hz
    rw [netip.appendGroups]
    by_cases h8 : i < 8
    · have hne : i ≠ zs := by omega
      rw [show 8 - i = (8 - (i + 1)) + 1 by omega, netip.groupsFrom_succ]
      simp only [h8, not_true_eq_false, if_false, hne, h0, if_true]
      rw [ih (i + 1) (by omega) (by omega) (by omega) (by omega)]
      simp [netip.colonHex]
    · have : i = 8 := by omega
      subst this
      simp [netip.groupsFrom, netip.colonHex]

/-- What `appendTo6` writes from the zero span on: `::` and the groups after
the span joined by colons. -/
theorem netip.appendGroups_at_span (b : List Nat) (zs ze : Nat) (fuel : Nat)
    (hz : zs < ze) (he : ze ≤ 8) (hf : 8 - zs ≤ fuel + 1) :
    netip.appendGroups b zs ze (fuel + 1) zs =
      ':' :: ':' :: netip.joinHex (netip.groupsFrom b ze (8 - ze)) := by
  rw [netip.appendGroups]
  simp only [show zs < 8 by omega, not_true_eq_false, if_false, if_true]
  by_cases h8 : ze ≥ 8
  · have : ze = 8 := by omega
    subst this
    simp [netip.groupsFrom, netip.joinHex]
  · simp only [h8, if_false]
    rw [netip.appendGroups_tail b zs ze fuel (ze + 1) (by omega) (by omega) (by omega)
      (by omega)]
    rw [show 8 - ze = (8 - (ze + 1)) + 1 by omega, netip.groupsFrom_succ]
    simp [netip.joinHex]

/-- Before the zero span, from a group `i > 0` on: the groups up to the span,
each preceded by a colon, then the span and what follows it. -/
theorem netip.appendGroups_before_span (b : List Nat) (zs ze : Nat) (hz : zs < ze)
    (he : ze ≤ 8) :
    ∀ (n fuel i : Nat), 0 < i → i + n = zs → 8 - i ≤ fuel →
      netip.appendGroups b zs ze fuel i =
        netip.colonHex (netip.groupsFrom b i n) ++
          ':' :: ':' :: netip.joinHex (netip.groupsFrom b ze (8 - ze)) := by
  intro n
  induction n with
  | zero =>
    intro fuel i h0 hi hf
    have : i = zs := by omega
    subst this
    cases fuel with
    | zero => omega
    | succ fuel =>
      rw [netip.appendGroups_at_span b i ze fuel hz he hf]
      simp [netip.groupsFrom, netip.colonHex]
  | succ n ih =>
    intro fuel i h0 hi hf
    cases fuel with
    | zero => omega
    | succ fuel =>
      rw [netip.appendGroups]
      have hne : i ≠ zs := by omega
      simp only [show i < 8 by omega, not_true_eq_false, if_false, hne, h0, if_true]
      rw [ih fuel (i + 1) (by omega) (by omega) (by omega), netip.groupsFrom_succ]
      simp [netip.colonHex]

/-- The text `appendTo6` writes for an address with a zero span. -/
theorem netip.appendGroups_span (b : List Nat) (zs ze : Nat) (hz : zs < ze) (he : ze ≤ 8) :
    netip.appendGroups b zs ze 8 0 =
      netip.joinHex (netip.groupsFrom b 0 zs) ++
        ':' :: ':' :: netip.joinHex (netip.groupsFrom b ze (8 - ze)) := by
  by_cases h0 : zs = 0
  · subst h0
    rw [show (8 : Nat) = 7 + 1 from rfl, netip.appendGroups_at_span b 0 ze 7 hz he (by omega)]
    simp [netip.groupsFrom, netip.joinHex]
  · rw [show (8 : Nat) = 7 + 1 from rfl, netip.appendGroups]
    have hne : (0 : Nat) ≠ zs := fun e => h0 e.symm
    simp only [show (0 : Nat) < 8 by omega, not_true_eq_false, if_false, hne,
      show ¬ (0 : Nat) > 0 by omega, List.nil_append]
    rw [netip.appendGroups_before_span b zs ze hz he (zs - 1) 7 (0 + 1) (by omega) (by omega)
      (by omega)]
    rw [show zs = (zs - 1) + 1 by omega, netip.groupsFrom_succ]
    simp [netip.joinHex]

/-- The text `appendTo6` writes for an address without a zero span. -/
theorem netip.appendGroups_no_span (b : List Nat) (zs ze : Nat) (hz : 8 ≤ zs) :
    netip.appendGroups b zs ze 8 0 = netip.joinHex (netip.groupsFrom b 0 8) := by
  rw [show (8 : Nat) = 7 + 1 from rfl, netip.appendGroups]
  have hne : (0 : Nat) ≠ zs := by omega
  simp only [show (0 : Nat) < 7 + 1 by omega, not_true_eq_false, if_false, hne,
    show ¬ (0 : Nat) > 0 by omega, List.nil_append]
  rw [netip.appendGroups_tail b zs ze 7 (0 + 1) (by omega) (by omega) (by omega) (by omega),
    netip.groupsFrom_succ b 0 7]
  rfl


theorem netip.zeroRunEnd_spec (b : List Nat) :
    ∀ (fuel j : Nat), j ≤ 8 →
      j ≤ netip.zeroRunEnd b fuel j ∧ netip.zeroRunEnd b fuel j ≤ 8 ∧
        ∀ k, j ≤ k → k < netip.zeroRunEnd b fuel j → netip.v6u16 b k = 0 := by
  intro fuel
  induction fuel with
  | zero =>
    intro j hj
    exact ⟨Nat.le_refl _, hj, fun k h1 h2 => absurd h2 (by simp [netip.zeroRunEnd]; omega)⟩
  | succ fuel ih =>
    intro j hj
    rw [netip.zeroRunEnd]
    split
    · rename_i hc
      obtain ⟨h1, h2, h3⟩ := ih (j + 1) (by omega)
      refine ⟨by omega, h2, ?_⟩
      intro k hk1 hk2
      by_cases hkj : k = j
      · rw [hkj]; exact hc.2
      · exact h3 k (by omega) hk2
    · exact ⟨Nat.le_refl _, hj, fun k h1 h2 => absurd h2 (by omega)⟩

/-- The span `appendTo6` picks: none (both ends 255), or a run of at least two
zero groups inside the address. -/
theorem netip.zeroSpan_spec (b : List Nat) :
    ∀ (fuel i : Nat) (z : Nat × Nat), i + fuel ≤ 8 →
      (z = (255, 255) ∨ (z.1 + 2 ≤ z.2 ∧ z.2 ≤ 8 ∧
        ∀ k, z.1 ≤ k → k < z.2 → netip.v6u16 b k = 0)) →
      (netip.zeroSpan b fuel i z = (255, 255) ∨
        ((netip.zeroSpan b fuel i z).1 + 2 ≤ (netip.zeroSpan b fuel i z).2 ∧
          (netip.zeroSpan b fuel i z).2 ≤ 8 ∧
          ∀ k, (netip.zeroSpan b fuel i z).1 ≤ k → k < (netip.zeroSpan b fuel i z).2 →
            netip.v6u16 b k = 0)) := by
  intro fuel
  induction fuel with
  | zero => intro i z _ hz; simpa [netip.zeroSpan] using hz
  | succ fuel ih =>
    intro i z hi hz
    obtain ⟨zs, ze⟩ := z
    rw [netip.zeroSpan]
    apply ih (i + 1) _ (by omega)
    obtain ⟨h1, h2, h3⟩ := netip.zeroRunEnd_spec b 8 i (by omega)
    split
    · rename_i hc
      right
      exact ⟨by simp only; omega, h2, h3⟩
    · exact hz


theorem netip.v6u16_lt (ip : List Nat) (hb : ∀ x ∈ ip, x < 256) (k : Nat) :
    netip.v6u16 ip k < 65536 := by
  have h : ∀ i, ip.getD i 0 < 256 := by
    intro i
    rw [List.getD_eq_getElem?_getD]
    cases hi : ip[i]? with
    | none => simp
    | some x => simpa using hb x (List.getElem?_mem hi)
  have h1 := h (2 * k)
  have h2 := h (2 * k + 1)
  unfold netip.v6u16
  omega

/-- The bytes of a run of groups of a well-formed address are the bytes of
the address at that place. -/
theorem netip.groupBytes_groupsFrom (ip : List Nat) (hlen : ip.length = 16)
    (hb : ∀ x ∈ ip, x < 256) :
    ∀ (n a : Nat), a + n ≤ 8 →
      netip.groupBytes (netip.groupsFrom ip a n) = (ip.drop (2 * a)).take (2 * n) := by
  intro n
  induction n with
  | zero => intro a _; simp [netip.groupsFrom, netip.groupBytes]
  | succ n ih =>
    intro a ha
    have h1 : 2 * a < ip.length := by omega
    have h2 : 2 * a + 1 < ip.length := by omega
    rw [netip.groupsFrom_succ, netip.groupBytes_cons, ih (a + 1) (by omega)]
    rw [List.drop_eq_getElem_cons h1, List.drop_eq_getElem_cons h2]
    rw [show 2 * (n + 1) = (2 * n + 1) + 1 by omega, List.take_succ_cons,
      List.take_succ_cons, show 2 * a + 1 + 1 = 2 * (a + 1) by omega]
    have hx1 : ip[2 * a] < 256 := hb _ (List.getElem_mem h1)
    have hx2 : ip[2 * a + 1] < 256 := hb _ (List.getElem_mem h2)
    have hv : netip.v6u16 ip a = ip[2 * a] * 256 + ip[2 * a + 1] := by
      simp [netip.v6u16, List.getD_eq_getElem?_getD, List.getElem?_eq_getElem h1,
        List.getElem?_eq_getElem h2]
    rw [hv]
    congr 1
    · omega
    · congr 1
      omega

theorem netip.groupBytes_replicate_zero (n : Nat) :
    netip.groupBytes (List.replicate n 0) = List.replicate (2 * n) 0 := by
  induction n with
  | zero => rfl
  | succ n ih =>
    rw [List.replicate_succ, netip.groupBytes_cons, ih,
      show 2 * (n + 1) = (2 * n + 1) + 1 by omega, List.replicate_succ, List.replicate_succ]

theorem netip.groupsFrom_zero_run (ip : List Nat) :
    ∀ (n a : Nat), (∀ k, a ≤ k → k < a + n → netip.v6u16 ip k = 0) →
      netip.groupsFrom ip a n = List.replicate n 0 := by
  intro n
  induction n with
  | zero => intro a _; rfl
  | succ n ih =>
    intro a h
    rw [netip.groupsFrom_succ, h a (Nat.le_refl _) (by omega),
      ih (a + 1) (fun k h1 h2 => h k (by omega) (by omega)), List.replicate_succ]

/-- Parsing the RFC 5952 text of a well-formed 16-byte address gives the
address back. -/
theorem netip.parseIPv6_string6 (ip : List Nat) (hlen : ip.length = 16)
    (hb : ∀ x ∈ ip, x < 256) :
    netip.parseIPv6 (netip.string6 ip) = some (.v6 ip []) := by
  have hg : ∀ a n, ∀ x ∈ netip.groupsFrom ip a n, x < 65536 := by
    intro a n x hx
    simp only [netip.groupsFrom, List.mem_map] at hx
    obtain ⟨k, _, rfl⟩ := hx
    exact netip.v6u16_lt ip hb k
  have hglen : ∀ a n, (netip.groupsFrom ip a n).length = n := by
    intro a n
    simp [netip.groupsFrom]
  unfold netip.string6
  simp only
  rcases netip.zeroSpan_spec ip 8 0 (255, 255) (by omega) (Or.inl rfl) with hz | ⟨h1, h2, h3⟩
  · rw [hz]
    simp only
    rw [netip.appendGroups_no_span ip 255 255 (by omega),
      netip.parseIPv6_full _ (hg 0 8) (hglen 0 8),
      netip.groupBytes_groupsFrom ip hlen hb 8 0 (by omega)]
    simp only [Nat.mul_zero, List.drop_zero]
    rw [List.take_of_length_le (by omega)]
  · generalize netip.zeroSpan ip 8 0 (255, 255) = z at h1 h2 h3
    obtain ⟨zs, ze⟩ := z
    simp only at h1 h2 h3 ⊢
    rw [netip.appendGroups_span ip zs ze (by omega) h2,
      netip.parseIPv6_ellipsis _ _ (hg 0 zs) (hg ze (8 - ze))
        (by rw [hglen, hglen]; omega),
      hglen, hglen,
      netip.groupBytes_groupsFrom ip hlen hb zs 0 (by omega),
      netip.groupBytes_groupsFrom ip hlen hb (8 - ze) ze (by omega)]
    have hmid : (ip.drop (2 * zs)).take (2 * (ze - zs)) = List.replicate (2 * (ze - zs)) 0 := by
      rw [← netip.groupBytes_groupsFrom ip hlen hb (ze - zs) zs (by omega),
        netip.groupsFrom_zero_run ip (ze - zs) zs
          (fun k hk1 hk2 => h3 k hk1 (by omega)),
        netip.groupBytes_replicate_zero]
    have hcnt : 16 - 2 * (zs + (8 - ze)) = 2 * (ze - zs) := by omega
    rw [hcnt, ← hmid]
    simp only [Nat.mul_zero, List.drop_zero, Option.some.injEq, netip.Addr.v6.injEq, and_true]
    have hle : (ip.drop (2 * ze)).length ≤ 2 * (8 - ze) := by
      simp only [List.length_drop]
      omega
    rw [List.take_of_length_le hle]
    have e1 : ip.drop (2 * ze) = (ip.drop (2 * zs)).drop (2 * (ze - zs)) := by
      rw [List.drop_drop]
      congr 1
      omega
    rw [e1, List.append_assoc, List.take_append_drop, List.take_append_drop]

/-! ## Parsing the canonical text of an address -/

theorem netip.isDigit_digit : ∀ d < 10,
    netip.isDigit (netip.digit d) = true ∧ (netip.digit d).toNat - 48 = d ∧
      netip.digit d ≠ '.' := by
  decide

theorem netip.parseIPv4Fields.loop_digit (d : Nat) (hd : d < 10) (rest : List Char)
    (prev : Option Char) (val pos digLen : Nat) (fields : List Nat)
    (hlead : ¬ (digLen = 1 ∧ val = 0)) (hval : val * 10 + d ≤ 255) :
    netip.parseIPv4Fields.loop (netip.digit d :: rest) prev val pos digLen fields =
      netip.parseIPv4Fields.loop rest (some (netip.digit d)) (val * 10 + d) pos (digLen + 1)
        fields := by
  obtain ⟨h1, h2, _⟩ := netip.isDigit_digit d hd
  rw [netip.parseIPv4Fields.loop]
  simp only [h1, if_true, hlead, if_false, h2, show ¬ val * 10 + d > 255 by omega]

/-- Reading back a rendered octet: the loop consumes the digits `appendDecimal`
wrote and holds the octet in `val`. -/
theorem netip.parseIPv4Fields.loop_appendDecimal (x : Nat) (hx : x < 256) :
    ∃ c n, c ≠ '.' ∧ ∀ (rest : List Char) (prev : Option Char) (pos : Nat) (fields : List Nat),
      netip.parseIPv4Fields.loop (netip.appendDecimal x ++ rest) prev 0 pos 0 fields =
        netip.parseIPv4Fields.loop rest (some c) x pos n fields := by
  unfold netip.appendDecimal
  by_cases h100 : x ≥ 100
  · have h10 : x ≥ 10 := by omega
    refine ⟨netip.digit (x % 10), 3, (netip.isDigit_digit _ (by omega)).2.2, ?_⟩
    intro rest prev pos fields
    simp only [h100, h10, if_true, List.cons_append, List.nil_append]
    rw [netip.parseIPv4Fields.loop_digit _ (by omega) _ _ _ _ _ _ (by omega) (by omega),
      netip.parseIPv4Fields.loop_digit _ (by omega) _ _ _ _ _ _ (by omega) (by omega),
      netip.parseIPv4Fields.loop_digit _ (by omega) _ _ _ _ _ _ (by omega) (by omega)]
    congr 1
    omega
  · by_cases h10 : x ≥ 10
    · refine ⟨netip.digit (x % 10), 2, (netip.isDigit_digit _ (by omega)).2.2, ?_⟩
      intro rest prev pos fields
      simp only [h100, h10, if_true, if_false, List.cons_append, List.nil_append]
      rw [netip.parseIPv4Fields.loop_digit _ (by omega) _ _ _ _ _ _ (by omega) (by omega),
        netip.parseIPv4Fields.loop_digit _ (by omega) _ _ _ _ _ _ (by omega) (by omega)]
      congr 1
      omega
    · refine ⟨netip.digit (x % 10), 1, (netip.isDigit_digit _ (by omega)).2.2, ?_⟩
      intro rest prev pos fields
      simp only [h100, h10, if_false, List.nil_append, List.cons_append]
      rw [netip.parseIPv4Fields.loop_digit _ (by omega) _ _ _ _ _ _ (by omega) (by omega)]
      congr 1
      omega

theorem netip.parseIPv4Fields.loop_dot (c : Char) (hc : c ≠ '.') (r : List Char)
    (hr : r ≠ []) (val pos n : Nat) (hpos : pos ≠ 3) (fields : List Nat) :
    netip.parseIPv4Fields.loop ('.' :: r) (some c) val pos n fields =
      netip.parseIPv4Fields.loop r (some '.') 0 (pos + 1) 0 (fields.set pos val) := by
  rw [netip.parseIPv4Fields.loop]
  simp [show netip.isDigit '.' = false by decide, hr, hc, hpos]

/-- Parsing the dotted-decimal text of four octets gives the octets back. -/
theorem netip.parseIPv4Fields_string4 (a b c d : Nat) (ha : a < 256) (hb : b < 256)
    (hc : c < 256) (hd : d < 256) :
    netip.parseIPv4Fields (netip.string4 [a, b, c, d]) = some [a, b, c, d] := by
  obtain ⟨ca, na, hca, hla⟩ := netip.parseIPv4Fields.loop_appendDecimal a ha
  obtain ⟨cb, nb, hcb, hlb⟩ := netip.parseIPv4Fields.loop_appendDecimal b hb
  obtain ⟨cc, nc, hcc, hlc⟩ := netip.parseIPv4Fields.loop_appendDecimal c hc
  obtain ⟨cd, nd, hcd, hld⟩ := netip.parseIPv4Fields.loop_appendDecimal d hd
  have hne : ∀ x (r : List Char), netip.appendDecimal x ++ r ≠ [] := by
    intro x r h
    exact netip.appendDecimal_ne_nil x (List.append_eq_nil.1 h).1
  have hs : netip.string4 [a, b, c, d] =
      netip.appendDecimal a ++ ('.' :: (netip.appendDecimal b ++ ('.' ::
        (netip.appendDecimal c ++ ('.' :: (netip.appendDecimal d ++ [])))))) := by
    simp [netip.string4]
  unfold netip.parseIPv4Fields
  rw [hs, hla, netip.parseIPv4Fields.loop_dot ca hca _ (hne _ _) _ _ _ (by omega),
    hlb, netip.parseIPv4Fields.loop_dot cb hcb _ (hne _ _) _ _ _ (by omega),
    hlc, netip.parseIPv4Fields.loop_dot cc hcc _ (hne _ _) _ _ _ (by omega),
    hld]
  simp [netip.parseIPv4Fields.loop]


/-- The shape of the RFC 5952 text of a well-formed address: eight groups
joined by colons, or the groups on both sides of one `::`. -/
theorem netip.string6_form (ip : List Nat) (hb : ∀ x ∈ ip, x < 256) :
    (∃ gs, (∀ x ∈ gs, x < 65536) ∧ gs.length = 8 ∧ netip.string6 ip = netip.joinHex gs) ∨
    (∃ gsA gsB, (∀ x ∈ gsA, x < 65536) ∧ (∀ x ∈ gsB, x < 65536) ∧
      netip.string6 ip = netip.joinHex gsA ++ ':' :: ':' :: netip.joinHex gsB) := by
  have hg : ∀ a n, ∀ x ∈ netip.groupsFrom ip a n, x < 65536 := by
    intro a n x hx
    simp only [netip.groupsFrom, List.mem_map] at hx
    obtain ⟨k, _, rfl⟩ := hx
    exact netip.v6u16_lt ip hb k
  unfold netip.string6
  simp only
  rcases netip.zeroSpan_spec ip 8 0 (255, 255) (by omega) (Or.inl rfl) with hz | ⟨h1, h2, h3⟩
  · left
    rw [hz]
    exact ⟨_, hg 0 8, by simp [netip.groupsFrom],
      netip.appendGroups_no_span ip 255 255 (by omega)⟩
  · right
    generalize netip.zeroSpan ip 8 0 (255, 255) = z at h1 h2 h3
    obtain ⟨zs, ze⟩ := z
    simp only at h1 h2 h3 ⊢
    exact ⟨_, _, hg 0 zs, hg ze (8 - ze), netip.appendGroups_span ip zs ze (by omega) h2⟩

theorem netip.count_colonHex (gs : List Nat) :
    gs.length ≤ (netip.colonHex gs).count ':' := by
  induction gs with
  | nil => simp
  | cons g gs ih =>
    simp only [netip.colonHex, List.flatMap_cons, List.cons_append, List.count_cons_self,
      List.count_append, List.length_cons] at ih ⊢
    omega

/-- The text of a well-formed 16-byte address that is not rendered in dotted
decimal is made of colons and hexadecimal digits and holds at least two
colons. -/
theorem netip.string6_chars (ip : List Nat) (hb : ∀ x ∈ ip, x < 256) :
    (∀ c ∈ netip.string6 ip, c = ':' ∨ ∃ d, d < 16 ∧ c = netip.digit d) ∧
    2 ≤ (netip.string6 ip).count ':' := by
  rcases netip.string6_form ip hb with ⟨gs, hgs, hlen, hs⟩ | ⟨gsA, gsB, hA, hB, hs⟩
  · rw [hs]
    refine ⟨netip.joinHex_chars gs hgs, ?_⟩
    cases gs with
    | nil => simp at hlen
    | cons g gs =>
      simp only [List.length_cons] at hlen
      have := netip.count_colonHex gs
      simp only [netip.joinHex, List.count_append]
      omega
  · rw [hs]
    constructor
    · intro c hc
      simp only [List.mem_append, List.mem_cons] at hc
      rcases hc with hc | hc | hc | hc
      · exact netip.joinHex_chars gsA hA c hc
      · exact Or.inl hc
      · exact Or.inl hc
      · exact netip.joinHex_chars gsB hB c hc
    · simp only [List.count_append, List.count_cons_self]
      omega

theorem netip.ParseAddr.scan_v6 (s : List Char) :
    ∀ t : List Char, (∀ c ∈ t, c = ':' ∨ ∃ d, d < 16 ∧ c = netip.digit d) → ':' ∈ t →
      netip.ParseAddr.scan s t = netip.parseIPv6 s := by
  intro t
  induction t with
  | nil => intro _ h; simp at h
  | cons c rest ih =>
    intro hc hm
    rw [netip.ParseAddr.scan]
    rcases hc c (by simp) with rfl | ⟨d, hd, rfl⟩
    · simp
    · have hp := netip.digit_hex_plain d hd
      simp only [hp.2.1, if_false, hp.1, hp.2.2.1]
      refine ih (fun x hx => hc x (by simp [hx])) ?_
      rcases List.mem_cons.1 hm with h | h
      · exact absurd h.symm hp.1
      · exact h

theorem netip.appendDecimal_chars (x : Nat) (hx : x < 256) :
    ∀ c ∈ netip.appendDecimal x, ∃ d, d < 10 ∧ c = netip.digit d := by
  intro c hc
  unfold netip.appendDecimal at hc
  simp only [List.mem_append, List.mem_singleton] at hc
  rcases hc with (hc | hc) | hc
  · split at hc
    · exact ⟨x / 100, by omega, by simpa using hc⟩
    · simp at hc
  · split at hc
    · exact ⟨x / 10 % 10, by omega, by simpa using hc⟩
    · simp at hc
  · exact ⟨x % 10, by omega, hc⟩

theorem netip.string4_chars (a b c d : Nat) (ha : a < 256) (hb : b < 256) (hc : c < 256)
    (hd : d < 256) :
    ∀ x ∈ netip.string4 [a, b, c, d], netip.isDigit x = true ∨ x = '.' := by
  intro x hx
  have key : ∀ y, y < 256 → x ∈ netip.appendDecimal y → netip.isDigit x = true := by
    intro y hy hm
    obtain ⟨k, hk, rfl⟩ := netip.appendDecimal_chars y hy x hm
    exact (netip.isDigit_digit k hk).1
  simp only [netip.string4, List.getD_cons_zero, List.getD_cons_succ, List.mem_append,
    List.mem_singleton] at hx
  rcases hx with (((((hx | hx) | hx) | hx) | hx) | hx) | hx
  · exact Or.inl (key a ha hx)
  · exact Or.inr hx
  · exact Or.inl (key b hb hx)
  · exact Or.inr hx
  · exact Or.inl (key c hc hx)
  · exact Or.inr hx
  · exact Or.inl (key d hd hx)

theorem netip.ParseAddr.scan_v4 (s : List Char) :
    ∀ t : List Char, (∀ c ∈ t, netip.isDigit c = true ∨ c = '.') → '.' ∈ t →
      netip.ParseAddr.scan s t = netip.parseIPv4 s := by
  intro t
  induction t with
  | nil => intro _ h; simp at h
  | cons c rest ih =>
    intro hc hm
    rw [netip.ParseAddr.scan]
    by_cases hdot : c = '.'
    · simp [hdot]
    · have hp := netip.digit_or_dot_plain c (hc c (by simp))
      have hpct : c ≠ '%' := by
        rcases hc c (by simp) with h | h
        · rintro rfl; revert h; decide
        · exact absurd h hdot
      simp only [hdot, if_false, hp.1, hpct]
      refine ih (fun x hx => hc x (by simp [hx])) ?_
      rcases List.mem_cons.1 hm with h | h
      · exact absurd h.symm hdot
      · exact h


theorem bytealg.not_mem_of_LastIndexByteString_none (s : List Char) (c : Char)
    (h : bytealg.LastIndexByteString s c = none) : c ∉ s := by
  induction s with
  | nil => simp
  | cons x xs ih =>
    rw [bytealg.LastIndexByteString] at h
    cases hl : bytealg.LastIndexByteString xs c with
    | some j => simp [hl] at h
    | none =>
      simp only [hl] at h
      have hx : ¬ x = c := by
        intro e
        simp [e] at h
      simp only [List.mem_cons, not_or]
      exact ⟨fun e => hx e.symm, ih hl⟩

theorem bytealg.mem_take_of_LastIndexByteString (s : List Char) (c : Char) :
    ∀ i, bytealg.LastIndexByteString s c = some i → 2 ≤ s.count c → c ∈ s.take i := by
  induction s with
  | nil => intro i h; simp [bytealg.LastIndexByteString] at h
  | cons x xs ih =>
    intro i h hcount
    rw [bytealg.LastIndexByteString] at h
    cases hl : bytealg.LastIndexByteString xs c with
    | some j =>
      simp only [hl, Option.some.injEq] at h
      subst h
      rw [List.take_succ_cons]
      by_cases hx : x = c
      · simp [hx]
      · have : 2 ≤ xs.count c := by
          rw [List.count_cons] at hcount
          simp only [beq_iff_eq, hx, if_false] at hcount
          exact hcount
        exact List.mem_cons_of_mem _ (ih j hl this)
    | none =>
      have hn := bytealg.not_mem_of_LastIndexByteString_none xs c hl
      have h0 : xs.count c = 0 := List.count_eq_zero_of_not_mem hn
      rw [List.count_cons, h0] at hcount
      split at hcount <;> omega

theorem bytealg.IndexByteString_isSome_of_mem (s : List Char) (c : Char) (h : c ∈ s) :
    (bytealg.IndexByteString s c).isSome = true := by
  induction s with
  | nil => simp at h
  | cons x xs ih =>
    rw [bytealg.IndexByteString]
    by_cases hx : x = c
    · simp [hx]
    · rcases List.mem_cons.1 h with e | e
      · exact absurd e.symm hx
      · simp only [hx, if_false, Option.isSome_map']
        exact ih e

/-- `net.SplitHostPort` reports an error on an unbracketed text with two or
more colons. -/
theorem net.splitHostPortChars_two_colons (s : List Char) (hhead : s.head? ≠ some '[')
    (hcount : 2 ≤ s.count ':') : net.splitHostPortChars s = none := by
  unfold net.splitHostPortChars
  cases hl : bytealg.LastIndexByteString s ':' with
  | none => rfl
  | some i =>
    have hm := bytealg.mem_take_of_LastIndexByteString s ':' i hl hcount
    simp only [hhead, if_false, bytealg.IndexByteString_isSome_of_mem _ _ hm, if_true]

/-- Parsing the canonical text of a well-formed 16-byte address gives the
address back. -/
theorem net.ParseIP_String (ip : net.IP) (hlen : ip.length = 16) (hb : ∀ x ∈ ip, x < 256) :
    net.ParseIP (net.IP.String ip) = some ip := by
  match ip, hlen, hb with
  | [x0, x1, x2, x3, x4, x5, x6, x7, x8, x9, x10, x11, x12, x13, x14, x15], _, hb =>
    by_cases h4 : x0 = 0 ∧ x1 = 0 ∧ x2 = 0 ∧ x3 = 0 ∧ x4 = 0 ∧ x5 = 0 ∧ x6 = 0 ∧ x7 = 0 ∧
        x8 = 0 ∧ x9 = 0 ∧ x10 = 255 ∧ x11 = 255
    · obtain ⟨rfl, rfl, rfl, rfl, rfl, rfl, rfl, rfl, rfl, rfl, rfl, rfl⟩ := h4
      have hs : net.IP.String [0, 0, 0, 0, 0, 0, 0, 0, 0, 0, 255, 255, x12, x13, x14, x15] =
          String.mk (netip.string4 [x12, x13, x14, x15]) :=
        net.IP.String_v4 [x12, x13, x14, x15] rfl
      have h12 : x12 < 256 := hb x12 (by simp)
      have h13 : x13 < 256 := hb x13 (by simp)
      have h14 : x14 < 256 := hb x14 (by simp)
      have h15 : x15 < 256 := hb x15 (by simp)
      have hdot : '.' ∈ netip.string4 [x12, x13, x14, x15] := by
        simp [netip.string4]
      rw [hs]
      unfold net.ParseIP netip.ParseAddr
      simp only
      rw [netip.ParseAddr.scan_v4 _ _ (netip.string4_chars x12 x13 x14 x15 h12 h13 h14 h15)
        hdot]
      simp [netip.parseIPv4, netip.parseIPv4Fields_string4 x12 x13 x14 x15 h12 h13 h14 h15,
        netip.Addr.Zone, netip.Addr.As16]
    · have hs : net.IP.String
          [x0, x1, x2, x3, x4, x5, x6, x7, x8, x9, x10, x11, x12, x13, x14, x15] =
          String.mk (netip.string6
            [x0, x1, x2, x3, x4, x5, x6, x7, x8, x9, x10, x11, x12, x13, x14, x15]) := by
        have hto4 : net.IP.To4
            [x0, x1, x2, x3, x4, x5, x6, x7, x8, x9, x10, x11, x12, x13, x14, x15] = none := by
          simp only [net.IP.To4, List.length_cons, List.length_nil]
          simp only [Nat.reduceAdd, Nat.reduceEqDiff, if_false, true_and]
          rw [if_neg]
          intro hc
          apply h4
          simpa [List.take, and_assoc] using hc
        simp [net.IP.String, hto4]
      obtain ⟨hchars, hcount⟩ := netip.string6_chars _ hb
      have hcolon : ':' ∈ netip.string6
          [x0, x1, x2, x3, x4, x5, x6, x7, x8, x9, x10, x11, x12, x13, x14, x15] :=
        List.count_pos_iff.1 (by omega)
      rw [hs]
      unfold net.ParseIP netip.ParseAddr
      simp only
      rw [netip.ParseAddr.scan_v6 _ _ hchars hcolon,
        netip.parseIPv6_string6
          [x0, x1, x2, x3, x4, x5, x6, x7, x8, x9, x10, x11, x12, x13, x14, x15] rfl hb]
      simp [netip.Addr.Zone, netip.Addr.As16]

/-! ## Parsed addresses are sixteen bytes -/

theorem netip.parseIPv4Fields.loop_bytes :
    ∀ (s : List Char) (prev : Option Char) (val pos digLen : Nat) (fields : List Nat)
      (r : Nat × Nat × List Nat),
      netip.parseIPv4Fields.loop s prev val pos digLen fields = some r →
      val ≤ 255 → (∀ x ∈ fields, x ≤ 255) →
      r.1 ≤ 255 ∧ ∀ x ∈ r.2.2, x ≤ 255 := by
  intro s
  induction s with
  | nil =>
    intro prev val pos digLen fields r h hv hf
    simp only [netip.parseIPv4Fields.loop, Option.some.injEq] at h
    subst h
    exact ⟨hv, hf⟩
  | cons c rest ih =>
    intro prev val pos digLen fields r h hv hf
    simp only [netip.parseIPv4Fields.loop] at h
    split at h
    · split at h
      · exact absurd h (by simp)
      · split at h
        · exact absurd h (by simp)
        · rename_i hle
          exact ih _ _ _ _ _ _ h (by omega) hf
    · split at h
      · split at h
        · exact absurd h (by simp)
        · split at h
          · exact absurd h (by simp)
          · refine ih _ _ _ _ _ _ h (by omega) ?_
            intro x hx
            rcases List.mem_or_eq_of_mem_set hx with h1 | h1
            · exact hf x h1
            · omega
      · exact absurd h (by simp)

/-- The octets `parseIPv4Fields` yields are four bytes. -/
theorem netip.parseIPv4Fields_bytes (s : List Char) (f : List Nat)
    (h : netip.parseIPv4Fields s = some f) : f.length = 4 ∧ ∀ x ∈ f, x < 256 := by
  refine ⟨(netip.parseIPv4Fields_text s f h).1, ?_⟩
  unfold netip.parseIPv4Fields at h
  split at h
  · exact absurd h (by simp)
  · rename_i val1 pos1 fields1 hloop
    split at h
    · exact absurd h (by simp)
    · simp only [Option.some.injEq] at h
      subst h
      obtain ⟨h1, h2⟩ := netip.parseIPv4Fields.loop_bytes s none 0 0 0 [0, 0, 0, 0] _ hloop
        (by omega) (by intro x hx; simp at hx; omega)
      intro x hx
      rcases List.mem_or_eq_of_mem_set hx with h3 | h3
      · have := h2 x h3
        omega
      · simp only at h1
        omega

theorem netip.parseIPv6.hexLoop_acc :
    ∀ (s : List Char) (off acc : Nat) (r : Nat × Nat × List Char),
      netip.parseIPv6.hexLoop s off acc = some r → acc ≤ 65535 → r.2.1 ≤ 65535 := by
  intro s
  induction s with
  | nil =>
    intro off acc r h ha
    simp only [netip.parseIPv6.hexLoop, Option.some.injEq] at h
    subst h
    exact ha
  | cons c cs ih =>
    intro off acc r h ha
    simp only [netip.parseIPv6.hexLoop] at h
    split at h
    · simp only [Option.some.injEq] at h
      subst h
      exact ha
    · split at h
      · exact absurd h (by simp)
      · split at h
        · exact absurd h (by simp)
        · exact ih _ _ _ h (by omega)

theorem netip.setRange_bytes (ip : List Nat) (i : Nat) (f : List Nat)
    (hlen : ip.length = 16) (hb : ∀ x ∈ ip, x < 256) (hf : f.length = 4)
    (hfb : ∀ x ∈ f, x < 256) (hi : i + 4 ≤ 16) :
    (netip.setRange ip i f).length = 16 ∧ ∀ x ∈ netip.setRange ip i f, x < 256 := by
  unfold netip.setRange
  constructor
  · simp only [List.length_append, List.length_take, List.length_drop, hlen, hf]
    omega
  · intro x hx
    simp only [List.mem_append] at hx
    rcases hx with (hx | hx) | hx
    · exact hb x (List.mem_of_mem_take hx)
    · exact hfb x hx
    · exact hb x (List.mem_of_mem_drop hx)

/-- The state the main loop of `parseIPv6` exits with holds sixteen bytes, an
index within them and an ellipsis position not beyond the index. -/
theorem netip.parseIPv6.loop_state_bytes :
    ∀ (fuel i : Nat) (s : List Char) (ip : List Nat) (ell : Option Nat)
      (r : Nat × List Char × List Nat × Option Nat),
      netip.parseIPv6.loop fuel i s ip ell = some r →
      ip.length = 16 → (∀ x ∈ ip, x < 256) → i % 2 = 0 → i ≤ 16 →
      (∀ e, ell = some e → e ≤ i) →
      r.2.2.1.length = 16 ∧ (∀ x ∈ r.2.2.1, x < 256) ∧ r.1 ≤ 16 ∧
        ∀ e, r.2.2.2 = some e → e ≤ r.1 := by
  intro fuel
  induction fuel with
  | zero =>
    intro i s ip ell r h hlen hb _ hi he
    simp only [netip.parseIPv6.loop, Option.some.injEq] at h
    subst h
    exact ⟨hlen, hb, hi, he⟩
  | succ fuel ih =>
    intro i s ip ell r h hlen hb hpar hi he
    rw [netip.parseIPv6.loop] at h
    split at h
    · simp only [Option.some.injEq] at h
      subst h
      exact ⟨hlen, hb, hi, he⟩
    · rename_i hi16
      simp only [not_not] at hi16
      split at h
      · exact absurd h (by simp)
      · rename_i off acc rest hhex
        have hacc := netip.parseIPv6.hexLoop_acc s 0 0 _ hhex (by omega)
        simp only at hacc
        have hset : ((ip.set i (acc / 256)).set (i + 1) (acc % 256)).length = 16 ∧
            ∀ x ∈ (ip.set i (acc / 256)).set (i + 1) (acc % 256), x < 256 := by
          refine ⟨by simp [hlen], ?_⟩
          intro x hx
          rcases List.mem_or_eq_of_mem_set hx with h1 | h1
          · rcases List.mem_or_eq_of_mem_set h1 with h2 | h2
            · exact hb x h2
            · omega
          · omega
        split at h
        · exact absurd h (by simp)
        · split at h
          · split at h
            · exact absurd h (by simp)
            · split at h
              · exact absurd h (by simp)
              · split at h
                · exact absurd h (by simp)
                · rename_i f hf
                  simp only [Option.some.injEq] at h
                  subst h
                  obtain ⟨hfl, hfb⟩ := netip.parseIPv4Fields_bytes s f hf
                  obtain ⟨h1, h2⟩ := netip.setRange_bytes ip i f hlen hb hfl hfb (by omega)
                  exact ⟨h1, h2, by simp only; omega,
                    fun e hee => by have := he e hee; simp only; omega⟩
          · simp only at h
            split at h
            · simp only [Option.some.injEq] at h
              subst h
              exact ⟨hset.1, hset.2, by simp only; omega,
                fun e hee => by have := he e hee; simp only; omega⟩
            · split at h
              · exact absurd h (by simp)
              · split at h
                · exact absurd h (by simp)
                · split at h
                  · split at h
                    · exact absurd h (by simp)
                    · split at h
                      · simp only [Option.some.injEq] at h
                        subst h
                        exact ⟨hset.1, hset.2, by simp only; omega,
                          fun e hee => by
                            simp only [Option.some.injEq] at hee
                            simp only
                            omega⟩
                      · exact ih _ _ _ _ _ h hset.1 hset.2 (by omega) (by omega)
                          (fun e hee => by
                            simp only [Option.some.injEq] at hee
                            omega)
                  · exact ih _ _ _ _ _ h hset.1 hset.2 (by omega) (by omega)
                      (fun e hee => by have := he e hee; omega)


theorem netip.parseIPv6.finish_bytes (zone : List Char)
    (r : Option (Nat × List Char × List Nat × Option Nat)) (a : netip.Addr)
    (h : netip.parseIPv6.finish zone r = some a)
    (hr : ∀ st, r = some st → st.2.2.1.length = 16 ∧ (∀ x ∈ st.2.2.1, x < 256) ∧ st.1 ≤ 16 ∧
      ∀ e, st.2.2.2 = some e → e ≤ st.1) :
    a.As16.length = 16 ∧ ∀ x ∈ a.As16, x < 256 := by
  unfold netip.parseIPv6.finish at h
  split at h
  · exact absurd h (by simp)
  · rename_i i rest ip ell
    obtain ⟨hlen, hb, hi, he⟩ := hr _ rfl
    simp only at hlen hb hi he
    split at h
    · exact absurd h (by simp)
    · split at h
      · split at h
        · exact absurd h (by simp)
        · rename_i e
          have hei := he e rfl
          simp only [Option.some.injEq] at h
          subst h
          simp only [netip.Addr.As16]
          constructor
          · simp only [List.length_append, List.length_take, List.length_replicate,
              List.length_drop, hlen]
            omega
          · intro x hx
            simp only [List.mem_append] at hx
            rcases hx with (hx | hx) | hx
            · exact hb x (List.mem_of_mem_take hx)
            · rw [(List.mem_replicate.1 hx).2]
              omega
            · exact hb x (List.mem_of_mem_drop (List.mem_of_mem_take hx))
      · split at h
        · exact absurd h (by simp)
        · simp only [Option.some.injEq] at h
          subst h
          exact ⟨hlen, hb⟩

theorem netip.parseIPv6_bytes (s : List Char) (a : netip.Addr)
    (h : netip.parseIPv6 s = some a) : a.As16.length = 16 ∧ ∀ x ∈ a.As16, x < 256 := by
  have hz : ∀ x ∈ List.replicate 16 0, x < 256 := by
    intro x hx
    rw [(List.mem_replicate.1 hx).2]
    omega
  have hfin : ∀ (zone s0 : List Char) (ell0 : Option Nat), (∀ e, ell0 = some e → e ≤ 0) →
      netip.parseIPv6.finish zone
        (netip.parseIPv6.loop 8 0 s0 (List.replicate 16 0) ell0) = some a →
      a.As16.length = 16 ∧ ∀ x ∈ a.As16, x < 256 := by
    intro zone s0 ell0 hell hf
    refine netip.parseIPv6.finish_bytes _ _ a hf ?_
    intro st hst
    exact netip.parseIPv6.loop_state_bytes 8 0 _ _ _ st hst (by simp) hz (by omega) (by omega) hell
  unfold netip.parseIPv6 at h
  dsimp only at h
  split_ifs at h
  all_goals first
    | exact hfin _ _ _ (fun e he => by simp only [Option.some.injEq] at he; omega) h
    | exact hfin _ _ _ (fun e he => absurd he (by simp)) h
    | (simp only [Option.some.injEq] at h
       subst h
       exact ⟨by simp [netip.Addr.As16], hz⟩)

theorem netip.ParseAddr.scan_bytes (s : List Char) :
    ∀ (t : List Char) (a : netip.Addr), netip.ParseAddr.scan s t = some a →
      a.As16.length = 16 ∧ ∀ x ∈ a.As16, x < 256 := by
  intro t
  induction t with
  | nil => intro a h; simp [netip.ParseAddr.scan] at h
  | cons c rest ih =>
    intro a h
    rw [netip.ParseAddr.scan] at h
    split at h
    · unfold netip.parseIPv4 at h
      cases hf : netip.parseIPv4Fields s with
      | none => simp [hf] at h
      | some f =>
        simp only [hf, Option.map_some', Option.some.injEq] at h
        subst h
        obtain ⟨hl, hb⟩ := netip.parseIPv4Fields_bytes s f hf
        simp only [netip.Addr.As16]
        refine ⟨by simp [hl], ?_⟩
        intro x hx
        simp only [List.mem_append] at hx
        rcases hx with hx | hx
        · simp only [List.mem_cons, List.mem_singleton, List.not_mem_nil, or_false] at hx
          omega
        · exact hb x hx
    · split at h
      · exact netip.parseIPv6_bytes s a h
      · split at h
        · exact absurd h (by simp)
        · exact ih a h

/-- An address `net.ParseIP` returns is sixteen bytes. -/
theorem net.ParseIP_bytes (s : String) (ip : net.IP) (h : net.ParseIP s = some ip) :
    ip.length = 16 ∧ ∀ x ∈ ip, x < 256 := by
  unfold net.ParseIP at h
  split at h
  · exact absurd h (by simp)
  · rename_i a ha
    split at h
    · exact absurd h (by simp)
    · simp only [Option.some.injEq] at h
      subst h
      exact netip.ParseAddr.scan_bytes s.data s.data a ha

/-- An address `getIP` returns is sixteen bytes. -/
theorem GetRealIP.getIP_bytes (g : GetRealIP) (s : String) (ip : net.IP)
    (h : g.getIP s = some ip) : ip.length = 16 ∧ ∀ x ∈ ip, x < 256 :=
  net.ParseIP_bytes _ ip h

/-! ## The canonical text as a candidate -/

/-- The canonical text of a well-formed 16-byte address is either a
dotted-decimal text, made of digits and dots and free of colons, or an RFC
5952 text, made of colons and hexadecimal digits with at least two colons. -/
theorem net.IP.String_shape (ip : net.IP) (hlen : ip.length = 16) (hb : ∀ x ∈ ip, x < 256) :
    ((∀ c ∈ (net.IP.String ip).data, netip.isDigit c = true ∨ c = '.') ∨
      ((∀ c ∈ (net.IP.String ip).data, c = ':' ∨ ∃ d, d < 16 ∧ c = netip.digit d) ∧
        2 ≤ (net.IP.String ip).data.count ':')) := by
  match ip, hlen, hb with
  | [x0, x1, x2, x3, x4, x5, x6, x7, x8, x9, x10, x11, x12, x13, x14, x15], _, hb =>
    by_cases h4 : x0 = 0 ∧ x1 = 0 ∧ x2 = 0 ∧ x3 = 0 ∧ x4 = 0 ∧ x5 = 0 ∧ x6 = 0 ∧ x7 = 0 ∧
        x8 = 0 ∧ x9 = 0 ∧ x10 = 255 ∧ x11 = 255
    · obtain ⟨rfl, rfl, rfl, rfl, rfl, rfl, rfl, rfl, rfl, rfl, rfl, rfl⟩ := h4
      have hs : net.IP.String [0, 0, 0, 0, 0, 0, 0, 0, 0, 0, 255, 255, x12, x13, x14, x15] =
          String.mk (netip.string4 [x12, x13, x14, x15]) :=
        net.IP.String_v4 [x12, x13, x14, x15] rfl
      left
      rw [hs]
      exact netip.string4_chars x12 x13 x14 x15 (hb x12 (by simp)) (hb x13 (by simp))
        (hb x14 (by simp)) (hb x15 (by simp))
    · have hs : net.IP.String
          [x0, x1, x2, x3, x4, x5, x6, x7, x8, x9, x10, x11, x12, x13, x14, x15] =
          String.mk (netip.string6
            [x0, x1, x2, x3, x4, x5, x6, x7, x8, x9, x10, x11, x12, x13, x14, x15]) := by
        have hto4 : net.IP.To4
            [x0, x1, x2, x3, x4, x5, x6, x7, x8, x9, x10, x11, x12, x13, x14, x15] = none := by
          simp only [net.IP.To4, List.length_cons, List.length_nil]
          simp only [Nat.reduceAdd, Nat.reduceEqDiff, if_false, true_and]
          rw [if_neg]
          intro hc
          apply h4
          simpa [List.take, and_assoc] using hc
        simp [net.IP.String, hto4]
      right
      rw [hs]
      exact netip.string6_chars _ hb

/-- Feeding the canonical text of a well-formed address back to the plugin:
the text is a single candidate, trimming leaves it alone, and `getIP` returns
the address it renders. -/
theorem GetRealIP.getIP_String (g : GetRealIP) (ip : net.IP) (hlen : ip.length = 16)
    (hb : ∀ x ∈ ip, x < 256) :
    strings.Split (net.IP.String ip) ',' = [net.IP.String ip] ∧
    strings.TrimSpace (net.IP.String ip) = net.IP.String ip ∧
    g.getIP (net.IP.String ip) = some ip := by
  have hparse := net.ParseIP_String ip hlen hb
  have hplain : ∀ c ∈ (net.IP.String ip).data,
      c ≠ '[' ∧ c ≠ ',' ∧ unicode.IsSpace c = false := by
    intro c hc
    rcases net.IP.String_shape ip hlen hb with h | ⟨h, _⟩
    · have := netip.digit_or_dot_plain c (h c hc)
      exact ⟨this.2.1, this.2.2.2.1, this.2.2.2.2⟩
    · have := netip.colon_or_hex_plain c (h c hc)
      exact ⟨this.2.2.1, this.2.2.2.2.1, this.2.2.2.2.2⟩
  refine ⟨?_, ?_, ?_⟩
  · simp [strings.Split, strings.splitChars_no_sep ',' (net.IP.String ip).data
      (fun h => (hplain _ h).2.1 rfl)]
  · simp [strings.TrimSpace, strings.trimChars_no_space (net.IP.String ip).data
      (fun c hc => (hplain c hc).2.2)]
  · rcases net.IP.String_shape ip hlen hb with h | ⟨_, hcount⟩
    · have hc : ':' ∉ (net.IP.String ip).data := fun hm =>
        (netip.digit_or_dot_plain _ (h _ hm)).1 rfl
      rw [GetRealIP.getIP_v4_text g _ hc, hparse]
    · have hhead : (net.IP.String ip).data.head? ≠ some '[' := fun e =>
        (hplain _ (List.mem_of_mem_head? e)).1 rfl
      simp [GetRealIP.getIP, net.SplitHostPort,
        net.splitHostPortChars_two_colons _ hhead hcount, hparse]

/-! ## Candidate selection (C1) -/

/-- C1. For a matched rule, the value left in `realIPStr` is the canonical text
of the first entry of the comma-split source value that, once trimmed and
passed through `getIP` (which strips an optional port), parses as an IP: every
entry before it fails to parse, and whatever follows it plays no part. When no
entry parses, `realIPStr` stays empty; one of the two cases always applies. -/
theorem first_valid_candidate_selected (g : GetRealIP) (proxy : Proxy) (req : Request)
    (hT : g.trusted proxy req = true) :
    (∀ pre tok post ip,
        strings.Split (g.sourceValue proxy req) ',' = pre ++ tok :: post →
        (∀ t ∈ pre, g.getIP (strings.TrimSpace t) = none) →
        g.getIP (strings.TrimSpace tok) = some ip →
        g.resolve proxy req "" = net.IP.String ip ∧
          ∀ post1, g.scanForwardedIPs (pre ++ tok :: post1) "" = net.IP.String ip) ∧
    ((∀ t ∈ strings.Split (g.sourceValue proxy req) ',',
        g.getIP (strings.TrimSpace t) = none) → g.resolve proxy req "" = "") ∧
    ((∃ pre tok post ip,
        strings.Split (g.sourceValue proxy req) ',' = pre ++ tok :: post ∧
        (∀ t ∈ pre, g.getIP (strings.TrimSpace t) = none) ∧
        g.getIP (strings.TrimSpace tok) = some ip) ∨
      (∀ t ∈ strings.Split (g.sourceValue proxy req) ',',
        g.getIP (strings.TrimSpace t) = none)) := by
  refine ⟨?_, ?_, GetRealIP.first_valid_split g _⟩
  · intro pre tok post ip hs hpre htok
    refine ⟨?_, fun post1 => GetRealIP.scanForwardedIPs_first g pre tok post1 ip "" hpre htok⟩
    simp only [GetRealIP.resolve, hT, if_true, hs]
    exact GetRealIP.scanForwardedIPs_first g pre tok post ip "" hpre htok
  · intro hn
    simp only [GetRealIP.resolve, hT, if_true]
    exact GetRealIP.scanForwardedIPs_none g _ "" hn

/-- Witness for C1: the wildcard rule reading `X-Forwarded-For` selects
`203.0.113.5` from `"203.0.113.5, 10.0.0.1"` and `203.0.113.9` from
`"not-an-ip, 203.0.113.9"`. -/
theorem first_valid_candidate_selected_witness :
    ((exPlugin [exRuleXFF]).trusted exRuleXFF
        { Header := exHeader "X-Forwarded-For" "203.0.113.5, 10.0.0.1",
          RemoteAddr := "192.0.2.1:1234" } = true ∧
      (exPlugin [exRuleXFF]).resolve exRuleXFF
        { Header := exHeader "X-Forwarded-For" "203.0.113.5, 10.0.0.1",
          RemoteAddr := "192.0.2.1:1234" } "" = "203.0.113.5") ∧
    ((exPlugin [exRuleXFF]).trusted exRuleXFF
        { Header := exHeader "X-Forwarded-For" "not-an-ip, 203.0.113.9",
          RemoteAddr := "192.0.2.1:1234" } = true ∧
      (exPlugin [exRuleXFF]).resolve exRuleXFF
        { Header := exHeader "X-Forwarded-For" "not-an-ip, 203.0.113.9",
          RemoteAddr := "192.0.2.1:1234" } "" = "203.0.113.9") := by
  refine ⟨⟨by decide, ?_⟩, ⟨by decide, ?_⟩⟩
  · exact ((first_valid_candidate_selected (exPlugin [exRuleXFF]) exRuleXFF
      { Header := exHeader "X-Forwarded-For" "203.0.113.5, 10.0.0.1",
        RemoteAddr := "192.0.2.1:1234" } (by decide)).1
      [] "203.0.113.5" [" 10.0.0.1"] [0, 0, 0, 0, 0, 0, 0, 0, 0, 0, 255, 255, 203, 0, 113, 5]
      (by decide) (by decide) (by decide)).1.trans (by decide)
  · exact ((first_valid_candidate_selected (exPlugin [exRuleXFF]) exRuleXFF
      { Header := exHeader "X-Forwarded-For" "not-an-ip, 203.0.113.9",
        RemoteAddr := "192.0.2.1:1234" } (by decide)).1
      ["not-an-ip"] " 203.0.113.9" [] [0, 0, 0, 0, 0, 0, 0, 0, 0, 0, 255, 255, 203, 0, 113, 9]
      (by decide) (by decide) (by decide)).1.trans (by decide)

/-! ## No winning rule (C2) -/

/-- C2. When every configured rule either fails its trust check or has no
candidate that parses as an IP, the request handed to the next handler is the
request received: every header key maps to what it mapped to before. -/
theorem no_winner_headers_unchanged (g : GetRealIP) (req : Request)
    (h : ∀ proxy ∈ g.proxy, g.trusted proxy req = false ∨
      ∀ t ∈ strings.Split (g.sourceValue proxy req) ',',
        g.getIP (strings.TrimSpace t) = none) :
    g.ServeHTTP req = req ∧ ∀ k, (g.ServeHTTP req).Header k = req.Header k := by
  have key : g.ServeHTTP req = req := by
    unfold GetRealIP.ServeHTTP
    have := GetRealIP.rulesLoop_losers g g.proxy [] req
      (fun p hp => GetRealIP.resolve_loser g p req "" (h p hp))
    simpa [GetRealIP.rulesLoop] using this
  exact ⟨key, fun k => by rw [key]⟩

/-- Witness for C2: a CDN rule whose trust header is absent followed by a
wildcard rule whose source holds no IP. -/
theorem no_winner_headers_unchanged_witness :
    (∀ proxy ∈ (exPlugin [exRuleCDN, exRuleXFF]).proxy,
      (exPlugin [exRuleCDN, exRuleXFF]).trusted proxy
          { Header := exHeader "X-Forwarded-For" "unknown, not-an-ip",
            RemoteAddr := "192.0.2.1:1234" } = false ∨
        ∀ t ∈ strings.Split ((exPlugin [exRuleCDN, exRuleXFF]).sourceValue proxy
            { Header := exHeader "X-Forwarded-For" "unknown, not-an-ip",
              RemoteAddr := "192.0.2.1:1234" }) ',',
          (exPlugin [exRuleCDN, exRuleXFF]).getIP (strings.TrimSpace t) = none) ∧
    (exPlugin [exRuleCDN, exRuleXFF]).ServeHTTP
        { Header := exHeader "X-Forwarded-For" "unknown, not-an-ip",
          RemoteAddr := "192.0.2.1:1234" } =
      { Header := exHeader "X-Forwarded-For" "unknown, not-an-ip",
        RemoteAddr := "192.0.2.1:1234" } :=
  ⟨by decide, (no_winner_headers_unchanged _ _ (by decide)).1⟩

/-! ## The trust check (C3, C4) -/

/-- C3. The trust check of line 66 succeeds exactly when the rule's
`ProxyHeadername` is `"*"` or the request's value for that header (as
`Header.Get` reads it) equals `ProxyHeadervalue`; a wildcard rule is trusted
on every request. -/
theorem trust_check_iff (g : GetRealIP) (proxy : Proxy) (req : Request) :
    (g.trusted proxy req = true ↔
      proxy.ProxyHeadername = "*" ∨
        req.Header.Get proxy.ProxyHeadername = proxy.ProxyHeadervalue) ∧
    (proxy.ProxyHeadername = "*" → ∀ req1 : Request, g.trusted proxy req1 = true) := by
  constructor
  · simp [GetRealIP.trusted]
  · intro hw req1
    simp [GetRealIP.trusted, hw]

/-- C4, as stated, fails: a non-wildcard rule configured with the empty
`ProxyHeadervalue` is trusted on a request that does not carry its header
(the absent header reads as `""`, which equals the configured value), and the
rule then rewrites `X-Real-Ip`. -/
theorem absent_trust_header_empty_value_matches :
    exRuleEmptyValue.ProxyHeadername ≠ "*" ∧
    exNoHeader (textproto.CanonicalMIMEHeaderKey exRuleEmptyValue.ProxyHeadername) = none ∧
    (exPlugin [exRuleEmptyValue]).trusted exRuleEmptyValue
      { Header := exNoHeader, RemoteAddr := "198.51.100.7:54321" } = true ∧
    ((exPlugin [exRuleEmptyValue]).ServeHTTP
      { Header := exNoHeader, RemoteAddr := "198.51.100.7:54321" }).Header "X-Real-Ip" =
        some ["198.51.100.7"] := by
  decide

/-- C4 (amended). For a non-wildcard rule whose configured `ProxyHeadervalue`
is not empty and a request that does not carry the rule's trust header, the
header reads as the empty string, the trust check fails, the rule leaves
`realIPStr` empty, and the loop goes on to the remaining rules as if the rule
were not there. -/
theorem absent_trust_header_fails (g : GetRealIP) (proxy : Proxy) (rest : List Proxy)
    (req : Request) (hw : proxy.ProxyHeadername ≠ "*")
    (habs : req.Header (textproto.CanonicalMIMEHeaderKey proxy.ProxyHeadername) = none)
    (hv : proxy.ProxyHeadervalue ≠ "") :
    req.Header.Get proxy.ProxyHeadername = "" ∧
    g.trusted proxy req = false ∧
    g.resolve proxy req "" = "" ∧
    g.rulesLoop (proxy :: rest) "" req = g.rulesLoop rest "" req := by
  have hget : req.Header.Get proxy.ProxyHeadername = "" := by
    simp [http.Header.Get, habs]
  have ht : g.trusted proxy req = false := by
    simp only [GetRealIP.trusted, hget]
    simp [hw, Ne.symm hv]
  have hr := GetRealIP.resolve_untrusted g proxy req "" ht
  exact ⟨hget, ht, hr, GetRealIP.rulesLoop_skip g proxy rest req hr⟩

/-- Witness for C4 (amended): the CDN rule on a request without headers. -/
theorem absent_trust_header_fails_witness :
    (exRuleCDN.ProxyHeadername ≠ "*" ∧
      exNoHeader (textproto.CanonicalMIMEHeaderKey exRuleCDN.ProxyHeadername) = none ∧
      exRuleCDN.ProxyHeadervalue ≠ "") ∧
    (exPlugin [exRuleCDN, exRulePeer]).trusted exRuleCDN
      { Header := exNoHeader, RemoteAddr := "198.51.100.7:54321" } = false :=
  ⟨by decide,
    (absent_trust_header_fails (exPlugin [exRuleCDN, exRulePeer]) exRuleCDN [exRulePeer]
      { Header := exNoHeader, RemoteAddr := "198.51.100.7:54321" }
      (by decide) (by decide) (by decide)).2.1⟩

/-! ## The peer address as source (C5) -/

/-- C5, as stated, fails for an IPv6 peer written `<ip>:<port>` without
brackets: `::1` is a valid IP, but on the peer address `::1:8080`
`net.SplitHostPort` reports too many colons, line 72 keeps the empty host, and
the wildcard rule reading `RemoteAddr` resolves nothing and sets no
`X-Real-Ip`. -/
theorem bare_ipv6_peer_resolves_nothing :
    ((exPlugin [exRulePeer]).getIP "::1").isSome = true ∧
    exRequestBareV6.RemoteAddr = "::1" ++ ":" ++ "8080" ∧
    (exPlugin [exRulePeer]).trusted exRulePeer exRequestBareV6 = true ∧
    (exPlugin [exRulePeer]).sourceValue exRulePeer exRequestBareV6 = "" ∧
    (exPlugin [exRulePeer]).resolve exRulePeer exRequestBareV6 "" = "" ∧
    ((exPlugin [exRulePeer]).ServeHTTP exRequestBareV6).Header "X-Real-Ip" = none := by
  decide

/-- C5 (amended). For a matched rule with `RealIP = "RemoteAddr"` and a peer
address `<ip>:<port>` in which `<ip>` is a valid IPv4 address in dotted
decimal and `<port>` holds no colon or bracket, the raw value is `<ip>`, the
resolved IP is `<ip>` itself (which is its own canonical text), and the raw
value is the same whatever headers the request carries. -/
theorem peer_address_port_stripped (g : GetRealIP) (proxy : Proxy) (req : Request)
    (a p : String) (ip : net.IP)
    (hsrc : proxy.RealIP = remoteAddr) (ht : g.trusted proxy req = true)
    (hpeer : req.RemoteAddr = a ++ ":" ++ p)
    (ha : net.ParseIP a = some ip) (ha4 : ':' ∉ a.data)
    (hp : ∀ c ∈ p.data, c ≠ ':' ∧ c ≠ '[' ∧ c ≠ ']') :
    g.sourceValue proxy req = a ∧
    g.resolve proxy req "" = a ∧
    net.IP.String ip = a ∧
    ∀ h1 : http.Header, g.sourceValue proxy { req with Header := h1 } = a := by
  obtain ⟨htext, hchars⟩ := net.ParseIP_v4_text a ip ha ha4
  have hplain := fun c hc => netip.digit_or_dot_plain c (hchars c hc)
  have hsplit : net.SplitHostPort (a ++ ":" ++ p) = (a, p, false) := by
    have := net.splitHostPortChars_host_port a.data p.data
      (fun c hc => ⟨(hplain c hc).1, (hplain c hc).2.1, (hplain c hc).2.2.1⟩) hp
    have hd : (a ++ ":" ++ p).data = a.data ++ ':' :: p.data := by simp
    simp only [net.SplitHostPort, hd, this]
  have hsv : ∀ h1 : http.Header, g.sourceValue proxy { req with Header := h1 } = a := by
    intro h1
    simp only [GetRealIP.sourceValue, hsrc, if_true, hpeer, hsplit]
  have hsv0 : g.sourceValue proxy req = a := hsv req.Header
  refine ⟨hsv0, ?_, htext, hsv⟩
  have htoks : strings.Split a ',' = [a] := by
    simp [strings.Split, strings.splitChars_no_sep ',' a.data
      (fun h => (hplain _ h).2.2.2.1 rfl)]
  have htrim : strings.TrimSpace a = a := by
    simp [strings.TrimSpace, strings.trimChars_no_space a.data
      (fun c hc => (hplain c hc).2.2.2.2)]
  simp only [GetRealIP.resolve, ht, if_true, hsv0, htoks, GetRealIP.scanForwardedIPs, htrim,
    GetRealIP.getIP_v4_text g a ha4, ha, htext]

/-- Witness for C5 (amended): the peer `198.51.100.7:54321` resolves to
`198.51.100.7`, although the request carries a header named `RemoteAddr`
with another value. -/
theorem peer_address_port_stripped_witness :
    ((exPlugin [exRulePeer]).trusted exRulePeer exRequestPeer = true ∧
      net.ParseIP "198.51.100.7" =
        some [0, 0, 0, 0, 0, 0, 0, 0, 0, 0, 255, 255, 198, 51, 100, 7]) ∧
    (exPlugin [exRulePeer]).resolve exRulePeer exRequestPeer "" = "198.51.100.7" :=
  ⟨by decide,
    (peer_address_port_stripped (exPlugin [exRulePeer]) exRulePeer exRequestPeer
      "198.51.100.7" "54321" [0, 0, 0, 0, 0, 0, 0, 0, 0, 0, 255, 255, 198, 51, 100, 7]
      (by decide) (by decide) (by decide) (by decide) (by decide) (by decide)).2.1⟩

/-! ## A peer address without a port (C6) -/

/-- C6 at the failing input: for the wildcard rule with `RealIP = "RemoteAddr"`
and the bare peer address `"198.51.100.7"`, `net.SplitHostPort` reports a
missing port and line 72 keeps its empty host, so the raw value is `""`, the
rule yields nothing and the request goes on unchanged, with no `X-Real-Ip`;
`getIP` on the same text falls back to the whole text and parses it. -/
theorem bare_peer_address_yields_nothing :
    (exPlugin [exRulePeer]).trusted exRulePeer
      { Header := exNoHeader, RemoteAddr := "198.51.100.7" } = true ∧
    (exPlugin [exRulePeer]).sourceValue exRulePeer
      { Header := exNoHeader, RemoteAddr := "198.51.100.7" } = "" ∧
    (exPlugin [exRulePeer]).resolve exRulePeer
      { Header := exNoHeader, RemoteAddr := "198.51.100.7" } "" = "" ∧
    ((exPlugin [exRulePeer]).ServeHTTP
      { Header := exNoHeader, RemoteAddr := "198.51.100.7" }).Header "X-Real-Ip" = none ∧
    ((exPlugin [exRulePeer]).getIP "198.51.100.7").map net.IP.String =
      some "198.51.100.7" := by
  decide

/-! ## The rewrite of the winning rule (C7, C8) -/

/-- C7. When rule `proxy` is the first rule of the list that passes its trust
check and has a candidate that parses, with `ip` its first such candidate, the
headers handed on hold exactly the text of `ip` under `X-Real-Ip`, under
`X-Forwarded-For` if the rule has `OverwriteXFF` (the previous chain is
replaced, the entry is the single value), and under the header named
`RemoteAddr` if the rule has `OverwriteRA`. -/
theorem winner_sets_headers (g : GetRealIP) (pre : List Proxy) (proxy : Proxy)
    (post : List Proxy) (req : Request) (ip : net.IP)
    (hrules : g.proxy = pre ++ proxy :: post)
    (hpre : ∀ p ∈ pre, g.trusted p req = false ∨
      ∀ t ∈ strings.Split (g.sourceValue p req) ',', g.getIP (strings.TrimSpace t) = none)
    (ht : g.trusted proxy req = true)
    (hip : (strings.Split (g.sourceValue proxy req) ',').findSome?
      (fun t => g.getIP (strings.TrimSpace t)) = some ip) :
    (g.ServeHTTP req).Header.Get xRealIP = net.IP.String ip ∧
    (g.ServeHTTP req).Header "X-Real-Ip" = some [net.IP.String ip] ∧
    (proxy.OverwriteXFF = true →
      (g.ServeHTTP req).Header.Get xForwardedFor = net.IP.String ip ∧
      (g.ServeHTTP req).Header "X-Forwarded-For" = some [net.IP.String ip]) ∧
    (proxy.OverwriteRA = true →
      (g.ServeHTTP req).Header.Get remoteAddr = net.IP.String ip ∧
      (g.ServeHTTP req).Header "Remoteaddr" = some [net.IP.String ip]) := by
  have key : g.ServeHTTP req =
      { req with Header := g.rewrite proxy (net.IP.String ip) req.Header } := by
    unfold GetRealIP.ServeHTTP
    rw [hrules]
    exact GetRealIP.rulesLoop_first_winner g pre proxy post req ip hpre ht hip
  rw [key]
  refine ⟨?_, ?_, ?_, ?_⟩
  · simp [http.Header.Get, canonical_xRealIP, GetRealIP.rewrite_apply]
  · simp [GetRealIP.rewrite_apply]
  · intro hx
    simp [http.Header.Get, canonical_xForwardedFor, GetRealIP.rewrite_apply, hx]
  · intro hr
    simp [http.Header.Get, canonical_remoteAddr, GetRealIP.rewrite_apply, hr]

/-- Witness for C7: the CDN rule, trusted and overwriting both headers, wins
after nothing, on a request carrying an older `X-Forwarded-For` chain. -/
theorem winner_sets_headers_witness :
    ((exPlugin [exRuleCDN]).ServeHTTP
      { Header := fun k =>
          if k = "X-From-Cdn" then some ["cdn-1"]
          else if k = "Cf-Connecting-Ip" then some ["203.0.113.5:443"]
          else if k = "X-Forwarded-For" then some ["10.9.8.7, 10.0.0.1"]
          else none,
        RemoteAddr := "192.0.2.1:1234" }).Header "X-Forwarded-For" =
      some [net.IP.String [0, 0, 0, 0, 0, 0, 0, 0, 0, 0, 255, 255, 203, 0, 113, 5]] :=
  ((winner_sets_headers (exPlugin [exRuleCDN]) [] exRuleCDN []
      { Header := fun k =>
          if k = "X-From-Cdn" then some ["cdn-1"]
          else if k = "Cf-Connecting-Ip" then some ["203.0.113.5:443"]
          else if k = "X-Forwarded-For" then some ["10.9.8.7, 10.0.0.1"]
          else none,
        RemoteAddr := "192.0.2.1:1234" }
      [0, 0, 0, 0, 0, 0, 0, 0, 0, 0, 255, 255, 203, 0, 113, 5]
      (by decide) (by decide) (by decide) (by decide)).2.2.1 (by decide)).2

/-- C8. When the winning rule has `OverwriteXFF = false` and
`OverwriteRA = false`, the headers handed on are the received headers with the
single entry `X-Real-Ip` set: every other key, `X-Forwarded-For` and the
header named `RemoteAddr` included, maps to what it mapped to before, and the
peer address is untouched. -/
theorem winner_without_overwrite_sets_only_xRealIP (g : GetRealIP) (pre : List Proxy)
    (proxy : Proxy) (post : List Proxy) (req : Request) (ip : net.IP)
    (hrules : g.proxy = pre ++ proxy :: post)
    (hpre : ∀ p ∈ pre, g.trusted p req = false ∨
      ∀ t ∈ strings.Split (g.sourceValue p req) ',', g.getIP (strings.TrimSpace t) = none)
    (ht : g.trusted proxy req = true)
    (hip : (strings.Split (g.sourceValue proxy req) ',').findSome?
      (fun t => g.getIP (strings.TrimSpace t)) = some ip)
    (hxff : proxy.OverwriteXFF = false) (hra : proxy.OverwriteRA = false) :
    (∀ k, k ≠ "X-Real-Ip" → (g.ServeHTTP req).Header k = req.Header k) ∧
    (g.ServeHTTP req).Header "X-Real-Ip" = some [net.IP.String ip] ∧
    (g.ServeHTTP req).Header.Get xForwardedFor = req.Header.Get xForwardedFor ∧
    (g.ServeHTTP req).Header.Get remoteAddr = req.Header.Get remoteAddr ∧
    (g.ServeHTTP req).RemoteAddr = req.RemoteAddr := by
  have key : g.ServeHTTP req =
      { req with Header := g.rewrite proxy (net.IP.String ip) req.Header } := by
    unfold GetRealIP.ServeHTTP
    rw [hrules]
    exact GetRealIP.rulesLoop_first_winner g pre proxy post req ip hpre ht hip
  rw [key]
  refine ⟨?_, ?_, ?_, ?_, rfl⟩
  · intro k hk
    simp [GetRealIP.rewrite_apply, hk, hxff, hra]
  · simp [GetRealIP.rewrite_apply]
  · simp [http.Header.Get, canonical_xForwardedFor, GetRealIP.rewrite_apply, hxff]
  · simp [http.Header.Get, canonical_remoteAddr, GetRealIP.rewrite_apply, hra]

/-- Witness for C8: the wildcard rule without overwrite flags leaves the
received `X-Forwarded-For` chain in place. -/
theorem winner_without_overwrite_sets_only_xRealIP_witness :
    ((exPlugin [exRuleCDN, exRuleXFF]).ServeHTTP
      { Header := exHeader "X-Forwarded-For" "203.0.113.5, 10.0.0.1",
        RemoteAddr := "192.0.2.1:1234" }).Header "X-Forwarded-For" =
      some ["203.0.113.5, 10.0.0.1"] :=
  ((winner_without_overwrite_sets_only_xRealIP (exPlugin [exRuleCDN, exRuleXFF]) [exRuleCDN]
      exRuleXFF []
      { Header := exHeader "X-Forwarded-For" "203.0.113.5, 10.0.0.1",
        RemoteAddr := "192.0.2.1:1234" }
      [0, 0, 0, 0, 0, 0, 0, 0, 0, 0, 255, 255, 203, 0, 113, 5]
      (by decide) (by decide) (by decide) (by decide) (by decide) (by decide)).1
    "X-Forwarded-For" (by decide)).trans (by decide)

/-! ## A rule that is not trusted has no effect (C9) -/

/-- C9. Prepending to the rule list a rule whose trust check fails on the
request does not change the request handed on; in particular with two rules,
the first untrusted and the second trusted with a parsable candidate, the
result is that of the second rule alone: the received request with the second
rule's writes for the second rule's candidate. -/
theorem untrusted_rule_prepended_no_effect (g : GetRealIP) (r : Proxy) (req : Request)
    (h : g.trusted r req = false) :
    GetRealIP.ServeHTTP { g with proxy := r :: g.proxy } req = g.ServeHTTP req ∧
    ∀ (r2 : Proxy) (ip : net.IP), g.trusted r2 req = true →
      (strings.Split (g.sourceValue r2 req) ',').findSome?
        (fun t => g.getIP (strings.TrimSpace t)) = some ip →
      GetRealIP.ServeHTTP { g with proxy := [r, r2] } req =
          GetRealIP.ServeHTTP { g with proxy := [r2] } req ∧
        GetRealIP.ServeHTTP { g with proxy := [r, r2] } req =
          { req with Header := g.rewrite r2 (net.IP.String ip) req.Header } := by
  have hskip : ∀ rest, g.rulesLoop (r :: rest) "" req = g.rulesLoop rest "" req :=
    fun rest => GetRealIP.rulesLoop_skip g r rest req
      (GetRealIP.resolve_untrusted g r req "" h)
  constructor
  · unfold GetRealIP.ServeHTTP
    rw [GetRealIP.rulesLoop_receiver _ g]
    exact hskip g.proxy
  · intro r2 ip ht hip
    have h2 : g.rulesLoop [r2] "" req =
        { req with Header := g.rewrite r2 (net.IP.String ip) req.Header } :=
      GetRealIP.rulesLoop_first_winner g [] r2 [] req ip (by simp) ht hip
    constructor
    · unfold GetRealIP.ServeHTTP
      exact (GetRealIP.rulesLoop_receiver _ g _ _ _).trans
        ((hskip [r2]).trans (GetRealIP.rulesLoop_receiver g _ _ _ _))
    · unfold GetRealIP.ServeHTTP
      rw [GetRealIP.rulesLoop_receiver _ g]
      exact (hskip [r2]).trans h2

/-- Witness for C9: the CDN rule, not trusted on a request without its marker
header, in front of the wildcard rule. -/
theorem untrusted_rule_prepended_no_effect_witness :
    (exPlugin [exRuleXFF]).trusted exRuleCDN
        { Header := exHeader "X-Forwarded-For" "203.0.113.5, 10.0.0.1",
          RemoteAddr := "192.0.2.1:1234" } = false ∧
    GetRealIP.ServeHTTP { exPlugin [exRuleXFF] with proxy := [exRuleCDN, exRuleXFF] }
        { Header := exHeader "X-Forwarded-For" "203.0.113.5, 10.0.0.1",
          RemoteAddr := "192.0.2.1:1234" } =
      (exPlugin [exRuleXFF]).ServeHTTP
        { Header := exHeader "X-Forwarded-For" "203.0.113.5, 10.0.0.1",
          RemoteAddr := "192.0.2.1:1234" } :=
  ⟨by decide, (untrusted_rule_prepended_no_effect (exPlugin [exRuleXFF]) exRuleCDN
      { Header := exHeader "X-Forwarded-For" "203.0.113.5, 10.0.0.1",
        RemoteAddr := "192.0.2.1:1234" } (by decide)).1⟩

/-! ## Processing a request twice (C10) -/

/-- The writes of lines 89-97 only touch the three canonical keys. -/
theorem GetRealIP.rewrite_other_keys (g : GetRealIP) (proxy : Proxy) (v : String)
    (h : http.Header) (k : String)
    (hk : k ∉ ["X-Real-Ip", "X-Forwarded-For", "Remoteaddr"]) :
    g.rewrite proxy v h k = h k := by
  simp only [List.mem_cons, List.mem_singleton, List.not_mem_nil, or_false, not_or] at hk
  simp [GetRealIP.rewrite_apply, hk.1, hk.2.1, hk.2.2]

/-- Writing the same value for the same rule twice is writing it once. -/
theorem GetRealIP.rewrite_rewrite (g : GetRealIP) (proxy : Proxy) (v : String)
    (h : http.Header) : g.rewrite proxy v (g.rewrite proxy v h) = g.rewrite proxy v h := by
  funext k
  simp only [GetRealIP.rewrite_apply]
  split
  · rfl
  · split
    · rfl
    · split <;> rfl

theorem GetRealIP.trusted_congr (g : GetRealIP) (p : Proxy) (req req1 : Request)
    (hk : textproto.CanonicalMIMEHeaderKey p.ProxyHeadername ∉
      ["X-Real-Ip", "X-Forwarded-For", "Remoteaddr"])
    (hag : ∀ k, k ∉ ["X-Real-Ip", "X-Forwarded-For", "Remoteaddr"] →
      req1.Header k = req.Header k) :
    g.trusted p req1 = g.trusted p req := by
  simp only [GetRealIP.trusted, http.Header.Get, hag _ hk]

theorem GetRealIP.sourceValue_congr (g : GetRealIP) (p : Proxy) (req req1 : Request)
    (hk : p.RealIP = remoteAddr ∨ textproto.CanonicalMIMEHeaderKey p.RealIP ∉
      ["X-Real-Ip", "X-Forwarded-For", "Remoteaddr"])
    (hag : ∀ k, k ∉ ["X-Real-Ip", "X-Forwarded-For", "Remoteaddr"] →
      req1.Header k = req.Header k)
    (hpeer : req1.RemoteAddr = req.RemoteAddr) :
    g.sourceValue p req1 = g.sourceValue p req := by
  unfold GetRealIP.sourceValue
  by_cases hs : p.RealIP = remoteAddr
  · simp [hs, hpeer]
  · rcases hk with hk | hk
    · exact absurd hk hs
    · simp only [hs, if_false, http.Header.Get, hag _ hk]

/-- Two requests on which every rule resolves alike are either both passed on
untouched or both rewritten by the same rule with the same value. -/
theorem GetRealIP.rulesLoop_congr (g : GetRealIP) (rules : List Proxy) (req req1 : Request)
    (h : ∀ p ∈ rules, g.resolve p req1 "" = g.resolve p req "") :
    (g.rulesLoop rules "" req = req ∧ g.rulesLoop rules "" req1 = req1) ∨
    ∃ p v, g.rulesLoop rules "" req = { req with Header := g.rewrite p v req.Header } ∧
      g.rulesLoop rules "" req1 = { req1 with Header := g.rewrite p v req1.Header } := by
  induction rules with
  | nil => exact Or.inl ⟨rfl, rfl⟩
  | cons p ps ih =>
    have hp := h p (by simp)
    by_cases hv : g.resolve p req "" = ""
    · rw [GetRealIP.rulesLoop_skip g p ps req hv,
        GetRealIP.rulesLoop_skip g p ps req1 (hp.trans hv)]
      exact ih (fun q hq => h q (by simp [hq]))
    · exact Or.inr ⟨p, g.resolve p req "",
        GetRealIP.rulesLoop_win g p ps req _ rfl hv,
        GetRealIP.rulesLoop_win g p ps req1 _ hp hv⟩


/-- A non-empty `realIPStr` left by the candidate scan is the canonical text
of a well-formed address. -/
theorem GetRealIP.scanForwardedIPs_ne_empty (g : GetRealIP) (toks : List String)
    (h : g.scanForwardedIPs toks "" ≠ "") :
    ∃ ip : net.IP, g.scanForwardedIPs toks "" = net.IP.String ip ∧ ip.length = 16 ∧
      ∀ x ∈ ip, x < 256 := by
  induction toks with
  | nil => exact absurd rfl h
  | cons t ts ih =>
    rw [GetRealIP.scanForwardedIPs] at h ⊢
    cases hg : g.getIP (strings.TrimSpace t) with
    | none =>
      simp only [hg] at h ⊢
      exact ih h
    | some ip =>
      obtain ⟨h1, h2⟩ := GetRealIP.getIP_bytes g _ ip hg
      exact ⟨ip, rfl, h1, h2⟩

theorem GetRealIP.resolve_ne_empty (g : GetRealIP) (p : Proxy) (req : Request)
    (h : g.resolve p req "" ≠ "") :
    ∃ ip : net.IP, g.resolve p req "" = net.IP.String ip ∧ ip.length = 16 ∧
      ∀ x ∈ ip, x < 256 := by
  unfold GetRealIP.resolve at h ⊢
  split
  · rename_i ht
    simp only [ht, if_true] at h
    exact GetRealIP.scanForwardedIPs_ne_empty g _ h
  · rename_i ht
    simp only [ht] at h
    exact absurd rfl h

/-- The rule loop either leaves the request alone, every rule resolving
nothing, or applies the writes of the first rule that resolves a value. -/
theorem GetRealIP.rulesLoop_cases (g : GetRealIP) (rules : List Proxy) (req : Request) :
    g.rulesLoop rules "" req = req ∨
    ∃ pre p post, rules = pre ++ p :: post ∧ (∀ q ∈ pre, g.resolve q req "" = "") ∧
      g.resolve p req "" ≠ "" ∧
      g.rulesLoop rules "" req =
        { req with Header := g.rewrite p (g.resolve p req "") req.Header } := by
  induction rules with
  | nil => exact Or.inl rfl
  | cons r rs ih =>
    by_cases hr : g.resolve r req "" = ""
    · rw [GetRealIP.rulesLoop_skip g r rs req hr]
      rcases ih with h | ⟨pre, p, post, h1, h2, h3, h4⟩
      · exact Or.inl h
      · refine Or.inr ⟨r :: pre, p, post, by simp [h1], ?_, h3, h4⟩
        intro q hq
        rcases List.mem_cons.1 hq with rfl | hq
        · exact hr
        · exact h2 q hq
    · exact Or.inr ⟨[], r, rs, rfl, by simp, hr,
        GetRealIP.rulesLoop_win g r rs req _ rfl hr⟩

theorem GetRealIP.rewrite_Get_xRealIP (g : GetRealIP) (p : Proxy) (v : String)
    (h : http.Header) : (g.rewrite p v h).Get xRealIP = v := by
  simp [http.Header.Get, canonical_xRealIP, GetRealIP.rewrite_apply]

/-- After the writes of a winning rule with value `v`, the canonical text of a
well-formed address, a rule whose trust header is none of the written headers
resolves what it resolved before, or `v`. -/
theorem GetRealIP.resolve_after_rewrite (g : GetRealIP) (p q : Proxy) (req : Request)
    (ip : net.IP) (hlen : ip.length = 16) (hb : ∀ x ∈ ip, x < 256)
    (hq : textproto.CanonicalMIMEHeaderKey q.ProxyHeadername ∉
      ["X-Real-Ip", "X-Forwarded-For", "Remoteaddr"]) :
    g.resolve q { req with Header := g.rewrite p (net.IP.String ip) req.Header } "" =
        g.resolve q req "" ∨
      g.resolve q { req with Header := g.rewrite p (net.IP.String ip) req.Header } "" =
        net.IP.String ip := by
  have ht : g.trusted q { req with Header := g.rewrite p (net.IP.String ip) req.Header } =
      g.trusted q req :=
    GetRealIP.trusted_congr g q req _ hq
      (fun k hk => GetRealIP.rewrite_other_keys g p _ req.Header k hk)
  cases htq : g.trusted q req with
  | false =>
    left
    rw [GetRealIP.resolve_untrusted g q _ "" (ht.trans htq),
      GetRealIP.resolve_untrusted g q req "" htq]
  | true =>
    have hsrc : g.sourceValue q { req with Header := g.rewrite p (net.IP.String ip) req.Header }
          = g.sourceValue q req ∨
        g.sourceValue q { req with Header := g.rewrite p (net.IP.String ip) req.Header }
          = net.IP.String ip := by
      unfold GetRealIP.sourceValue
      by_cases hs : q.RealIP = remoteAddr
      · left
        simp [hs]
      · simp only [hs, if_false, http.Header.Get, GetRealIP.rewrite_apply]
        split_ifs
        · right; rfl
        · right; rfl
        · right; rfl
        · left; rfl
    rcases hsrc with hsrc | hsrc
    · left
      simp only [GetRealIP.resolve, ht, hsrc]
    · right
      obtain ⟨h1, h2, h3⟩ := GetRealIP.getIP_String g ip hlen hb
      simp only [GetRealIP.resolve, ht, htq, if_true, hsrc, h1, GetRealIP.scanForwardedIPs, h2,
        h3]


/-- A rule list in which a rule resolves `v` and every rule before it resolves
nothing or `v` sets `X-Real-Ip` to `v`. -/
theorem GetRealIP.rulesLoop_sets_xRealIP (g : GetRealIP) (pre : List Proxy) (p : Proxy)
    (post : List Proxy) (req : Request) (v : String) (hv : v ≠ "")
    (hpre : ∀ q ∈ pre, g.resolve q req "" = "" ∨ g.resolve q req "" = v)
    (hp : g.resolve p req "" = v) :
    (g.rulesLoop (pre ++ p :: post) "" req).Header.Get xRealIP = v := by
  induction pre with
  | nil =>
    rw [List.nil_append, GetRealIP.rulesLoop_win g p post req v hp hv]
    exact GetRealIP.rewrite_Get_xRealIP g p v req.Header
  | cons q qs ih =>
    rw [List.cons_append]
    rcases hpre q (by simp) with h | h
    · rw [GetRealIP.rulesLoop_skip g q _ req h]
      exact ih (fun r hr => hpre r (by simp [hr]))
    · rw [GetRealIP.rulesLoop_win g q _ req v h hv]
      exact GetRealIP.rewrite_Get_xRealIP g q v req.Header

/-- When no rule's trust header and no rule's real-IP source header is one of
the three headers the plugin writes (`X-Real-Ip`, `X-Forwarded-For`, and
`RemoteAddr` stored as `Remoteaddr`; the source `"RemoteAddr"` itself reads
the peer address and is allowed), processing the processed request again with
the same rules and peer address changes nothing at all. -/
theorem GetRealIP.ServeHTTP_ServeHTTP (g : GetRealIP) (req : Request)
    (hrules : ∀ p ∈ g.proxy,
      textproto.CanonicalMIMEHeaderKey p.ProxyHeadername ∉
        ["X-Real-Ip", "X-Forwarded-For", "Remoteaddr"] ∧
      (p.RealIP = remoteAddr ∨ textproto.CanonicalMIMEHeaderKey p.RealIP ∉
        ["X-Real-Ip", "X-Forwarded-For", "Remoteaddr"])) :
    g.ServeHTTP (g.ServeHTTP req) = g.ServeHTTP req ∧
    (g.ServeHTTP (g.ServeHTTP req)).Header.Get xRealIP =
      (g.ServeHTTP req).Header.Get xRealIP := by
  have main : ∀ req1 : Request,
      (∀ k, k ∉ ["X-Real-Ip", "X-Forwarded-For", "Remoteaddr"] →
        req1.Header k = req.Header k) →
      req1.RemoteAddr = req.RemoteAddr →
      (g.ServeHTTP req = req ∧ g.ServeHTTP req1 = req1) ∨
      ∃ p v, g.ServeHTTP req = { req with Header := g.rewrite p v req.Header } ∧
        g.ServeHTTP req1 = { req1 with Header := g.rewrite p v req1.Header } := by
    intro req1 hag hpeer
    unfold GetRealIP.ServeHTTP
    apply GetRealIP.rulesLoop_congr
    intro p hp
    have ht := GetRealIP.trusted_congr g p req req1 (hrules p hp).1 hag
    have hs := GetRealIP.sourceValue_congr g p req req1 (hrules p hp).2 hag hpeer
    simp only [GetRealIP.resolve, ht, hs]
  have key : g.ServeHTTP (g.ServeHTTP req) = g.ServeHTTP req := by
    rcases main req (fun _ _ => rfl) rfl with ⟨h0, _⟩ | ⟨p, v, h1, _⟩
    · rw [h0, h0]
    · have hag : ∀ k, k ∉ ["X-Real-Ip", "X-Forwarded-For", "Remoteaddr"] →
          (g.ServeHTTP req).Header k = req.Header k := by
        intro k hk
        rw [h1]
        exact GetRealIP.rewrite_other_keys g p v req.Header k hk
      have hpeer : (g.ServeHTTP req).RemoteAddr = req.RemoteAddr := by rw [h1]
      rcases main (g.ServeHTTP req) hag hpeer with ⟨h0, _⟩ | ⟨q, w, h2, h3⟩
      · rw [h0, h0]
      · have hqw : g.rewrite q w req.Header = g.rewrite p v req.Header := by
          have := h2.symm.trans h1
          exact congrArg Request.Header this
        rw [h3, h1]
        simp only
        rw [← hqw, GetRealIP.rewrite_rewrite]
  exact ⟨key, by rw [key]⟩

/-- C10, as stated, fails: with a first rule that trusts requests whose
`X-Real-Ip` reads `203.0.113.9` and a wildcard second rule, the first pass
lets the second rule set `X-Real-Ip` to `203.0.113.9`; on the processed
headers the first rule is now trusted and sets `X-Real-Ip` to
`198.51.100.1`, so the second pass yields another `X-Real-Ip`. -/
theorem second_pass_changes_xRealIP :
    ((exPlugin [exRuleTrustRealIP, exRuleXFF]).ServeHTTP exRequestTwoSources).Header.Get
        xRealIP = "203.0.113.9" ∧
    ((exPlugin [exRuleTrustRealIP, exRuleXFF]).ServeHTTP
        ((exPlugin [exRuleTrustRealIP, exRuleXFF]).ServeHTTP exRequestTwoSources)).Header.Get
        xRealIP = "198.51.100.1" ∧
    ((exPlugin [exRuleTrustRealIP, exRuleXFF]).ServeHTTP
        ((exPlugin [exRuleTrustRealIP, exRuleXFF]).ServeHTTP exRequestTwoSources)).Header.Get
        xRealIP ≠
      ((exPlugin [exRuleTrustRealIP, exRuleXFF]).ServeHTTP exRequestTwoSources).Header.Get
        xRealIP := by
  decide

/-- C10 (amended). When no rule's trust header is one of the three headers the
plugin writes (`X-Real-Ip`, `X-Forwarded-For`, and `RemoteAddr` stored as
`Remoteaddr`), processing the already-processed request a second time with the
same rules and peer address yields the same `X-Real-Ip` value as the first
pass: a rule that now reads a rewritten header as its source finds there the
canonical text the first pass wrote, which parses back to the same address. -/
theorem second_pass_same_xRealIP (g : GetRealIP) (req : Request)
    (htrust : ∀ p ∈ g.proxy, textproto.CanonicalMIMEHeaderKey p.ProxyHeadername ∉
      ["X-Real-Ip", "X-Forwarded-For", "Remoteaddr"]) :
    (g.ServeHTTP (g.ServeHTTP req)).Header.Get xRealIP =
      (g.ServeHTTP req).Header.Get xRealIP := by
  unfold GetRealIP.ServeHTTP
  rcases GetRealIP.rulesLoop_cases g g.proxy req with h | ⟨pre, p, post, h1, h2, h3, h4⟩
  · rw [h, h]
  · obtain ⟨ip, hv, hlen, hb⟩ := GetRealIP.resolve_ne_empty g p req h3
    rw [h4, hv]
    have hne : net.IP.String ip ≠ "" := net.IP.String_ne_empty ip
    have hmem : ∀ q ∈ pre ++ p :: post, q ∈ g.proxy := fun q hq => h1 ▸ hq
    have key := GetRealIP.rulesLoop_sets_xRealIP g pre p post
      { req with Header := g.rewrite p (net.IP.String ip) req.Header } (net.IP.String ip) hne
      (fun q hq => by
        rcases GetRealIP.resolve_after_rewrite g p q req ip hlen hb
          (htrust q (hmem q (by simp [hq]))) with h | h
        · exact Or.inl (h.trans (h2 q hq))
        · exact Or.inr h)
      (by
        rcases GetRealIP.resolve_after_rewrite g p p req ip hlen hb
          (htrust p (hmem p (by simp))) with h | h
        · exact h.trans hv
        · exact h)
    rw [h1]
    rw [key]
    exact (GetRealIP.rewrite_Get_xRealIP g p _ req.Header).symm

/-- Witness for C10 (amended): a wildcard rule reading `X-Real-Ip` in front of
the wildcard rule reading `X-Forwarded-For`; the first pass is won by the
second rule, the second pass by the first, with the same value. -/
theorem second_pass_same_xRealIP_witness :
    (∀ p ∈ (exPlugin [exRuleReadRealIP, exRuleXFF]).proxy,
      textproto.CanonicalMIMEHeaderKey p.ProxyHeadername ∉
        ["X-Real-Ip", "X-Forwarded-For", "Remoteaddr"]) ∧
    ((exPlugin [exRuleReadRealIP, exRuleXFF]).ServeHTTP
        ((exPlugin [exRuleReadRealIP, exRuleXFF]).ServeHTTP
          { Header := exHeader "X-Forwarded-For" "203.0.113.5, 10.0.0.1",
            RemoteAddr := "192.0.2.1:1234" })).Header.Get xRealIP =
      ((exPlugin [exRuleReadRealIP, exRuleXFF]).ServeHTTP
          { Header := exHeader "X-Forwarded-For" "203.0.113.5, 10.0.0.1",
            RemoteAddr := "192.0.2.1:1234" }).Header.Get xRealIP :=
  ⟨by decide, second_pass_same_xRealIP (exPlugin [exRuleReadRealIP, exRuleXFF])
      { Header := exHeader "X-Forwarded-For" "203.0.113.5, 10.0.0.1",
        RemoteAddr := "192.0.2.1:1234" } (by decide)⟩

/-! ## Short-circuit and fall-through of the rule loop (C11, C12) -/

/-- C11. When rule `proxy` is the first rule of the list that passes its trust
check and has a candidate that parses, the request handed on is the one
obtained with that rule alone: the received request with the writes of
`proxy` for its first valid candidate. The rules after it are not consulted:
replacing them by any other rules gives the same result. -/
theorem first_winner_short_circuits (g : GetRealIP) (pre : List Proxy) (proxy : Proxy)
    (post : List Proxy) (req : Request) (ip : net.IP)
    (hrules : g.proxy = pre ++ proxy :: post)
    (hpre : ∀ p ∈ pre, g.trusted p req = false ∨
      ∀ t ∈ strings.Split (g.sourceValue p req) ',', g.getIP (strings.TrimSpace t) = none)
    (ht : g.trusted proxy req = true)
    (hip : (strings.Split (g.sourceValue proxy req) ',').findSome?
      (fun t => g.getIP (strings.TrimSpace t)) = some ip) :
    g.ServeHTTP req = GetRealIP.ServeHTTP { g with proxy := [proxy] } req ∧
    g.ServeHTTP req = { req with Header := g.rewrite proxy (net.IP.String ip) req.Header } ∧
    ∀ post1 : List Proxy,
      GetRealIP.ServeHTTP { g with proxy := pre ++ proxy :: post1 } req = g.ServeHTTP req := by
  have hwin : ∀ post1, g.rulesLoop (pre ++ proxy :: post1) "" req =
      { req with Header := g.rewrite proxy (net.IP.String ip) req.Header } :=
    fun post1 => GetRealIP.rulesLoop_first_winner g pre proxy post1 req ip hpre ht hip
  have hall : g.ServeHTTP req =
      { req with Header := g.rewrite proxy (net.IP.String ip) req.Header } := by
    unfold GetRealIP.ServeHTTP
    rw [hrules]
    exact hwin post
  have hone : GetRealIP.ServeHTTP { g with proxy := [proxy] } req =
      { req with Header := g.rewrite proxy (net.IP.String ip) req.Header } := by
    unfold GetRealIP.ServeHTTP
    exact (GetRealIP.rulesLoop_receiver _ g _ _ _).trans
      (GetRealIP.rulesLoop_first_winner g [] proxy [] req ip (by simp) ht hip)
  refine ⟨hall.trans hone.symm, hall, ?_⟩
  intro post1
  rw [hall]
  unfold GetRealIP.ServeHTTP
  exact (GetRealIP.rulesLoop_receiver _ g _ _ _).trans (hwin post1)

/-- Witness for C11: the CDN rule loses, the wildcard rule reading
`X-Forwarded-For` wins, and a third rule that would overwrite everything from
the peer address is never reached. -/
theorem first_winner_short_circuits_witness :
    (exPlugin [exRuleCDN, exRuleXFF, exRulePeerOverwrite]).ServeHTTP
        { Header := exHeader "X-Forwarded-For" "203.0.113.5, 10.0.0.1",
          RemoteAddr := "192.0.2.1:1234" } =
      GetRealIP.ServeHTTP
        { exPlugin [exRuleCDN, exRuleXFF, exRulePeerOverwrite] with proxy := [exRuleXFF] }
        { Header := exHeader "X-Forwarded-For" "203.0.113.5, 10.0.0.1",
          RemoteAddr := "192.0.2.1:1234" } :=
  (first_winner_short_circuits (exPlugin [exRuleCDN, exRuleXFF, exRulePeerOverwrite])
    [exRuleCDN] exRuleXFF [exRulePeerOverwrite]
    { Header := exHeader "X-Forwarded-For" "203.0.113.5, 10.0.0.1",
      RemoteAddr := "192.0.2.1:1234" }
    [0, 0, 0, 0, 0, 0, 0, 0, 0, 0, 255, 255, 203, 0, 113, 5]
    (by decide) (by decide) (by decide) (by decide)).1

/-- C12. A first rule that passes its trust check but has no candidate that
parses as an IP leaves `realIPStr` empty and writes nothing, whatever its
overwrite flags are set to, and the loop goes on: the result is the result of
processing with the remaining rules. -/
theorem trusted_rule_without_ip_falls_through (g : GetRealIP) (r : Proxy) (rest : List Proxy)
    (req : Request) (_ht : g.trusted r req = true)
    (hnone : ∀ t ∈ strings.Split (g.sourceValue r req) ',',
      g.getIP (strings.TrimSpace t) = none) :
    g.resolve r req "" = "" ∧
    ∀ xff ra : Bool,
      GetRealIP.ServeHTTP
          { g with proxy := { r with OverwriteXFF := xff, OverwriteRA := ra } :: rest } req =
        GetRealIP.ServeHTTP { g with proxy := rest } req := by
  refine ⟨GetRealIP.resolve_none g r req "" hnone, ?_⟩
  intro xff ra
  have hres : g.resolve { r with OverwriteXFF := xff, OverwriteRA := ra } req "" = "" :=
    GetRealIP.resolve_none g _ req "" hnone
  unfold GetRealIP.ServeHTTP
  exact (GetRealIP.rulesLoop_receiver _ g _ _ _).trans
    ((GetRealIP.rulesLoop_skip g _ rest req hres).trans
      (GetRealIP.rulesLoop_receiver g _ _ _ _))

/-- Witness for C12: the wildcard rule reading `X-Forwarded-For` finds no
address there, and the rule reading the peer address takes over. -/
theorem trusted_rule_without_ip_falls_through_witness :
    ((exPlugin [exRuleXFF, exRulePeer]).trusted exRuleXFF
        { Header := exHeader "X-Forwarded-For" "unknown, not-an-ip",
          RemoteAddr := "198.51.100.7:54321" } = true ∧
      ∀ t ∈ strings.Split ((exPlugin [exRuleXFF, exRulePeer]).sourceValue exRuleXFF
          { Header := exHeader "X-Forwarded-For" "unknown, not-an-ip",
            RemoteAddr := "198.51.100.7:54321" }) ',',
        (exPlugin [exRuleXFF, exRulePeer]).getIP (strings.TrimSpace t) = none) ∧
    GetRealIP.ServeHTTP
        { exPlugin [exRuleXFF, exRulePeer] with
          proxy := { exRuleXFF with OverwriteXFF := true, OverwriteRA := true } ::
            [exRulePeer] }
        { Header := exHeader "X-Forwarded-For" "unknown, not-an-ip",
          RemoteAddr := "198.51.100.7:54321" } =
      GetRealIP.ServeHTTP { exPlugin [exRuleXFF, exRulePeer] with proxy := [exRulePeer] }
        { Header := exHeader "X-Forwarded-For" "unknown, not-an-ip",
          RemoteAddr := "198.51.100.7:54321" } :=
  ⟨by decide,
    (trusted_rule_without_ip_falls_through (exPlugin [exRuleXFF, exRulePeer]) exRuleXFF
      [exRulePeer]
      { Header := exHeader "X-Forwarded-For" "unknown, not-an-ip",
        RemoteAddr := "198.51.100.7:54321" } (by decide) (by decide)).2 true true⟩

/-! ## Faults and the next handler -/

/-- A write to the nil header map panics and leaves the request as it was. -/
theorem RawRequest.setHeader_nil (req : RawRequest) (key value : String)
    (h : req.Header = none) : req.setHeader key value = .panic req := by
  unfold RawRequest.setHeader
  rw [h]

/-- A write to a non-nil header map completes. -/
theorem RawRequest.setHeader_some (req : RawRequest) (key value : String) (m : http.Header)
    (h : req.Header = some m) :
    req.setHeader key value = .done { req with Header := some (m.Set key value) } := by
  unfold RawRequest.setHeader
  rw [h]

/-- On the nil header map the writes of lines 89-97 panic at the first of
them, whatever the flags, leaving the request as it was. -/
theorem GetRealIP.rewriteRaw_nil (g : GetRealIP) (proxy : Proxy) (v : String)
    (req : RawRequest) (h : req.Header = none) : g.rewriteRaw proxy v req = .panic req := by
  unfold GetRealIP.rewriteRaw
  cases proxy.OverwriteXFF <;> cases proxy.OverwriteRA <;>
    simp [Exec.andThen, RawRequest.setHeader_nil _ _ _ h]

/-- On a non-nil header map the writes of lines 89-97 all complete and give
the map of `rewrite`. -/
theorem GetRealIP.rewriteRaw_some (g : GetRealIP) (proxy : Proxy) (v : String)
    (req : RawRequest) (m : http.Header) (h : req.Header = some m) :
    g.rewriteRaw proxy v req = .done { req with Header := some (g.rewrite proxy v m) } := by
  obtain ⟨hd, ra⟩ := req
  cases h
  unfold GetRealIP.rewriteRaw GetRealIP.rewrite
  cases proxy.OverwriteXFF <;> cases proxy.OverwriteRA <;>
    simp [Exec.andThen, RawRequest.setHeader]

/-- The writes never end in a state other than the ones above: a panic of
the writes means the header map is nil and the request is untouched. -/
theorem GetRealIP.rewriteRaw_panic (g : GetRealIP) (proxy : Proxy) (v : String)
    (req r : RawRequest) (h : g.rewriteRaw proxy v req = .panic r) :
    r = req ∧ req.Header = none := by
  cases hh : req.Header with
  | none =>
    rw [GetRealIP.rewriteRaw_nil g proxy v req hh] at h
    cases h
    exact ⟨rfl, rfl⟩
  | some m =>
    rw [GetRealIP.rewriteRaw_some g proxy v req m hh] at h
    cases h

/-- A panic of the loop means the header map is nil and the request is
untouched. -/
theorem GetRealIP.rulesLoopRaw_panic (g : GetRealIP) (rules : List Proxy) (s : String)
    (req r : RawRequest) (h : g.rulesLoopRaw rules s req = .panic r) :
    r = req ∧ req.Header = none := by
  induction rules generalizing s with
  | nil => simp [GetRealIP.rulesLoopRaw] at h
  | cons proxy rest ih =>
    simp only [GetRealIP.rulesLoopRaw] at h
    split_ifs at h with hne
    · exact GetRealIP.rewriteRaw_panic g proxy _ req r h
    · exact ih _ h

/-- On a nil header map the loop panics at the first rule that resolves an
address. -/
theorem GetRealIP.rulesLoopRaw_nil_winner (g : GetRealIP) (proxy : Proxy) (rest : List Proxy)
    (s : String) (req : RawRequest) (hnil : req.Header = none)
    (hwin : g.resolve proxy req.view s ≠ "") :
    g.rulesLoopRaw (proxy :: rest) s req = .panic req := by
  simp only [GetRealIP.rulesLoopRaw]
  rw [if_pos hwin]
  exact GetRealIP.rewriteRaw_nil g proxy _ req hnil

/-- On a non-nil header map the loop never panics and computes `rulesLoop`. -/
theorem GetRealIP.rulesLoopRaw_raw (g : GetRealIP) (rules : List Proxy) (s : String)
    (req : Request) :
    g.rulesLoopRaw rules s req.raw = .done (g.rulesLoop rules s req).raw := by
  induction rules generalizing s with
  | nil => simp [GetRealIP.rulesLoopRaw, GetRealIP.rulesLoop]
  | cons proxy rest ih =>
    have hv : req.raw.view = req := rfl
    simp only [GetRealIP.rulesLoopRaw, GetRealIP.rulesLoop, hv]
    split_ifs with hne
    · rw [GetRealIP.rewriteRaw_some g proxy _ req.raw req.Header rfl]
      rfl
    · exact ih _

/-- Claim C13 (the code departs from it). The next handler is invoked once
or twice, never zero times. It is invoked exactly once when evaluation
panics, and exactly once when its first invocation returns, whatever
evaluation did. It is invoked twice exactly when evaluation completed and
the first invocation of the next handler panicked: the deferred function
recovers that panic as well and invokes the next handler again. So does the
wildcard `X-Forwarded-For` rule on a request with a valid chain and a next
handler that aborts its first invocation: the next handler runs twice. -/
theorem next_handler_invoked_twice_when_it_panics :
    (∀ (g : GetRealIP) (next : Handler) (req : RawRequest),
      ((g.ServeHTTPRun next req).calls.length = 1 ∨
        (g.ServeHTTPRun next req).calls.length = 2) ∧
      ((∃ r, g.rulesLoopRaw g.proxy "" req = .panic r) →
        (g.ServeHTTPRun next req).calls.length = 1) ∧
      ((∀ r, next.panics 0 r = false) → (g.ServeHTTPRun next req).calls.length = 1) ∧
      ((g.ServeHTTPRun next req).calls.length = 2 ↔
        ∃ r, g.rulesLoopRaw g.proxy "" req = .done r ∧ next.panics 0 r = true)) ∧
    (∀ (g : GetRealIP) (next : Handler) (req : Request),
      (g.ServeHTTPRun next req.raw).calls =
        if next.panics 0 (g.ServeHTTP req).raw then [(g.ServeHTTP req).raw, (g.ServeHTTP req).raw]
        else [(g.ServeHTTP req).raw]) ∧
    ((exPlugin [exRuleXFF]).ServeHTTPRun exNextAborts exRequestRawXFF).calls.length = 2 ∧
    ((exPlugin [exRuleXFF]).ServeHTTPRun exNextAborts exRequestRawXFF).panicked = false ∧
    ((exPlugin [exRuleXFF]).ServeHTTPRun exNextOk exRequestRawXFF).calls.length = 1 := by
  refine ⟨?_, ?_, by decide, by decide, by decide⟩
  · intro g next req
    unfold GetRealIP.ServeHTTPRun
    cases hr : g.rulesLoopRaw g.proxy "" req with
    | panic r => simp
    | done r =>
      cases hp : next.panics 0 r with
      | true =>
        simp only [hp, if_true]
        refine ⟨Or.inr rfl, fun h => ?_, fun h => ?_, fun _ => ⟨r, rfl, hp⟩, fun _ => rfl⟩
        · obtain ⟨r1, h1⟩ := h
          cases h1
        · rw [h r] at hp
          cases hp
      | false =>
        simp only [hp, Bool.false_eq_true, if_false]
        refine ⟨Or.inl rfl, fun _ => rfl, fun _ => rfl, fun h => ?_, fun h => ?_⟩
        · cases h
        · obtain ⟨r1, h1, h2⟩ := h
          cases h1
          rw [hp] at h2
          cases h2
  · intro g next req
    unfold GetRealIP.ServeHTTPRun GetRealIP.ServeHTTP
    rw [GetRealIP.rulesLoopRaw_raw]
    dsimp only
    split_ifs <;> rfl

/-- Claim C14. If the evaluation of the rules panics, the request is at that
moment exactly the request received: its header map is the nil map it came
with, none of the three writes has taken effect, the loop panicked at the
first write of the first rule that resolved an address. The deferred
function then hands this unchanged request to the next handler, once. -/
theorem fault_leaves_request_as_received (g : GetRealIP) (next : Handler)
    (req r : RawRequest) (hfault : g.rulesLoopRaw g.proxy "" req = .panic r) :
    r = req ∧
    (g.ServeHTTPRun next req).calls = [req] ∧
    (∀ k, r.view.Header.Get k = req.view.Header.Get k) ∧
    req.Header = none ∧
    r.view.Header.Get xRealIP = "" ∧
    r.view.Header.Get xForwardedFor = "" ∧
    r.view.Header.Get remoteAddr = "" := by
  obtain ⟨hr, hnil⟩ := GetRealIP.rulesLoopRaw_panic g g.proxy "" req r hfault
  subst hr
  refine ⟨rfl, ?_, fun _ => rfl, hnil, ?_, ?_, ?_⟩
  · unfold GetRealIP.ServeHTTPRun
    rw [hfault]
  all_goals simp [RawRequest.view, hnil, http.Header.Get]

/-- Claim C14 at a concrete input: a wildcard rule reading the peer address
and overwriting both optional headers panics on a request with the nil header
map, and the next handler receives that request unchanged. -/
theorem fault_leaves_request_as_received_witness :
    (exPlugin [exRulePeerOverwrite]).rulesLoopRaw (exPlugin [exRulePeerOverwrite]).proxy ""
        exRequestNilHeader = .panic exRequestNilHeader ∧
    ((exPlugin [exRulePeerOverwrite]).ServeHTTPRun exNextOk exRequestNilHeader).calls =
      [exRequestNilHeader] :=
  have h : (exPlugin [exRulePeerOverwrite]).rulesLoopRaw (exPlugin [exRulePeerOverwrite]).proxy ""
      exRequestNilHeader = .panic exRequestNilHeader :=
    GetRealIP.rulesLoopRaw_nil_winner _ _ _ _ _ rfl (by decide)
  ⟨h, (fault_leaves_request_as_received _ exNextOk _ _ h).2.1⟩

/-! ## Texts accepted as IPv6 addresses, and bracketed host:port texts -/

theorem netip.hexVal_isSome_plain (c : Char) (h : (netip.hexVal c).isSome = true) :
    c ≠ ':' ∧ c ≠ '[' ∧ c ≠ ']' := by
  refine ⟨?_, ?_, ?_⟩ <;> (rintro rfl; revert h; decide)

/-- The hexadecimal reader of `parseIPv6` consumes hexadecimal digits only. -/
theorem netip.parseIPv6.hexLoop_consumed :
    ∀ (s : List Char) (off acc : Nat) (r : Nat × Nat × List Char),
      netip.parseIPv6.hexLoop s off acc = some r →
      ∃ pre, s = pre ++ r.2.2 ∧ ∀ c ∈ pre, (netip.hexVal c).isSome = true := by
  intro s
  induction s with
  | nil =>
    intro off acc r h
    simp only [netip.parseIPv6.hexLoop, Option.some.injEq] at h
    subst h
    exact ⟨[], rfl, by simp⟩
  | cons c cs ih =>
    intro off acc r h
    rw [netip.parseIPv6.hexLoop] at h
    cases hv : netip.hexVal c with
    | none =>
      simp only [hv, Option.some.injEq] at h
      subst h
      exact ⟨[], rfl, by simp⟩
    | some d =>
      simp only [hv] at h
      split at h
      · exact absurd h (by simp)
      · split at h
        · exact absurd h (by simp)
        · obtain ⟨pre, h1, h2⟩ := ih _ _ r h
          refine ⟨c :: pre, by simp [h1], ?_⟩
          intro x hx
          rcases List.mem_cons.1 hx with rfl | hx
          · simp [hv]
          · exact h2 x hx

/-- What the main loop of `parseIPv6` consumes is made of hexadecimal digits,
colons and dots; an ellipsis it records costs two colons, and without an
ellipsis every two bytes but the last four cost one colon. -/
theorem netip.parseIPv6.loop_consumed :
    ∀ (fuel i : Nat) (s : List Char) (ip : List Nat) (ell : Option Nat)
      (r : Nat × List Char × List Nat × Option Nat),
      netip.parseIPv6.loop fuel i s ip ell = some r →
      ∃ pre, s = pre ++ r.2.1 ∧
        (∀ c ∈ pre, (netip.hexVal c).isSome = true ∨ c = ':' ∨ c = '.') ∧
        (ell = none → r.2.2.2 ≠ none → 2 ≤ pre.count ':') ∧
        (r.2.2.2 = none → r.1 ≤ i + 2 * pre.count ':' + 4) := by
  intro fuel
  induction fuel with
  | zero =>
    intro i s ip ell r h
    simp only [netip.parseIPv6.loop, Option.some.injEq] at h
    subst h
    exact ⟨[], rfl, by simp, fun h1 h2 => absurd h1 h2, fun _ => by simp⟩
  | succ fuel ih =>
    intro i s ip ell r h
    rw [netip.parseIPv6.loop] at h
    split at h
    · simp only [Option.some.injEq] at h
      subst h
      exact ⟨[], rfl, by simp, fun h1 h2 => absurd h1 h2, fun _ => by simp⟩
    · split at h
      · exact absurd h (by simp)
      · rename_i off acc rest hhex
        obtain ⟨d, hd1, hd2⟩ := netip.parseIPv6.hexLoop_consumed s 0 0 _ hhex
        simp only at hd1
        have hdc : d.count ':' = 0 :=
          List.count_eq_zero_of_not_mem (fun hm => (netip.hexVal_isSome_plain _ (hd2 _ hm)).1 rfl)
        split at h
        · exact absurd h (by simp)
        · split at h
          · split at h
            · exact absurd h (by simp)
            · split at h
              · exact absurd h (by simp)
              · split at h
                · exact absurd h (by simp)
                · rename_i f hf
                  simp only [Option.some.injEq] at h
                  subst h
                  have hch := (netip.parseIPv4Fields_text s f hf).2.2
                  refine ⟨s, by simp, ?_, fun h1 h2 => absurd h1 h2, fun _ => by simp only; omega⟩
                  intro c hc
                  rcases hch c hc with h1 | h1
                  · left
                    simp only [netip.isDigit, Bool.and_eq_true, decide_eq_true_eq] at h1
                    simp [netip.hexVal, h1.1, h1.2]
                  · exact Or.inr (Or.inr h1)
          · simp only at h
            split at h
            · rename_i hrest
              simp only [Option.some.injEq] at h
              subst h
              refine ⟨d, by simp only [hd1, hrest], fun c hc => Or.inl (hd2 c hc),
                fun h1 h2 => absurd h1 h2, fun _ => by simp only; omega⟩
            · split at h
              · exact absurd h (by simp)
              · rename_i hcolon
                simp only [ne_eq, not_not] at hcolon
                split at h
                · exact absurd h (by simp)
                · cases rest with
                  | nil => simp at hcolon
                  | cons c0 s1 =>
                    simp only [List.head?_cons, Option.some.injEq] at hcolon
                    subst hcolon
                    simp only [List.tail_cons] at h
                    split at h
                    · rename_i h2c
                      cases s1 with
                      | nil => simp at h2c
                      | cons c1 s2 =>
                        simp only [List.head?_cons, Option.some.injEq] at h2c
                        subst h2c
                        simp only [List.tail_cons] at h
                        split at h
                        · exact absurd h (by simp)
                        · split at h
                          · rename_i hs2
                            simp only [Option.some.injEq] at h
                            subst h
                            refine ⟨d ++ [':', ':'], by simp [hd1, hs2], ?_, ?_, ?_⟩
                            · intro c hc
                              rcases List.mem_append.1 hc with h1 | h1
                              · exact Or.inl (hd2 c h1)
                              · simp only [List.mem_cons, List.mem_singleton,
                                  List.not_mem_nil, or_false, or_self] at h1
                                exact Or.inr (Or.inl h1)
                            · intro _ _
                              simp [List.count_append, hdc]
                            · intro hn
                              simp at hn
                          · obtain ⟨pre2, hp1, hp2, hp3, hp4⟩ := ih _ _ _ _ r h
                            refine ⟨d ++ ':' :: ':' :: pre2, by simp [hd1, hp1], ?_, ?_, ?_⟩
                            · intro c hc
                              simp only [List.mem_append, List.mem_cons] at hc
                              rcases hc with h1 | h1 | h1 | h1
                              · exact Or.inl (hd2 c h1)
                              · exact Or.inr (Or.inl h1)
                              · exact Or.inr (Or.inl h1)
                              · exact hp2 c h1
                            · intro _ _
                              simp only [List.count_append, List.count_cons_self, hdc]
                              omega
                            · intro hn
                              have := hp4 hn
                              simp only [List.count_append, List.count_cons_self, hdc]
                              omega
                    · obtain ⟨pre2, hp1, hp2, hp3, hp4⟩ := ih _ _ _ _ r h
                      refine ⟨d ++ ':' :: pre2, by simp [hd1, hp1], ?_, ?_, ?_⟩
                      · intro c hc
                        simp only [List.mem_append, List.mem_cons] at hc
                        rcases hc with h1 | h1 | h1
                        · exact Or.inl (hd2 c h1)
                        · exact Or.inr (Or.inl h1)
                        · exact hp2 c h1
                      · intro he hr
                        have := hp3 he hr
                        simp only [List.count_append, List.count_cons_self, hdc]
                        omega
                      · intro hn
                        have := hp4 hn
                        simp only [List.count_append, List.count_cons_self, hdc]
                        omega


theorem netip.parseIPv6.finish_some (zone : List Char)
    (r : Option (Nat × List Char × List Nat × Option Nat)) (a : netip.Addr)
    (h : netip.parseIPv6.finish zone r = some a) :
    a.Zone = zone ∧ ∃ i ip ell, r = some (i, [], ip, ell) ∧
      ((i < 16 ∧ ell ≠ none) ∨ (¬ i < 16 ∧ ell = none)) := by
  unfold netip.parseIPv6.finish at h
  split at h
  · exact absurd h (by simp)
  · rename_i i rest ip ell
    split at h
    · exact absurd h (by simp)
    · rename_i hrest
      simp only [ne_eq, not_not] at hrest
      subst hrest
      split at h
      · rename_i hi
        split at h
        · exact absurd h (by simp)
        · rename_i e
          simp only [Option.some.injEq] at h
          subst h
          exact ⟨rfl, i, ip, some e, rfl, Or.inl ⟨hi, by simp⟩⟩
      · rename_i hi
        split at h
        · exact absurd h (by simp)
        · rename_i hell
          simp only [Option.some.injEq] at h
          subst h
          refine ⟨rfl, i, ip, ell, rfl, Or.inr ⟨hi, ?_⟩⟩
          cases ell with
          | none => rfl
          | some e => simp at hell

/-- A text `parseIPv6` accepts without a zone is made of hexadecimal digits,
colons and dots and holds at least two colons. -/
theorem netip.parseIPv6_text (s : List Char) (a : netip.Addr)
    (h : netip.parseIPv6 s = some a) (hz : a.Zone = []) :
    (∀ c ∈ s, (netip.hexVal c).isSome = true ∨ c = ':' ∨ c = '.') ∧ 2 ≤ s.count ':' := by
  have hfin : ∀ (zone s0 : List Char) (ell0 : Option Nat),
      netip.parseIPv6.finish zone
        (netip.parseIPv6.loop 8 0 s0 (List.replicate 16 0) ell0) = some a →
      zone = [] ∧ (∀ c ∈ s0, (netip.hexVal c).isSome = true ∨ c = ':' ∨ c = '.') ∧
        (ell0 = none → 2 ≤ s0.count ':') := by
    intro zone s0 ell0 hf
    obtain ⟨hzone, i, ip, ell, hr, hcase⟩ := netip.parseIPv6.finish_some _ _ a hf
    obtain ⟨pre, h1, h2, h3, h4⟩ := netip.parseIPv6.loop_consumed 8 0 s0 _ ell0 _ hr
    simp only [List.append_nil] at h1
    subst h1
    refine ⟨hzone.symm.trans hz, h2, ?_⟩
    intro he
    rcases hcase with ⟨_, hne⟩ | ⟨hi, hnone⟩
    · exact h3 he hne
    · have := h4 hnone
      simp only at this
      omega
  unfold netip.parseIPv6 at h
  dsimp only at h
  cases hp : bytealg.IndexByteString s '%' with
  | some k =>
    simp only [hp, Option.isSome_some, true_and] at h
    split_ifs at h
    all_goals first
      | (have hzz := (hfin _ _ _ h).1
         contradiction)
      | (simp only [Option.some.injEq] at h
         subst h
         simp only [netip.Addr.Zone] at hz
         contradiction)
  | none =>
    simp only [hp, Option.isSome_none, Bool.false_eq_true, false_and, if_false] at h
    by_cases hlead : s.head? = some ':' ∧ (s.drop 1).head? = some ':'
    · have hs : s = ':' :: ':' :: s.drop 2 := by
        obtain ⟨h1, h2⟩ := hlead
        cases s with
        | nil => simp at h1
        | cons c0 t =>
          simp only [List.head?_cons, Option.some.injEq] at h1
          subst h1
          cases t with
          | nil => simp at h2
          | cons c1 u =>
            simp only [List.drop_succ_cons, List.drop_zero, List.head?_cons,
              Option.some.injEq] at h2
            subst h2
            simp
      simp only [hlead, and_self, if_true, true_and] at h
      have hchars : (∀ c ∈ s.drop 2, (netip.hexVal c).isSome = true ∨ c = ':' ∨ c = '.') := by
        split_ifs at h with h0
        · rw [h0]
          simp
        · exact (hfin _ _ _ h).2.1
      constructor
      · intro c hc
        rw [hs] at hc
        simp only [List.mem_cons] at hc
        rcases hc with h1 | h1 | h1
        · exact Or.inr (Or.inl h1)
        · exact Or.inr (Or.inl h1)
        · exact hchars c h1
      · rw [hs]
        simp only [List.count_cons_self]
        omega
    · simp only [hlead, false_and, if_false] at h
      obtain ⟨_, h2, h3⟩ := hfin _ _ _ h
      exact ⟨h2, h3 rfl⟩


theorem bytealg.IndexByteString_append_cons (pre r : List Char) (c : Char) (h : c ∉ pre) :
    bytealg.IndexByteString (pre ++ c :: r) c = some pre.length := by
  induction pre with
  | nil => simp [bytealg.IndexByteString]
  | cons x xs ih =>
    simp only [List.mem_cons, not_or] at h
    simp [bytealg.IndexByteString, Ne.symm h.1, ih h.2]

/-- `net.SplitHostPort` on `[host]:port`, with a host free of brackets and a
port free of colons and brackets, returns that host and that port. -/
theorem net.splitHostPortChars_bracket (a p : List Char)
    (ha : ∀ c ∈ a, c ≠ '[' ∧ c ≠ ']')
    (hp : ∀ c ∈ p, c ≠ ':' ∧ c ≠ '[' ∧ c ≠ ']') :
    net.splitHostPortChars ('[' :: (a ++ ']' :: ':' :: p)) = some (a, p) := by
  have hpc : ':' ∉ p := fun h => (hp _ h).1 rfl
  have hlast : bytealg.LastIndexByteString ('[' :: (a ++ ']' :: ':' :: p)) ':' =
      some (a.length + 2) := by
    have := bytealg.LastIndexByteString_append ('[' :: (a ++ [']'])) p ':' hpc
    simpa using this
  have hfirst : bytealg.IndexByteString ('[' :: (a ++ ']' :: ':' :: p)) ']' =
      some (a.length + 1) := by
    have := bytealg.IndexByteString_append_cons ('[' :: a) (':' :: p) ']'
      (by
        intro hm
        rcases List.mem_cons.1 hm with e | e
        · exact absurd e (by decide)
        · exact (ha _ e).2 rfl)
    simpa using this
  have hnl : bytealg.IndexByteString (a ++ ']' :: ':' :: p) '[' = none := by
    apply bytealg.IndexByteString_eq_none
    intro hm
    simp only [List.mem_append, List.mem_cons] at hm
    rcases hm with e | e | e | e
    · exact (ha _ e).1 rfl
    · exact absurd e (by decide)
    · exact absurd e (by decide)
    · exact (hp _ e).2.1 rfl
  have hnr : bytealg.IndexByteString (':' :: p) ']' = none := by
    apply bytealg.IndexByteString_eq_none
    intro hm
    rcases List.mem_cons.1 hm with e | e
    · exact absurd e (by decide)
    · exact (hp _ e).2.2 rfl
  unfold net.splitHostPortChars
  rw [hlast]
  simp only [List.head?_cons, if_true, hfirst]
  have e1 : ¬ a.length + 1 + 1 = ('[' :: (a ++ ']' :: ':' :: p)).length := by
    simp only [List.length_cons, List.length_append]
    omega
  have hd1 : List.drop 1 ('[' :: (a ++ ']' :: ':' :: p)) = a ++ ']' :: ':' :: p := rfl
  have hd2 : List.drop (a.length + 1 + 1) ('[' :: (a ++ ']' :: ':' :: p)) = ':' :: p := by
    rw [List.drop_succ_cons, List.drop_append_eq_append_drop]
    simp
  have hd3 : List.drop (a.length + 2 + 1) ('[' :: (a ++ ']' :: ':' :: p)) = p := by
    rw [List.drop_succ_cons, List.drop_append_eq_append_drop]
    simp
  have ht : List.drop 1 (List.take (a.length + 1) ('[' :: (a ++ ']' :: ':' :: p))) = a := by
    rw [List.take_succ_cons, List.drop_succ_cons, List.drop_zero, List.take_left' rfl]
  simp only [e1, if_false, show a.length + 1 + 1 = a.length + 2 by omega, if_true] at hd2 ⊢
  rw [hd1, hnl, hd2, hnr, hd3, ht]
  simp


theorem bytealg.LastIndexByteString_append_mem (pre p : List Char) (c : Char) (h : c ∈ p) :
    ∃ j, bytealg.LastIndexByteString (pre ++ p) c = some (pre.length + j) := by
  induction pre with
  | nil =>
    cases hl : bytealg.LastIndexByteString p c with
    | none => exact absurd h (bytealg.not_mem_of_LastIndexByteString_none p c hl)
    | some j => exact ⟨j, by simp [hl]⟩
  | cons x xs ih =>
    obtain ⟨j, hj⟩ := ih
    exact ⟨j, by simp [bytealg.LastIndexByteString, hj]; omega⟩

/-- `host:port` with a colon or a bracket in the port text is not valid
host:port syntax: `net.SplitHostPort` reports an error. -/
theorem net.splitHostPortChars_bad_port (a p : List Char)
    (ha : ∀ c ∈ a, c ≠ ':' ∧ c ≠ '[' ∧ c ≠ ']')
    (hp : ¬ ∀ c ∈ p, c ≠ ':' ∧ c ≠ '[' ∧ c ≠ ']') :
    net.splitHostPortChars (a ++ ':' :: p) = none := by
  have hhead : (a ++ ':' :: p).head? ≠ some '[' := by
    intro e
    have hm := List.mem_of_mem_head? e
    rcases List.mem_append.1 hm with h | h
    · exact (ha _ h).2.1 rfl
    · rcases List.mem_cons.1 h with h | h
      · exact absurd h (by decide)
      · cases a with
        | nil => simp at e
        | cons x xs =>
          simp only [List.cons_append, List.head?_cons, Option.some.injEq] at e
          exact (ha x (by simp)).2.1 e
  by_cases hpc : ':' ∈ p
  · apply net.splitHostPortChars_two_colons _ hhead
    have : 1 ≤ p.count ':' := List.count_pos_iff.2 hpc
    simp only [List.count_append, List.count_cons_self]
    omega
  · have hac : ':' ∉ a := fun h => (ha _ h).1 rfl
    have hbr : '[' ∈ a ++ ':' :: p ∨ ']' ∈ a ++ ':' :: p := by
      simp only [not_forall] at hp
      obtain ⟨c, hc, hbad⟩ := hp
      have : c = ':' ∨ c = '[' ∨ c = ']' := by
        by_contra hcon
        simp only [not_or] at hcon
        exact hbad ⟨hcon.1, hcon.2.1, hcon.2.2⟩
      rcases this with rfl | rfl | rfl
      · exact absurd hc hpc
      · exact Or.inl (by simp [hc])
      · exact Or.inr (by simp [hc])
    unfold net.splitHostPortChars
    rw [bytealg.LastIndexByteString_append a p ':' hpc]
    simp only [hhead, if_false, List.take_left' rfl,
      bytealg.IndexByteString_eq_none _ _ hac, Option.isSome_none, Bool.false_eq_true]
    rcases hbr with h | h
    · simp [bytealg.IndexByteString_isSome_of_mem _ _ h]
    · simp [bytealg.IndexByteString_isSome_of_mem _ _ h]

/-- `[host]:port` with a colon or a bracket in the port text is not valid
host:port syntax: `net.SplitHostPort` reports an error. -/
theorem net.splitHostPortChars_bracket_bad_port (a p : List Char)
    (ha : ∀ c ∈ a, c ≠ '[' ∧ c ≠ ']')
    (hp : ¬ ∀ c ∈ p, c ≠ ':' ∧ c ≠ '[' ∧ c ≠ ']') :
    net.splitHostPortChars ('[' :: (a ++ ']' :: ':' :: p)) = none := by
  have hfirst : bytealg.IndexByteString ('[' :: (a ++ ']' :: ':' :: p)) ']' =
      some (a.length + 1) := by
    have := bytealg.IndexByteString_append_cons ('[' :: a) (':' :: p) ']'
      (by
        intro hm
        rcases List.mem_cons.1 hm with e | e
        · exact absurd e (by decide)
        · exact (ha _ e).2 rfl)
    simpa using this
  have hlen : ¬ a.length + 1 + 1 = ('[' :: (a ++ ']' :: ':' :: p)).length := by
    simp only [List.length_cons, List.length_append]
    omega
  by_cases hpc : ':' ∈ p
  · obtain ⟨j, hj⟩ := bytealg.LastIndexByteString_append_mem ('[' :: (a ++ [']', ':'])) p ':' hpc
    have hlast : bytealg.LastIndexByteString ('[' :: (a ++ ']' :: ':' :: p)) ':' =
        some (a.length + 3 + j) := by
      have e : '[' :: (a ++ ']' :: ':' :: p) = ('[' :: (a ++ [']', ':'])) ++ p := by simp
      rw [e, hj]
      simp
    unfold net.splitHostPortChars
    rw [hlast]
    simp only [List.head?_cons, if_true, hfirst, hlen, if_false,
      show ¬ a.length + 1 + 1 = a.length + 3 + j by omega]
  · have hlast : bytealg.LastIndexByteString ('[' :: (a ++ ']' :: ':' :: p)) ':' =
        some (a.length + 2) := by
      have := bytealg.LastIndexByteString_append ('[' :: (a ++ [']'])) p ':' hpc
      simpa using this
    have hbr : '[' ∈ p ∨ ']' ∈ p := by
      simp only [not_forall] at hp
      obtain ⟨c, hc, hbad⟩ := hp
      have : c = ':' ∨ c = '[' ∨ c = ']' := by
        by_contra hcon
        simp only [not_or] at hcon
        exact hbad ⟨hcon.1, hcon.2.1, hcon.2.2⟩
      rcases this with rfl | rfl | rfl
      · exact absurd hc hpc
      · exact Or.inl hc
      · exact Or.inr hc
    have hd1 : List.drop 1 ('[' :: (a ++ ']' :: ':' :: p)) = a ++ ']' :: ':' :: p := rfl
    have hd2 : List.drop (a.length + 2) ('[' :: (a ++ ']' :: ':' :: p)) = ':' :: p := by
      rw [List.drop_succ_cons, List.drop_append_eq_append_drop]
      simp
    unfold net.splitHostPortChars
    rw [hlast]
    simp only [List.head?_cons, if_true, hfirst, hlen, if_false,
      show a.length + 1 + 1 = a.length + 2 by omega, hd1, hd2]
    rcases hbr with h | h
    · have hm : '[' ∈ a ++ ']' :: ':' :: p := by simp [h]
      simp [bytealg.IndexByteString_isSome_of_mem _ _ hm]
    · have hm : ']' ∈ ':' :: p := by simp [h]
      simp [bytealg.IndexByteString_isSome_of_mem _ _ hm]


theorem netip.ParseAddr.scan_cases (s : List Char) :
    ∀ (t : List Char) (a : netip.Addr), netip.ParseAddr.scan s t = some a →
      netip.parseIPv4 s = some a ∨ netip.parseIPv6 s = some a := by
  intro t
  induction t with
  | nil => intro a h; simp [netip.ParseAddr.scan] at h
  | cons c rest ih =>
    intro a h
    rw [netip.ParseAddr.scan] at h
    split at h
    · exact Or.inl h
    · split at h
      · exact Or.inr h
      · split at h
        · exact absurd h (by simp)
        · exact ih a h

/-- A text with a colon that `net.ParseIP` accepts is an IPv6 text: it is made
of hexadecimal digits, colons and dots, and holds at least two colons. -/
theorem net.ParseIP_v6_text (a : String) (ip : net.IP) (h : net.ParseIP a = some ip)
    (hc : ':' ∈ a.data) :
    (∀ c ∈ a.data, (netip.hexVal c).isSome = true ∨ c = ':' ∨ c = '.') ∧
      2 ≤ a.data.count ':' := by
  unfold net.ParseIP at h
  split at h
  · exact absurd h (by simp)
  · rename_i addr haddr
    split at h
    · exact absurd h (by simp)
    · rename_i hz
      simp only [ne_eq, not_not] at hz
      rcases netip.ParseAddr.scan_cases a.data a.data addr haddr with h4 | h6
      · exfalso
        unfold netip.parseIPv4 at h4
        cases hf : netip.parseIPv4Fields a.data with
        | none => simp [hf] at h4
        | some f =>
          have := (netip.parseIPv4Fields_text a.data f hf).2.2 ':' hc
          revert this
          decide
      · exact netip.parseIPv6_text a.data addr h6 hz

/-- The characters of an IPv6 text are none of `[`, `]`. -/
theorem netip.v6_char_plain (c : Char)
    (h : (netip.hexVal c).isSome = true ∨ c = ':' ∨ c = '.') : c ≠ '[' ∧ c ≠ ']' := by
  rcases h with h | rfl | rfl
  · exact (netip.hexVal_isSome_plain c h).2
  · decide
  · decide

/-! ## Port stripping in `getIP` (C15) -/

/-- C15. `getIP` strips a port when the token is valid host:port syntax and
parses the token as it stands otherwise.
* For a valid IPv4 text `a` and a port text `p` (any text without colon or
  bracket), `a:p` splits into `a` and `p` and `getIP` returns what it returns
  for `a`; whenever `a:p` is valid host:port syntax this is so, and a `p` with
  a colon or a bracket makes `a:p` invalid host:port syntax.
* For a valid IPv6 text `a`, the same holds of `[a]:p`.
* A token on which `net.SplitHostPort` reports an error is parsed as it
  stands; a bare valid IPv6 text is such a token. -/
theorem getIP_strips_port (g : GetRealIP) :
    (∀ (a p : String) (ip : net.IP), net.ParseIP a = some ip → ':' ∉ a.data →
      ((∀ c ∈ p.data, c ≠ ':' ∧ c ≠ '[' ∧ c ≠ ']') →
        net.SplitHostPort (a ++ ":" ++ p) = (a, p, false) ∧
          g.getIP (a ++ ":" ++ p) = g.getIP a) ∧
      ((net.SplitHostPort (a ++ ":" ++ p)).2.2 = false →
        g.getIP (a ++ ":" ++ p) = g.getIP a) ∧
      g.getIP a = some ip) ∧
    (∀ (a p : String) (ip : net.IP), net.ParseIP a = some ip → ':' ∈ a.data →
      ((∀ c ∈ p.data, c ≠ ':' ∧ c ≠ '[' ∧ c ≠ ']') →
        net.SplitHostPort ("[" ++ a ++ "]:" ++ p) = (a, p, false) ∧
          g.getIP ("[" ++ a ++ "]:" ++ p) = g.getIP a) ∧
      ((net.SplitHostPort ("[" ++ a ++ "]:" ++ p)).2.2 = false →
        g.getIP ("[" ++ a ++ "]:" ++ p) = g.getIP a) ∧
      (net.SplitHostPort a).2.2 = true ∧
      g.getIP a = some ip) ∧
    (∀ s : String, (net.SplitHostPort s).2.2 = true → g.getIP s = net.ParseIP s) := by
  have hfall : ∀ s : String, (net.SplitHostPort s).2.2 = true → g.getIP s = net.ParseIP s := by
    intro s hs
    simp [GetRealIP.getIP, hs]
  have hhost : ∀ (s a p : String), net.SplitHostPort s = (a, p, false) →
      g.getIP s = net.ParseIP a := by
    intro s a p hs
    simp [GetRealIP.getIP, hs]
  refine ⟨?_, ?_, hfall⟩
  · intro a p ip ha hc
    obtain ⟨_, hchars⟩ := net.ParseIP_v4_text a ip ha hc
    have hplain : ∀ c ∈ a.data, c ≠ ':' ∧ c ≠ '[' ∧ c ≠ ']' := fun c hcm =>
      ⟨(netip.digit_or_dot_plain c (hchars c hcm)).1,
        (netip.digit_or_dot_plain c (hchars c hcm)).2.1,
        (netip.digit_or_dot_plain c (hchars c hcm)).2.2.1⟩
    have hbare : g.getIP a = net.ParseIP a := GetRealIP.getIP_v4_text g a hc
    have hd : (a ++ ":" ++ p).data = a.data ++ ':' :: p.data := by simp
    have hgood : (∀ c ∈ p.data, c ≠ ':' ∧ c ≠ '[' ∧ c ≠ ']') →
        net.SplitHostPort (a ++ ":" ++ p) = (a, p, false) := by
      intro hp
      simp only [net.SplitHostPort, hd, net.splitHostPortChars_host_port a.data p.data hplain hp]
    refine ⟨fun hp => ⟨hgood hp, (hhost _ a p (hgood hp)).trans hbare.symm⟩, ?_,
      hbare.trans ha⟩
    intro hok
    by_cases hp : ∀ c ∈ p.data, c ≠ ':' ∧ c ≠ '[' ∧ c ≠ ']'
    · exact (hhost _ a p (hgood hp)).trans hbare.symm
    · exfalso
      simp [net.SplitHostPort, hd, net.splitHostPortChars_bad_port a.data p.data hplain hp]
        at hok
  · intro a p ip ha hc
    obtain ⟨hchars, hcount⟩ := net.ParseIP_v6_text a ip ha hc
    have hplain : ∀ c ∈ a.data, c ≠ '[' ∧ c ≠ ']' := fun c hcm =>
      netip.v6_char_plain c (hchars c hcm)
    have hhead : a.data.head? ≠ some '[' := fun e =>
      (hplain _ (List.mem_of_mem_head? e)).1 rfl
    have herr : (net.SplitHostPort a).2.2 = true := by
      simp [net.SplitHostPort, net.splitHostPortChars_two_colons _ hhead hcount]
    have hbare : g.getIP a = net.ParseIP a := hfall a herr
    have hd : ("[" ++ a ++ "]:" ++ p).data = '[' :: (a.data ++ ']' :: ':' :: p.data) := by
      simp
    have hgood : (∀ c ∈ p.data, c ≠ ':' ∧ c ≠ '[' ∧ c ≠ ']') →
        net.SplitHostPort ("[" ++ a ++ "]:" ++ p) = (a, p, false) := by
      intro hp
      simp only [net.SplitHostPort, hd, net.splitHostPortChars_bracket a.data p.data hplain hp]
    refine ⟨fun hp => ⟨hgood hp, (hhost _ a p (hgood hp)).trans hbare.symm⟩, ?_, herr,
      hbare.trans ha⟩
    intro hok
    by_cases hp : ∀ c ∈ p.data, c ≠ ':' ∧ c ≠ '[' ∧ c ≠ ']'
    · exact (hhost _ a p (hgood hp)).trans hbare.symm
    · exfalso
      simp [net.SplitHostPort, hd,
        net.splitHostPortChars_bracket_bad_port a.data p.data hplain hp] at hok


/-- Examples for C15: a port is stripped from an IPv4 and from a bracketed
IPv6 token. -/
theorem getIP_strips_port_examples :
    (exPlugin []).getIP ("203.0.113.5" ++ ":" ++ "8080") = (exPlugin []).getIP "203.0.113.5" ∧
    (exPlugin []).getIP ("[" ++ "2001:db8::1" ++ "]:" ++ "443") =
      (exPlugin []).getIP "2001:db8::1" :=
  ⟨(((getIP_strips_port (exPlugin [])).1 "203.0.113.5" "8080"
      [0, 0, 0, 0, 0, 0, 0, 0, 0, 0, 255, 255, 203, 0, 113, 5] (by decide) (by decide)).1
      (by decide)).2,
    (((getIP_strips_port (exPlugin [])).2.1 "2001:db8::1" "443"
      [0x20, 0x01, 0x0d, 0xb8, 0, 0, 0, 0, 0, 0, 0, 0, 0, 0, 0, 1] (by decide) (by decide)).1
      (by decide)).2⟩

/-! ## Candidate parsing (C16) -/

theorem strings.splitChars_ne_nil (sep : Char) (s : List Char) :
    strings.splitChars sep s ≠ [] := by
  cases s with
  | nil => simp [strings.splitChars]
  | cons c cs =>
    rw [strings.splitChars]
    split
    · simp
    · split <;> simp

theorem strings.splitChars_cons_ne (sep c : Char) (cs : List Char) (h : c ≠ sep) :
    ∃ t ts, strings.splitChars sep cs = t :: ts ∧
      strings.splitChars sep (c :: cs) = (c :: t) :: ts := by
  cases hs : strings.splitChars sep cs with
  | nil => exact absurd hs (strings.splitChars_ne_nil sep cs)
  | cons t ts =>
    refine ⟨t, ts, rfl, ?_⟩
    rw [strings.splitChars]
    simp [h, hs]

/-- `strings.Split` yields one more piece than the text has separators. -/
theorem strings.splitChars_length (sep : Char) (s : List Char) :
    (strings.splitChars sep s).length = s.count sep + 1 := by
  induction s with
  | nil => rfl
  | cons c cs ih =>
    by_cases h : c = sep
    · subst h
      rw [strings.splitChars]
      simp [ih]
    · obtain ⟨t, ts, h1, h2⟩ := strings.splitChars_cons_ne sep c cs h
      rw [h2]
      rw [h1] at ih
      rw [List.count_cons_of_ne (fun e => h e.symm)]
      simpa using ih

/-- No piece `strings.Split` yields holds the separator. -/
theorem strings.splitChars_no_sep_in_piece (sep : Char) (s : List Char) :
    ∀ t ∈ strings.splitChars sep s, sep ∉ t := by
  induction s with
  | nil => intro t ht; simp [strings.splitChars] at ht; simp [ht]
  | cons c cs ih =>
    intro t ht
    by_cases h : c = sep
    · subst h
      rw [strings.splitChars] at ht
      simp only [if_true, List.mem_cons] at ht
      rcases ht with rfl | ht
      · simp
      · exact ih t ht
    · obtain ⟨u, us, h1, h2⟩ := strings.splitChars_cons_ne sep c cs h
      rw [h2] at ht
      rw [h1] at ih
      rcases List.mem_cons.1 ht with rfl | ht
      · intro hm
        rcases List.mem_cons.1 hm with e | e
        · exact h e.symm
        · exact ih u (by simp) e
      · exact ih t (by simp [ht])

/-- Joining the pieces `strings.Split` yields, in their order, with the
separator gives the text back. -/
theorem strings.splitChars_intercalate (sep : Char) (s : List Char) :
    List.intercalate [sep] (strings.splitChars sep s) = s := by
  induction s with
  | nil => simp [strings.splitChars, List.intercalate]
  | cons c cs ih =>
    by_cases h : c = sep
    · subst h
      rw [strings.splitChars]
      simp only [if_true]
      cases hs : strings.splitChars c cs with
      | nil => exact absurd hs (strings.splitChars_ne_nil c cs)
      | cons t ts =>
        rw [hs] at ih
        simp only [List.intercalate, List.intersperse] at ih ⊢
        simp only [List.flatten_cons, List.nil_append, List.singleton_append] at ih ⊢
        rw [ih]
    · obtain ⟨t, ts, h1, h2⟩ := strings.splitChars_cons_ne sep c cs h
      rw [h2]
      rw [h1] at ih
      cases ts with
      | nil =>
        simp only [List.intercalate, List.intersperse, List.flatten_cons, List.flatten_nil,
          List.append_nil] at ih ⊢
        rw [ih]
      | cons u us =>
        simp only [List.intercalate, List.intersperse, List.flatten_cons,
          List.cons_append] at ih ⊢
        rw [ih]


/-- `strings.TrimSpace` removes a run of white space at each end and nothing
else, and what is left neither starts nor ends with white space. -/
theorem strings.trimChars_spec (s : List Char) :
    ∃ l r, s = l ++ strings.trimChars s ++ r ∧
      (∀ c ∈ l, unicode.IsSpace c = true) ∧ (∀ c ∈ r, unicode.IsSpace c = true) ∧
      (∀ c, (strings.trimChars s).head? = some c → unicode.IsSpace c = false) ∧
      (∀ c, (strings.trimChars s).getLast? = some c → unicode.IsSpace c = false) := by
  have hm : (s.dropWhile unicode.IsSpace) =
      strings.trimChars s ++
        ((s.dropWhile unicode.IsSpace).reverse.takeWhile unicode.IsSpace).reverse := by
    unfold strings.trimChars
    rw [← List.reverse_append, List.takeWhile_append_dropWhile, List.reverse_reverse]
  refine ⟨s.takeWhile unicode.IsSpace,
    ((s.dropWhile unicode.IsSpace).reverse.takeWhile unicode.IsSpace).reverse, ?_, ?_, ?_, ?_,
    ?_⟩
  · rw [List.append_assoc, ← hm, List.takeWhile_append_dropWhile]
  · intro c hc
    exact (List.mem_takeWhile_imp hc)
  · intro c hc
    exact List.mem_takeWhile_imp (List.mem_reverse.1 hc)
  · intro c hc
    have h1 := List.head?_dropWhile_not unicode.IsSpace s
    have h2 : (s.dropWhile unicode.IsSpace).head? = some c := by
      rw [hm]
      cases ht : strings.trimChars s with
      | nil => simp [ht] at hc
      | cons x xs =>
        simp only [ht, List.head?_cons, Option.some.injEq] at hc
        simp [hc]
    rw [h2] at h1
    exact h1
  · intro c hc
    have h1 := List.head?_dropWhile_not unicode.IsSpace (s.dropWhile unicode.IsSpace).reverse
    unfold strings.trimChars at hc
    rw [List.getLast?_reverse] at hc
    rw [hc] at h1
    exact h1

/-! ### The claim -/

/-- C16. The candidate list is `strings.Split(raw, ",")`: joining its pieces in
their order with commas gives `raw` back and no piece holds a comma, so the
pieces are the comma-separated pieces of `raw` in the original order, none
dropped, merged or moved; there is one more piece than `raw` has commas; the
scan parses each piece only after `strings.TrimSpace`, which strips a run of
white space at each end and nothing else; and the empty raw value gives the
single empty piece, which is no IP, so a trusted rule whose source is empty
resolves nothing and the loop goes on without writing. -/
theorem candidate_list_is_comma_split (g : GetRealIP) (raw : String) :
    (List.intercalate [','] ((strings.Split raw ',').map String.data) = raw.data ∧
      ∀ t ∈ strings.Split raw ',', ',' ∉ t.data) ∧
    (strings.Split raw ',').length = raw.data.count ',' + 1 ∧
    (∀ cur : String, g.scanForwardedIPs (strings.Split raw ',') cur =
      match (strings.Split raw ',').findSome? (fun t => g.getIP (strings.TrimSpace t)) with
      | some ip => net.IP.String ip
      | none => cur) ∧
    (∀ t : String, ∃ l r, t.data = l ++ (strings.TrimSpace t).data ++ r ∧
      (∀ c ∈ l, unicode.IsSpace c = true) ∧ (∀ c ∈ r, unicode.IsSpace c = true) ∧
      (∀ c, (strings.TrimSpace t).data.head? = some c → unicode.IsSpace c = false) ∧
      (∀ c, (strings.TrimSpace t).data.getLast? = some c → unicode.IsSpace c = false)) ∧
    (strings.Split "" ',' = [""] ∧ g.getIP (strings.TrimSpace "") = none ∧
      (∀ (proxy : Proxy) (req : Request), proxy.RealIP ≠ remoteAddr →
        req.Header (textproto.CanonicalMIMEHeaderKey proxy.RealIP) = none →
        g.sourceValue proxy req = "") ∧
      ∀ (proxy : Proxy) (rest : List Proxy) (req : Request),
        g.sourceValue proxy req = "" →
        g.resolve proxy req "" = "" ∧
          g.rulesLoop (proxy :: rest) "" req = g.rulesLoop rest "" req) := by
  have hempty : g.getIP (strings.TrimSpace "") = none := by
    unfold GetRealIP.getIP
    decide
  refine ⟨⟨?_, ?_⟩, ?_, ?_, ?_, by decide, hempty, ?_, ?_⟩
  · have : (strings.Split raw ',').map String.data = strings.splitChars ',' raw.data := by
      simp [strings.Split, Function.comp_def]
    rw [this, strings.splitChars_intercalate]
  · intro t ht
    simp only [strings.Split, List.mem_map] at ht
    obtain ⟨u, hu, rfl⟩ := ht
    exact strings.splitChars_no_sep_in_piece ',' raw.data u hu
  · simp [strings.Split, strings.splitChars_length]
  · intro cur
    exact GetRealIP.scanForwardedIPs_eq_findSome g _ cur
  · intro t
    exact strings.trimChars_spec t.data
  · intro proxy req hne habs
    simp [GetRealIP.sourceValue, hne, http.Header.Get, habs]
  · intro proxy rest req hsrc
    have hres : g.resolve proxy req "" = "" := by
      apply GetRealIP.resolve_none
      rw [hsrc, show strings.Split "" ',' = [""] by decide]
      intro t ht
      rw [List.mem_singleton.1 ht]
      exact hempty
    exact ⟨hres, GetRealIP.rulesLoop_skip g proxy rest req hres⟩

/-! ## The `RemoteAddr` sentinel and the header of the same name (C17) -/

/-- C17, as stated, fails for a rule whose trust header is itself the header
named `RemoteAddr`: two requests from the same peer that differ only in the
value of that header are then trusted and not trusted, so one resolves the
peer IP and the other resolves nothing. -/
theorem remoteAddr_header_as_trust_header_interferes :
    exRuleTrustRA.RealIP = remoteAddr ∧
    (exRequestSpoof "10.0.0.1").RemoteAddr = (exRequestSpoof "6.6.6.6").RemoteAddr ∧
    (∀ k, k ≠ "Remoteaddr" →
      (exRequestSpoof "10.0.0.1").Header k = (exRequestSpoof "6.6.6.6").Header k) ∧
    (exPlugin [exRuleTrustRA]).resolve exRuleTrustRA (exRequestSpoof "10.0.0.1") "" =
      "198.51.100.7" ∧
    (exPlugin [exRuleTrustRA]).resolve exRuleTrustRA (exRequestSpoof "6.6.6.6") "" = "" := by
  refine ⟨by decide, by decide, ?_, by decide, by decide⟩
  intro k hk
  simp [exRequestSpoof, exHeader, hk]

/-- C17 (amended). For a rule with `RealIP = "RemoteAddr"` the raw value is
read from the peer address alone: two requests with the same peer address
have the same raw value whatever their headers. If moreover the rule's trust
header is not the header named `RemoteAddr` and the two requests agree on
every header other than that one, the rule resolves the same IP on both (or
nothing on both). -/
theorem remoteAddr_header_never_source (g : GetRealIP) (proxy : Proxy) (req1 req2 : Request)
    (hsrc : proxy.RealIP = remoteAddr)
    (hpeer : req1.RemoteAddr = req2.RemoteAddr)
    (hagree : ∀ k, k ≠ "Remoteaddr" → req1.Header k = req2.Header k)
    (htrust : textproto.CanonicalMIMEHeaderKey proxy.ProxyHeadername ≠ "Remoteaddr") :
    g.sourceValue proxy req1 = g.sourceValue proxy req2 ∧
    g.sourceValue proxy req1 = (net.SplitHostPort req1.RemoteAddr).1 ∧
    g.trusted proxy req1 = g.trusted proxy req2 ∧
    g.resolve proxy req1 "" = g.resolve proxy req2 "" := by
  have hs1 : ∀ r : Request, g.sourceValue proxy r = (net.SplitHostPort r.RemoteAddr).1 := by
    intro r
    simp [GetRealIP.sourceValue, hsrc]
  have hs : g.sourceValue proxy req1 = g.sourceValue proxy req2 := by
    rw [hs1, hs1, hpeer]
  have ht : g.trusted proxy req1 = g.trusted proxy req2 := by
    simp only [GetRealIP.trusted, http.Header.Get, hagree _ htrust]
  refine ⟨hs, hs1 req1, ht, ?_⟩
  simp only [GetRealIP.resolve, ht, hs]

/-- Witness for C17 (amended): the wildcard rule reading the peer address on
two requests that carry different `RemoteAddr` headers. -/
theorem remoteAddr_header_never_source_witness :
    (exRulePeer.RealIP = remoteAddr ∧
      textproto.CanonicalMIMEHeaderKey exRulePeer.ProxyHeadername ≠ "Remoteaddr") ∧
    (exPlugin [exRulePeer]).resolve exRulePeer (exRequestSpoof "10.0.0.1") "" =
      (exPlugin [exRulePeer]).resolve exRulePeer (exRequestSpoof "6.6.6.6") "" :=
  ⟨by decide,
    (remoteAddr_header_never_source (exPlugin [exRulePeer]) exRulePeer
      (exRequestSpoof "10.0.0.1") (exRequestSpoof "6.6.6.6") (by decide) (by decide)
      (fun k hk => by simp [exRequestSpoof, exHeader, hk]) (by decide)).2.2.2⟩

/-! ## The value written is canonical (C18) -/

/-- The canonical text of a well-formed address is not a host:port text:
`net.SplitHostPort` reports an error on it. -/
theorem net.SplitHostPort_String (ip : net.IP) (hlen : ip.length = 16)
    (hb : ∀ x ∈ ip, x < 256) : (net.SplitHostPort (net.IP.String ip)).2.2 = true := by
  rcases net.IP.String_shape ip hlen hb with h | ⟨h, hcount⟩
  · have hc : ':' ∉ (net.IP.String ip).data := fun hm =>
      (netip.digit_or_dot_plain _ (h _ hm)).1 rfl
    simp [net.SplitHostPort, net.splitHostPortChars_no_colon _ hc]
  · have hhead : (net.IP.String ip).data.head? ≠ some '[' := fun e =>
      (netip.colon_or_hex_plain _ (h _ (List.mem_of_mem_head? e))).2.2.1 rfl
    simp [net.SplitHostPort, net.splitHostPortChars_two_colons _ hhead hcount]

/-- The canonical text of a well-formed address holds no comma and no white
space. -/
theorem net.IP.String_plain (ip : net.IP) (hlen : ip.length = 16) (hb : ∀ x ∈ ip, x < 256) :
    ∀ c ∈ (net.IP.String ip).data, c ≠ ',' ∧ unicode.IsSpace c = false := by
  intro c hc
  rcases net.IP.String_shape ip hlen hb with h | ⟨h, _⟩
  · have := netip.digit_or_dot_plain c (h c hc)
    exact ⟨this.2.2.2.1, this.2.2.2.2⟩
  · have := netip.colon_or_hex_plain c (h c hc)
    exact ⟨this.2.2.2.2.1, this.2.2.2.2.2⟩

/-- C18. When a rewrite is applied, by the first rule that passes its trust
check and has a candidate that parses (`ip` being the address its first valid
candidate parses to), the value written to `X-Real-Ip`, and to
`X-Forwarded-For` and `RemoteAddr` when the rule overwrites them, is the
canonical text of `ip`: it is not empty, it parses to `ip`, rendering what it
parses to gives the same text back, it is not a host:port text, and it holds
no comma and no white space (so trimming leaves it unchanged). -/
theorem written_value_canonical (g : GetRealIP) (pre : List Proxy) (proxy : Proxy)
    (post : List Proxy) (req : Request) (ip : net.IP)
    (hrules : g.proxy = pre ++ proxy :: post)
    (hpre : ∀ p ∈ pre, g.trusted p req = false ∨
      ∀ t ∈ strings.Split (g.sourceValue p req) ',', g.getIP (strings.TrimSpace t) = none)
    (ht : g.trusted proxy req = true)
    (hip : (strings.Split (g.sourceValue proxy req) ',').findSome?
      (fun t => g.getIP (strings.TrimSpace t)) = some ip) :
    ((g.ServeHTTP req).Header "X-Real-Ip" = some [net.IP.String ip] ∧
      (proxy.OverwriteXFF = true →
        (g.ServeHTTP req).Header "X-Forwarded-For" = some [net.IP.String ip]) ∧
      (proxy.OverwriteRA = true →
        (g.ServeHTTP req).Header "Remoteaddr" = some [net.IP.String ip])) ∧
    net.IP.String ip ≠ "" ∧
    net.ParseIP (net.IP.String ip) = some ip ∧
    (∀ ip1, net.ParseIP (net.IP.String ip) = some ip1 →
      net.IP.String ip1 = net.IP.String ip) ∧
    (net.SplitHostPort (net.IP.String ip)).2.2 = true ∧
    (∀ c ∈ (net.IP.String ip).data, c ≠ ',' ∧ unicode.IsSpace c = false) ∧
    strings.TrimSpace (net.IP.String ip) = net.IP.String ip := by
  have key : g.ServeHTTP req =
      { req with Header := g.rewrite proxy (net.IP.String ip) req.Header } := by
    unfold GetRealIP.ServeHTTP
    rw [hrules]
    exact GetRealIP.rulesLoop_first_winner g pre proxy post req ip hpre ht hip
  obtain ⟨t, _, hget⟩ := List.exists_of_findSome?_eq_some hip
  obtain ⟨hlen, hb⟩ := GetRealIP.getIP_bytes g _ ip hget
  have hparse := net.ParseIP_String ip hlen hb
  refine ⟨⟨?_, ?_, ?_⟩, net.IP.String_ne_empty ip, hparse, ?_,
    net.SplitHostPort_String ip hlen hb, net.IP.String_plain ip hlen hb,
    (GetRealIP.getIP_String g ip hlen hb).2.1⟩
  · rw [key]
    simp [GetRealIP.rewrite_apply]
  · intro hx
    rw [key]
    simp [GetRealIP.rewrite_apply, hx]
  · intro hr
    rw [key]
    simp [GetRealIP.rewrite_apply, hr]
  · intro ip1 h1
    rw [hparse] at h1
    rw [← Option.some.inj h1]

/-- Witness for C18: the CDN rule reads the raw token `203.0.113.5:443` and
writes the canonical text `203.0.113.5`. -/
theorem written_value_canonical_witness :
    ((exPlugin [exRuleCDN]).ServeHTTP
      { Header := fun k =>
          if k = "X-From-Cdn" then some ["cdn-1"]
          else if k = "Cf-Connecting-Ip" then some [" 203.0.113.5:443 , 10.0.0.1"]
          else none,
        RemoteAddr := "192.0.2.1:1234" }).Header "X-Real-Ip" = some ["203.0.113.5"] :=
  ((written_value_canonical (exPlugin [exRuleCDN]) [] exRuleCDN []
      { Header := fun k =>
          if k = "X-From-Cdn" then some ["cdn-1"]
          else if k = "Cf-Connecting-Ip" then some [" 203.0.113.5:443 , 10.0.0.1"]
          else none,
        RemoteAddr := "192.0.2.1:1234" }
      [0, 0, 0, 0, 0, 0, 0, 0, 0, 0, 255, 255, 203, 0, 113, 5]
      (by decide) (by decide) (by decide) (by decide)).1.1).trans (by decide)

end traefik_get_real_ip
